import Mathlib

/-!
Verification of the LeanDoc → Typst core (lexer `LeanDocLexer2.cpp`, parser
`LeanDocParser2.cpp`, generator `LeanDocTypstGen.cpp`) against its
natural-language specification.

The C++ code is shallowly embedded: a `QString` becomes a `List Char`
(named `Str` below), a `QStringList` a `List Str`, the token vector plus
cursor of the lexer becomes an immutable `List LineTok` together with a
`Nat` position, the exception-based parser becomes a fuel-indexed family of
total functions returning `PRes` (ok / parse error / out of fuel, the last
standing for a C++ run that has not terminated within the given fuel).
Reference line numbers below ("Lexer2" / "Parser2") point into the
repository sources.
-/

set_option maxHeartbeats 1000000

namespace LeanDocLD

/-- Characters of a `QString`, one list entry per character. -/
abbrev Str := List Char

/-- Shorthand to build a `Str` from a Lean string literal. -/
def str (s : String) : Str := s.data

/-- `QChar::isSpace` restricted to the ASCII range (space and the
control characters 9–13); the inputs in this development are ASCII. -/
def isSpaceC (c : Char) : Bool := c = ' ' ∨ (9 ≤ c.toNat ∧ c.toNat ≤ 13)

/-- Left trim, as in `QString::trimmed` (leading part). -/
def trimL (s : Str) : Str := s.dropWhile isSpaceC

/-- Right trim. -/
def trimR (s : Str) : Str := (s.reverse.dropWhile isSpaceC).reverse

/-- `QString::trimmed`. -/
def trimmed (s : Str) : Str := trimR (trimL s)

/-- `QString::startsWith`. -/
def startsW (s p : Str) : Bool := p.isPrefixOf s

/-- `QString::endsWith`. -/
def endsW (s p : Str) : Bool := p.reverse.isPrefixOf s.reverse

/-- `QString::contains(QChar)`. -/
def hasC (s : Str) (c : Char) : Bool := s.contains c

/-- `QString::mid(pos, len)`. -/
def sliceML (s : Str) (pos len : Nat) : Str := (s.drop pos).take len

/-- First index `≥ 0` in `s` at which `pat` occurs as a contiguous
substring (`QString::indexOf` with the result `-1` mapped to `none`). -/
def findSub (s pat : Str) : Option Nat :=
  if pat.isPrefixOf s then some 0
  else
    match s with
    | [] => none
    | _ :: rest => (findSub rest pat).map (· + 1)

/-- `QString::indexOf(pat, from)` (absolute index). -/
def idxS (s pat : Str) (start : Nat) : Option Nat :=
  (findSub (s.drop start) pat).map (· + start)

/-- `QString::indexOf(QChar, from)`. -/
def idxC (s : Str) (c : Char) (start : Nat) : Option Nat := idxS s [c] start

/-- Length of the run of `ch` at the start of `s`, capped at `maxN`:
the counting loop of `Lexer::startsWithRun` (Lexer2 114–125). -/
def runLen (s : Str) (ch : Char) (maxN : Nat) : Nat :=
  (s.take maxN).takeWhile (· = ch) |>.length

/-- Decimal digit character for `d < 10` (`QString::number` building block). -/
def digitChar10 (d : Nat) : Char :=
  match d with
  | 0 => '0' | 1 => '1' | 2 => '2' | 3 => '3' | 4 => '4'
  | 5 => '5' | 6 => '6' | 7 => '7' | 8 => '8' | 9 => '9'
  | _ => '*'

/-- The little-endian decimal digits of `n`; the fuel (any value `≥ n`)
keeps the recursion structural. -/
def natDigitsLE : Nat → Nat → List Nat
  | 0, _ => []
  | fuel + 1, n => if n = 0 then [] else n % 10 :: natDigitsLE fuel (n / 10)

/-- `QString::number(n)` for `n : Nat`. -/
def natToStr (n : Nat) : Str :=
  if n = 0 then ['0'] else ((natDigitsLE n n).reverse).map digitChar10

/-- Value of a decimal digit character (inverse of `digitChar10`). -/
def charDigit10 (c : Char) : Nat :=
  match c with
  | '0' => 0 | '1' => 1 | '2' => 2 | '3' => 3 | '4' => 4
  | '5' => 5 | '6' => 6 | '7' => 7 | '8' => 8 | '9' => 9
  | _ => 0

/-- Read a decimal numeral back (used only on values made by `natToStr`). -/
def strToNatD (s : Str) : Nat := s.foldl (fun a c => a * 10 + charDigit10 c) 0

/-- Join a list of strings with a separator, `QStringList::join`. -/
def joinSep (sep : Str) (xs : List Str) : Str :=
  match xs with
  | [] => []
  | [x] => x
  | x :: rest => x ++ sep ++ joinSep sep rest

/-- `QString::split('\n')`: split at every newline, keeping empty pieces. -/
def splitNl (s : Str) : List Str :=
  match s with
  | [] => [[]]
  | c :: cs =>
    match splitNl cs with
    | [] => [[]]
    | p :: ps => if c = '\n' then [] :: p :: ps else (c :: p) :: ps

/-! ### Line tokens and the lexer (`LeanDocLexer2.cpp`) -/

/-- `LineTok::Kind`.  The parser sources also reference
`T_DELIM_PASSTHROUGH` and `T_STEM_ATTR_LINE`; they are part of the token
enumeration (the spec lists `STEM_ATTR_LINE`) although `Lexer::classify`
never produces them. -/
inductive TokKind where
  | T_EOF | T_BLANK
  | T_BLOCK_ANCHOR | T_BLOCK_ATTRS | T_BLOCK_TITLE
  | T_SECTION | T_ADMONITION | T_LINE_COMMENT
  | T_THEMATIC | T_PAGEBREAK
  | T_UL_ITEM | T_OL_ITEM | T_DESC_TERM | T_LIST_CONT
  | T_DELIM_LISTING | T_DELIM_LITERAL | T_DELIM_QUOTE | T_DELIM_EXAMPLE
  | T_DELIM_SIDEBAR | T_DELIM_OPEN | T_DELIM_PASSTHROUGH | T_DELIM_COMMENT
  | T_STEM_ATTR_LINE
  | T_TABLE_DELIM | T_TABLE_LINE
  | T_BLOCK_MACRO | T_DIRECTIVE
  | T_TEXT
  deriving DecidableEq, Repr

open TokKind

/-- `struct LineTok` (LeanDocLexer2.h): one token per input line. -/
structure LineTok where
  kind : TokKind := T_EOF
  lineNo : Nat := 0
  raw : Str := []
  level : Nat := 0
  head : Str := []
  rest : Str := []
  deriving DecidableEq, Repr

/-- The classification chain of `Lexer::classify` (Lexer2 132–301), on the
already-trimmed line `s`; `line` is the untrimmed original. -/
def classifyCore (s line : Str) (lineNo : Nat) : LineTok :=
  if s = [] then { kind := T_BLANK, lineNo, raw := line }
  -- metadata lines
  else if startsW s (str "[[") ∧ endsW s (str "]]") then
    { kind := T_BLOCK_ANCHOR, lineNo, raw := line, rest := s }
  else if 2 ≤ s.length ∧ s.headD ' ' = '.' ∧ ¬ isSpaceC ((s.drop 1).headD ' ') then
    { kind := T_BLOCK_TITLE, lineNo, raw := line, rest := s.drop 1 }
  -- directives (preprocessor)
  else if startsW s (str "ifdef::") ∨ startsW s (str "ifndef::") ∨ startsW s (str "endif::") then
    let p := (idxS s (str "::") 0).getD 0
    { kind := T_DIRECTIVE, lineNo, raw := line, head := s.take p, rest := s.drop (p + 2) }
  -- block macros
  else if startsW s (str "include::") then
    let p := (idxS s (str "::") 0).getD 0
    { kind := T_BLOCK_MACRO, lineNo, raw := line, head := s.take p, rest := s.drop (p + 2) }
  else if (match idxS s (str "::") 0 with
           | some p => decide (0 < p) && (match idxC s '[' 0 with
                                          | some q => decide (p < q)
                                          | none => false)
           | none => false) then
    let p := (idxS s (str "::") 0).getD 0
    { kind := T_BLOCK_MACRO, lineNo, raw := line, head := s.take p, rest := s.drop (p + 2) }
  -- comments & breaks
  else if startsW s (str "//") then
    { kind := T_LINE_COMMENT, lineNo, raw := line, rest := s.drop 2 }
  else if s = str "\'\'\'" ∨ s = str "---" ∨ s = str "***" then
    { kind := T_THEMATIC, lineNo, raw := line }
  else if startsW s (str "<<<") then
    { kind := T_PAGEBREAK, lineNo, raw := line, rest := trimmed (s.drop 3) }
  -- section title =..====== (1..6) then space
  else if 1 ≤ runLen s '=' 6 ∧ runLen s '=' 6 < s.length ∧
          isSpaceC ((s.drop (runLen s '=' 6)).headD 'x') then
    let n := runLen s '=' 6
    { kind := T_SECTION, lineNo, raw := line, level := n, rest := trimmed (s.drop n) }
  -- lists
  else if 1 ≤ runLen s '*' 6 ∧ runLen s '*' 6 < s.length ∧
          isSpaceC ((s.drop (runLen s '*' 6)).headD 'x') then
    let n := runLen s '*' 6
    { kind := T_UL_ITEM, lineNo, raw := line, level := n, rest := trimmed (s.drop n) }
  else if 1 ≤ runLen s '.' 6 ∧ runLen s '.' 6 < s.length ∧
          isSpaceC ((s.drop (runLen s '.' 6)).headD 'x') then
    let n := runLen s '.' 6
    { kind := T_OL_ITEM, lineNo, raw := line, level := n, rest := trimmed (s.drop n) }
  else if s = str "+" then
    { kind := T_LIST_CONT, lineNo, raw := line }
  -- description list term: trailing "::" (2 or more colons)
  else if 1 ≤ s.length - 1 ∧ endsW s (str "::") ∧
          2 ≤ (s.reverse.takeWhile (· = ':')).length then
    let c := (s.reverse.takeWhile (· = ':')).length
    { kind := T_DESC_TERM, lineNo, raw := line, level := c,
      rest := trimmed (s.take (s.length - c)) }
  -- tables
  else if s = str "|===" then
    { kind := T_TABLE_DELIM, lineNo, raw := line }
  else if startsW s (str "|") then
    { kind := T_TABLE_LINE, lineNo, raw := line, rest := line }
  -- delimited blocks
  else if s = str "----" then { kind := T_DELIM_LISTING, lineNo, raw := line }
  else if s = str "...." then { kind := T_DELIM_LITERAL, lineNo, raw := line }
  else if s = str "____" then { kind := T_DELIM_QUOTE, lineNo, raw := line }
  else if s = str "====" then { kind := T_DELIM_EXAMPLE, lineNo, raw := line }
  else if s = str "****" then { kind := T_DELIM_SIDEBAR, lineNo, raw := line }
  else if s = str "--" then { kind := T_DELIM_OPEN, lineNo, raw := line }
  else if s = str "////" then { kind := T_DELIM_COMMENT, lineNo, raw := line }
  -- admonition paragraph NOTE:/TIP:/...
  else if startsW s (str "NOTE:") ∨ startsW s (str "TIP:") ∨ startsW s (str "IMPORTANT:") ∨
          startsW s (str "CAUTION:") ∨ startsW s (str "WARNING:") then
    let c := (idxC s ':' 0).getD 0
    { kind := T_ADMONITION, lineNo, raw := line, head := s.take c, rest := trimmed (s.drop (c + 1)) }
  else
    { kind := T_TEXT, lineNo, raw := line, rest := line }

/-- `Lexer::classify` (Lexer2 132–301). -/
def classify (line : Str) (lineNo : Nat) : LineTok := classifyCore (trimmed line) line lineNo

/-- Token list built by `Lexer::setInput` from already-split lines, with
the synthetic `EOF` token appended (Lexer2 61–74). -/
def tokensFrom (n : Nat) : List Str → List LineTok
  | [] => [{ kind := T_EOF, lineNo := n }]
  | l :: ls => classify l n :: tokensFrom (n + 1) ls

/-- `Lexer::setInput` on split lines: line numbers start at 1, the `EOF`
token carries `lines.size + 1`. -/
def tokensOf (lines : List Str) : List LineTok := tokensFrom 1 lines

/-- `Lexer::setInput` on the raw input text. -/
def lexInput (text : Str) : List LineTok := tokensOf (splitNl text)

/-- Convenience for concrete inputs given as Lean string literals. -/
def lexL (lines : List String) : List LineTok := tokensOf (lines.map str)

/-! ### The document tree (`LeanDocAst2.h`) -/

/-- `Node::Kind`. -/
inductive NodeKind where
  | K_Document
  | K_Section | K_Paragraph | K_LiteralParagraph | K_AdmonitionParagraph
  | K_DelimitedBlock | K_List | K_ListItem | K_Table | K_TableRow | K_TableCell
  | K_BlockMacro | K_Directive | K_ThematicBreak | K_PageBreak | K_LineComment
  | K_Text | K_Space | K_LineBreak | K_Emph | K_Superscript | K_Subscript
  | K_Link | K_ImageInline | K_AnchorInline | K_Xref | K_AttrRef | K_InlineMacro
  | K_PassthroughInline
  deriving DecidableEq, Repr

open NodeKind

/-- `struct BlockMeta` (LeanDocAst2.h).  The `QMap` of attributes becomes
an association list kept sorted by key (`QMap` iterates in key order). -/
structure BlockMeta where
  anchorId : Str := []
  anchorText : Str := []
  title : Str := []
  attrs : List (Str × Str) := []
  roles : List Str := []
  deriving DecidableEq, Repr

/-- `class Node` (LeanDocAst2.h): kind, source position (line, column),
optional block metadata, the generic payload strings `text` / `name` /
`target`, the string-map `kv` (association list; the parser only ever
inserts distinct keys) and the children. -/
inductive Node where
  | mk (kind : NodeKind) (posLine posCol : Nat) (meta : Option BlockMeta)
       (text name target : Str) (kv : List (Str × Str)) (children : List Node)

def Node.kind : Node → NodeKind
  | .mk k _ _ _ _ _ _ _ _ => k

def Node.posLine : Node → Nat
  | .mk _ l _ _ _ _ _ _ _ => l

def Node.posCol : Node → Nat
  | .mk _ _ c _ _ _ _ _ _ => c

def Node.meta : Node → Option BlockMeta
  | .mk _ _ _ m _ _ _ _ _ => m

def Node.text : Node → Str
  | .mk _ _ _ _ t _ _ _ _ => t

def Node.name : Node → Str
  | .mk _ _ _ _ _ n _ _ _ => n

def Node.target : Node → Str
  | .mk _ _ _ _ _ _ t _ _ => t

def Node.kv : Node → List (Str × Str)
  | .mk _ _ _ _ _ _ _ m _ => m

def Node.children : Node → List Node
  | .mk _ _ _ _ _ _ _ _ cs => cs

/-- `Node::add` (append a child). -/
def Node.add : Node → Node → Node
  | .mk k l c m t n tg kv cs, child => .mk k l c m t n tg kv (cs ++ [child])

/-- Insert into an unsorted association list, replacing an existing key
(`QMap::insert` up to iteration order, which only `attrs` relies on). -/
def kvSet (kv : List (Str × Str)) (k v : Str) : List (Str × Str) :=
  match kv with
  | [] => [(k, v)]
  | (k', v') :: rest => if k' = k then (k, v) :: rest else (k', v') :: kvSet rest k v

/-- `QMap::value(key)` with the default-constructed value `""`. -/
def kvGet (kv : List (Str × Str)) (k : Str) : Str :=
  match kv with
  | [] => []
  | (k', v') :: rest => if k' = k then v' else kvGet rest k

/-- Lexicographic order on strings by code point (`QString` comparison,
used for the key order of `QMap`). -/
def strLt : Str → Str → Bool
  | [], [] => false
  | [], _ :: _ => true
  | _ :: _, [] => false
  | a :: as, b :: bs => if a.toNat < b.toNat then true
                        else if b.toNat < a.toNat then false
                        else strLt as bs

/-- `QMap::insert` on a key-sorted association list. -/
def kvSetSorted (kv : List (Str × Str)) (k v : Str) : List (Str × Str) :=
  match kv with
  | [] => [(k, v)]
  | (k', v') :: rest =>
    if strLt k k' then (k, v) :: (k', v') :: rest
    else if k' = k then (k, v) :: rest
    else (k', v') :: kvSetSorted rest k v

/-! ### Table cell splitting (Parser2 83–119) -/

/-- The loop of `splitUnescapedPipe`: `cur` is the accumulated current
part, `bsRun` the number of consecutive backslashes immediately before the
current character. -/
def splitLoop : Str → Str → Nat → List Str
  | [], cur, _ => [cur]
  | c :: cs, cur, bsRun =>
    if c = '|' then
      if bsRun % 2 = 0 then cur :: splitLoop cs [] 0
      else splitLoop cs (cur.dropLast ++ ['|']) 0
    else splitLoop cs (cur ++ [c]) (if c = '\\' then bsRun + 1 else 0)

/-- `splitUnescapedPipe` (Parser2 83–119): split on `|`, honouring
backslash escapes, an escaped pipe losing one backslash. -/
def splitUnescapedPipe (line : Str) : List Str := splitLoop line [] 0

/-! ### The inline scanner (`Parser::parseInlineContentRec`, Parser2 743–1023)

The C++ scanner walks an index `i` over the string `s`; the embedding
walks the suffix `r = s.drop i` instead, so every `s.indexOf(x, i+k)`
becomes a search in `r` from relative position `k`.  At each position the
recognizers are tried in the source's order; `hitTry` returns the first
hit (with the already-sliced inner text to re-parse and the remaining
suffix), or `none` for the default append-one-character case. -/

/-- One successful structural match of the inline scanner at the current
position. -/
inductive InlHit where
  | hAttrRef (nm : Str) (rest : Str)
  | hXref (tgt : Str) (innerTxt : Option Str) (rest : Str)
  | hAnchor (nm : Str) (innerTxt : Option Str) (rest : Str)
  | hUrl (tgt : Str) (rest : Str)
  | hMac (nm tgt innerTxt : Str) (rest : Str)
  | hEmph (enm : Str) (innerTxt : Str) (rest : Str)
  | hMonoRaw (txt : Str) (rest : Str)
  | hSup (txt : Str) (rest : Str)
  | hSub (txt : Str) (rest : Str)
  | hPass (plusN : Nat) (innerTxt : Str) (rest : Str)
  deriving DecidableEq, Repr

open InlHit

/-- Attribute reference `{name}` (Parser2 752–764). -/
def tryAttrRef (r : Str) : Option InlHit :=
  if startsW r (str "\x7b") then
    match idxC r '\x7d' 1 with
    | some j => if 1 < j then some (hAttrRef (trimmed (sliceML r 1 (j - 1))) (r.drop (j + 1)))
                else none
    | none => none
  else none

/-- Cross reference `<<id,text>>` (Parser2 766–785). -/
def tryXref (r : Str) : Option InlHit :=
  if startsW r (str "<<") then
    match idxS r (str ">>") 2 with
    | some j =>
      if 2 < j then
        match idxC (sliceML r 2 (j - 2)) ',' 0 with
        | none => some (hXref (trimmed (sliceML r 2 (j - 2))) none (r.drop (j + 2)))
        | some comma =>
          some (hXref (trimmed ((sliceML r 2 (j - 2)).take comma))
                (some (trimmed ((sliceML r 2 (j - 2)).drop (comma + 1)))) (r.drop (j + 2)))
      else none
    | none => none
  else none

/-- Inline anchor `[[id,...]]` (Parser2 787–806). -/
def tryAnchor (r : Str) : Option InlHit :=
  if startsW r (str "[[") then
    match idxS r (str "]]") 2 with
    | some j =>
      if 2 < j then
        match idxC (sliceML r 2 (j - 2)) ',' 0 with
        | none => some (hAnchor (trimmed (sliceML r 2 (j - 2))) none (r.drop (j + 2)))
        | some comma =>
          some (hAnchor (trimmed ((sliceML r 2 (j - 2)).take comma))
                (some (trimmed ((sliceML r 2 (j - 2)).drop (comma + 1)))) (r.drop (j + 2)))
      else none
    | none => none
  else none

/-- Characters a URL autolink consumes (up to whitespace, `[` or `]`). -/
def urlChar (c : Char) : Bool := ¬ isSpaceC c ∧ c ≠ '[' ∧ c ≠ ']'

/-- `isUrlSchemeStart` (Parser2 25–30) at the current position. -/
def urlSchemeStart (r : Str) : Bool :=
  startsW r (str "http:") ∨ startsW r (str "https:") ∨ startsW r (str "ftp:") ∨
  startsW r (str "irc:") ∨ startsW r (str "mailto:")

/-- URL autolink (Parser2 808–823). -/
def tryUrl (r : Str) : Option InlHit :=
  if urlSchemeStart r then
    if 5 < (r.takeWhile urlChar).length then
      some (hUrl (r.take ((r.takeWhile urlChar).length)) (r.drop ((r.takeWhile urlChar).length)))
    else none
  else none

/-- A character allowed in an inline macro name (`[A-Za-z0-9_-]`,
`QChar::isLetterOrNumber` read over ASCII). -/
def nameChar (c : Char) : Bool := c.isAlphanum ∨ c = '_' ∨ c = '-'

/-- Inline macro `name:target[args]` (Parser2 825–857). -/
def tryMac (r : Str) : Option InlHit :=
  match idxC r ':' 0 with
  | none => none
  | some colon =>
    if 0 < colon ∧ (r.take colon).all nameChar ∧ colon + 1 < r.length then
      match idxC r '[' (colon + 1) with
      | some lb =>
        (match idxC r ']' (lb + 1) with
         | some rb =>
           some (hMac (r.take colon) (sliceML r (colon + 1) (lb - (colon + 1)))
                 (sliceML r (lb + 1) (rb - (lb + 1))) (r.drop (rb + 1)))
         | none => none)
      | none => none
    else none

/-- `**bold**`, unconstrained (Parser2 871–884). -/
def tryBold2 (r : Str) : Option InlHit :=
  if startsW r (str "**") then
    match idxS r (str "**") 2 with
    | some j => if 2 < j then some (hEmph (str "bold") (sliceML r 2 (j - 2)) (r.drop (j + 2)))
                else none
    | none => none
  else none

/-- `*bold*`, constrained (Parser2 885–898). -/
def tryBold1 (r : Str) : Option InlHit :=
  if startsW r (str "*") then
    match idxC r '*' 1 with
    | some j => if 1 < j then some (hEmph (str "bold") (sliceML r 1 (j - 1)) (r.drop (j + 1)))
                else none
    | none => none
  else none

/-- `__italic__`, unconstrained (Parser2 899–912). -/
def tryItal2 (r : Str) : Option InlHit :=
  if startsW r (str "__") then
    match idxS r (str "__") 2 with
    | some j => if 2 < j then some (hEmph (str "italic") (sliceML r 2 (j - 2)) (r.drop (j + 2)))
                else none
    | none => none
  else none

/-- `_italic_`, constrained (Parser2 913–926). -/
def tryItal1 (r : Str) : Option InlHit :=
  if startsW r (str "_") then
    match idxC r '_' 1 with
    | some j => if 1 < j then some (hEmph (str "italic") (sliceML r 1 (j - 1)) (r.drop (j + 1)))
                else none
    | none => none
  else none

/-- Double-backtick mono, unconstrained (Parser2 927–940): the inner text
is re-parsed recursively. -/
def tryMono2 (r : Str) : Option InlHit :=
  if startsW r (str "\x60\x60") then
    match idxS r (str "\x60\x60") 2 with
    | some j => if 2 < j then some (hEmph (str "mono") (sliceML r 2 (j - 2)) (r.drop (j + 2)))
                else none
    | none => none
  else none

/-- Single-backtick mono, constrained (Parser2 941–954): the inner text is
kept as a raw text run, not re-parsed. -/
def tryMono1 (r : Str) : Option InlHit :=
  if startsW r (str "\x60") then
    match idxC r '\x60' 1 with
    | some j => if 1 < j then some (hMonoRaw (sliceML r 1 (j - 1)) (r.drop (j + 1)))
                else none
    | none => none
  else none

/-- `#highlight#` (Parser2 955–968). -/
def tryHigh (r : Str) : Option InlHit :=
  if startsW r (str "#") then
    match idxC r '#' 1 with
    | some j => if 1 < j then some (hEmph (str "highlight") (sliceML r 1 (j - 1)) (r.drop (j + 1)))
                else none
    | none => none
  else none

/-- `^sup^` (Parser2 969–981), raw text. -/
def trySup (r : Str) : Option InlHit :=
  if startsW r (str "^") then
    match idxC r '^' 1 with
    | some j => if 1 < j then some (hSup (sliceML r 1 (j - 1)) (r.drop (j + 1)))
                else none
    | none => none
  else none

/-- `~sub~` (Parser2 982–994), raw text. -/
def trySub (r : Str) : Option InlHit :=
  if startsW r (str "~") then
    match idxC r '~' 1 with
    | some j => if 1 < j then some (hSub (sliceML r 1 (j - 1)) (r.drop (j + 1)))
                else none
    | none => none
  else none

/-- Passthrough `+...+` / `++...++` / `+++...+++` (Parser2 995–1014). -/
def tryPass (r : Str) : Option InlHit :=
  if startsW r (str "+") then
    if (r.takeWhile (· = '+')).length ≤ 3 then
      match idxS r (List.replicate ((r.takeWhile (· = '+')).length) '+')
              ((r.takeWhile (· = '+')).length) with
      | some j => if (r.takeWhile (· = '+')).length < j then
                    some (hPass ((r.takeWhile (· = '+')).length)
                          (sliceML r ((r.takeWhile (· = '+')).length)
                            (j - (r.takeWhile (· = '+')).length))
                          (r.drop (j + (r.takeWhile (· = '+')).length)))
                  else none
      | none => none
    else none
  else none

/-- The recognizers in the source's priority order; the first hit wins,
`none` is the default append-one-character case. -/
def hitTry (r : Str) : Option InlHit :=
  (tryAttrRef r).or ((tryXref r).or ((tryAnchor r).or ((tryUrl r).or ((tryMac r).or
  ((tryBold2 r).or ((tryBold1 r).or ((tryItal2 r).or ((tryItal1 r).or ((tryMono2 r).or
  ((tryMono1 r).or ((tryHigh r).or ((trySup r).or ((trySub r).or (tryPass r))))))))))))))

/-- The suffix the scanner continues with after a hit. -/
def InlHit.rest : InlHit → Str
  | hAttrRef _ rest => rest
  | hXref _ _ rest => rest
  | hAnchor _ _ rest => rest
  | hUrl _ rest => rest
  | hMac _ _ _ rest => rest
  | hEmph _ _ rest => rest
  | hMonoRaw _ rest => rest
  | hSup _ rest => rest
  | hSub _ rest => rest
  | hPass _ _ rest => rest

/-- The inner text a hit re-parses recursively, if any. -/
def InlHit.innerRec : InlHit → Option Str
  | hXref _ (some t) _ => some t
  | hAnchor _ (some t) _ => some t
  | hMac _ _ t _ => some t
  | hEmph _ t _ => some t
  | hPass _ t _ => some t
  | _ => none

/-! Bounds on the search primitives, used for the scanner's termination. -/

theorem findSub_bound {s pat : Str} {d : Nat} (h : findSub s pat = some d) :
    pat.length + d ≤ s.length ∧ pat.isPrefixOf (s.drop d) := by
  induction s generalizing d with
  | nil =>
    unfold findSub at h
    split at h
    · rename_i hp
      injection h with h0
      subst h0
      refine ⟨?_, by simpa using hp⟩
      have := List.IsPrefix.length_le (List.isPrefixOf_iff_prefix.mp hp)
      simpa using this
    · simp at h
  | cons c cs ih =>
    unfold findSub at h
    split at h
    · rename_i hp
      injection h with h0
      subst h0
      have := List.IsPrefix.length_le (List.isPrefixOf_iff_prefix.mp hp)
      exact ⟨by simpa using this, by simpa using hp⟩
    · rename_i hp
      rcases hf : findSub cs pat with _ | d' <;> simp [hf] at h
      obtain ⟨hb, hpre⟩ := ih hf
      subst h
      refine ⟨by simp; omega, by simpa using hpre⟩

theorem idxS_bound {r pat : Str} {start j : Nat} (hp : pat ≠ [])
    (h : idxS r pat start = some j) :
    start ≤ j ∧ j + pat.length ≤ r.length ∧ pat.isPrefixOf (r.drop j) := by
  unfold idxS at h
  cases hf : findSub (r.drop start) pat with
  | none => rw [hf] at h; simp at h
  | some d =>
    rw [hf] at h
    simp at h
    obtain ⟨hb, hpre⟩ := findSub_bound hf
    subst h
    have hlen : (r.drop start).length = r.length - start := by simp
    have hp1 : 1 ≤ pat.length := List.length_pos_iff_ne_nil.mpr hp
    refine ⟨by omega, by omega, ?_⟩
    rw [List.drop_drop] at hpre
    simpa [Nat.add_comm] using hpre

theorem idxC_bound {r : Str} {c : Char} {start j : Nat} (h : idxC r c start = some j) :
    start ≤ j ∧ j + 1 ≤ r.length := by
  have h2 := idxS_bound (show ([c] : Str) ≠ [] by simp) (by simpa [idxC] using h)
  exact ⟨h2.1, by simpa using h2.2.1⟩

theorem trimmed_length_le (s : Str) : (trimmed s).length ≤ s.length := by
  have h1 : (trimL s).length ≤ s.length :=
    List.IsSuffix.length_le (List.dropWhile_suffix _)
  have h2 : (trimR (trimL s)).length ≤ (trimL s).length := by
    unfold trimR
    simpa using List.IsSuffix.length_le (show ((trimL s).reverse.dropWhile isSpaceC) <:+ (trimL s).reverse from List.dropWhile_suffix _)
  exact le_trans h2 h1

theorem sliceML_length_le (r : Str) (pos len : Nat) :
    (sliceML r pos len).length ≤ r.length - pos := by
  unfold sliceML
  simp
  try omega
theorem tryAttrRef_sizes {r : Str} {ht : InlHit} (h : tryAttrRef r = some ht) :
    ht.rest.length < r.length ∧ ∀ t, ht.innerRec = some t → t.length < r.length := by
  unfold tryAttrRef at h
  split at h
  next hs =>
    split at h
    next j hj =>
      split at h
      next hlt =>
        injection h with h0
        subst h0
        have hb := idxC_bound hj
        refine ⟨by simp [InlHit.rest]; omega, ?_⟩
        intro t ht'
        simp [InlHit.innerRec] at ht'
      next => simp at h
    next => simp at h
  next => simp at h

theorem tryXref_sizes {r : Str} {ht : InlHit} (h : tryXref r = some ht) :
    ht.rest.length < r.length ∧ ∀ t, ht.innerRec = some t → t.length < r.length := by
  unfold tryXref at h
  split at h
  next hs =>
    split at h
    next j hj =>
      have hb := idxS_bound (show (str ">>") ≠ [] by simp [str]) hj
      have hl2 : (str ">>").length = 2 := rfl
      have hsl := sliceML_length_le r 2 (j - 2)
      split at h
      next hlt =>
        split at h
        next hcm =>
          injection h with h0
          subst h0
          refine ⟨by simp [InlHit.rest]; omega, ?_⟩
          intro t ht'
          simp [InlHit.innerRec] at ht'
        next comma hcm =>
          injection h with h0
          subst h0
          refine ⟨by simp [InlHit.rest]; omega, ?_⟩
          intro t ht'
          simp [InlHit.innerRec] at ht'
          subst ht'
          have h1 := trimmed_length_le ((sliceML r 2 (j - 2)).drop (comma + 1))
          have h2 : ((sliceML r 2 (j - 2)).drop (comma + 1)).length ≤
              (sliceML r 2 (j - 2)).length := by simp
          omega
      next => simp at h
    next => simp at h
  next => simp at h

theorem tryAnchor_sizes {r : Str} {ht : InlHit} (h : tryAnchor r = some ht) :
    ht.rest.length < r.length ∧ ∀ t, ht.innerRec = some t → t.length < r.length := by
  unfold tryAnchor at h
  split at h
  next hs =>
    split at h
    next j hj =>
      have hb := idxS_bound (show (str "]]") ≠ [] by simp [str]) hj
      have hl2 : (str "]]").length = 2 := rfl
      have hsl := sliceML_length_le r 2 (j - 2)
      split at h
      next hlt =>
        split at h
        next hcm =>
          injection h with h0
          subst h0
          refine ⟨by simp [InlHit.rest]; omega, ?_⟩
          intro t ht'
          simp [InlHit.innerRec] at ht'
        next comma hcm =>
          injection h with h0
          subst h0
          refine ⟨by simp [InlHit.rest]; omega, ?_⟩
          intro t ht'
          simp [InlHit.innerRec] at ht'
          subst ht'
          have h1 := trimmed_length_le ((sliceML r 2 (j - 2)).drop (comma + 1))
          have h2 : ((sliceML r 2 (j - 2)).drop (comma + 1)).length ≤
              (sliceML r 2 (j - 2)).length := by simp
          omega
      next => simp at h
    next => simp at h
  next => simp at h

theorem tryUrl_sizes {r : Str} {ht : InlHit} (h : tryUrl r = some ht) :
    ht.rest.length < r.length ∧ ∀ t, ht.innerRec = some t → t.length < r.length := by
  unfold tryUrl at h
  split at h
  next hs =>
    split at h
    next hlt =>
      injection h with h0
      subst h0
      have hle : (r.takeWhile urlChar).length ≤ r.length :=
        List.IsPrefix.length_le (List.takeWhile_prefix _)
      refine ⟨by simp [InlHit.rest]; omega, ?_⟩
      intro t ht'
      simp [InlHit.innerRec] at ht'
    next => simp at h
  next => simp at h

theorem tryMac_sizes {r : Str} {ht : InlHit} (h : tryMac r = some ht) :
    ht.rest.length < r.length ∧ ∀ t, ht.innerRec = some t → t.length < r.length := by
  unfold tryMac at h
  split at h
  next => simp at h
  next colon hc =>
    split at h
    next hg =>
      split at h
      next lb hlb =>
        split at h
        next rb hrb =>
          injection h with h0
          subst h0
          have hblb := idxC_bound hlb
          have hbrb := idxC_bound hrb
          have hsl := sliceML_length_le r (lb + 1) (rb - (lb + 1))
          refine ⟨by simp [InlHit.rest]; omega, ?_⟩
          intro t ht'
          simp [InlHit.innerRec] at ht'
          subst ht'
          omega
        next => simp at h
      next => simp at h
    next => simp at h

theorem tryBold2_sizes {r : Str} {ht : InlHit} (h : tryBold2 r = some ht) :
    ht.rest.length < r.length ∧ ∀ t, ht.innerRec = some t → t.length < r.length := by
  unfold tryBold2 at h
  split at h
  next hs =>
    split at h
    next j hj =>
      have hb := idxS_bound (show (str "**") ≠ [] by simp [str]) hj
      have hl2 : (str "**").length = 2 := rfl
      have hsl := sliceML_length_le r 2 (j - 2)
      split at h
      next hlt =>
        injection h with h0
        subst h0
        refine ⟨by simp [InlHit.rest]; omega, ?_⟩
        intro t ht'
        simp [InlHit.innerRec] at ht'
        subst ht'
        omega
      next => simp at h
    next => simp at h
  next => simp at h

theorem tryItal2_sizes {r : Str} {ht : InlHit} (h : tryItal2 r = some ht) :
    ht.rest.length < r.length ∧ ∀ t, ht.innerRec = some t → t.length < r.length := by
  unfold tryItal2 at h
  split at h
  next hs =>
    split at h
    next j hj =>
      have hb := idxS_bound (show (str "__") ≠ [] by simp [str]) hj
      have hl2 : (str "__").length = 2 := rfl
      have hsl := sliceML_length_le r 2 (j - 2)
      split at h
      next hlt =>
        injection h with h0
        subst h0
        refine ⟨by simp [InlHit.rest]; omega, ?_⟩
        intro t ht'
        simp [InlHit.innerRec] at ht'
        subst ht'
        omega
      next => simp at h
    next => simp at h
  next => simp at h

theorem tryMono2_sizes {r : Str} {ht : InlHit} (h : tryMono2 r = some ht) :
    ht.rest.length < r.length ∧ ∀ t, ht.innerRec = some t → t.length < r.length := by
  unfold tryMono2 at h
  split at h
  next hs =>
    split at h
    next j hj =>
      have hb := idxS_bound (show (str "\x60\x60") ≠ [] by simp [str]) hj
      have hl2 : (str "\x60\x60").length = 2 := rfl
      have hsl := sliceML_length_le r 2 (j - 2)
      split at h
      next hlt =>
        injection h with h0
        subst h0
        refine ⟨by simp [InlHit.rest]; omega, ?_⟩
        intro t ht'
        simp [InlHit.innerRec] at ht'
        subst ht'
        omega
      next => simp at h
    next => simp at h
  next => simp at h

theorem tryBold1_sizes {r : Str} {ht : InlHit} (h : tryBold1 r = some ht) :
    ht.rest.length < r.length ∧ ∀ t, ht.innerRec = some t → t.length < r.length := by
  unfold tryBold1 at h
  split at h
  next hs =>
    split at h
    next j hj =>
      have hb := idxC_bound hj
      have hsl := sliceML_length_le r 1 (j - 1)
      split at h
      next hlt =>
        injection h with h0
        subst h0
        refine ⟨by simp [InlHit.rest]; omega, ?_⟩
        intro t ht'
        simp [InlHit.innerRec] at ht'
        subst ht'
        omega
      next => simp at h
    next => simp at h
  next => simp at h

theorem tryItal1_sizes {r : Str} {ht : InlHit} (h : tryItal1 r = some ht) :
    ht.rest.length < r.length ∧ ∀ t, ht.innerRec = some t → t.length < r.length := by
  unfold tryItal1 at h
  split at h
  next hs =>
    split at h
    next j hj =>
      have hb := idxC_bound hj
      have hsl := sliceML_length_le r 1 (j - 1)
      split at h
      next hlt =>
        injection h with h0
        subst h0
        refine ⟨by simp [InlHit.rest]; omega, ?_⟩
        intro t ht'
        simp [InlHit.innerRec] at ht'
        subst ht'
        omega
      next => simp at h
    next => simp at h
  next => simp at h

theorem tryHigh_sizes {r : Str} {ht : InlHit} (h : tryHigh r = some ht) :
    ht.rest.length < r.length ∧ ∀ t, ht.innerRec = some t → t.length < r.length := by
  unfold tryHigh at h
  split at h
  next hs =>
    split at h
    next j hj =>
      have hb := idxC_bound hj
      have hsl := sliceML_length_le r 1 (j - 1)
      split at h
      next hlt =>
        injection h with h0
        subst h0
        refine ⟨by simp [InlHit.rest]; omega, ?_⟩
        intro t ht'
        simp [InlHit.innerRec] at ht'
        subst ht'
        omega
      next => simp at h
    next => simp at h
  next => simp at h

theorem tryMono1_sizes {r : Str} {ht : InlHit} (h : tryMono1 r = some ht) :
    ht.rest.length < r.length ∧ ∀ t, ht.innerRec = some t → t.length < r.length := by
  unfold tryMono1 at h
  split at h
  next hs =>
    split at h
    next j hj =>
      have hb := idxC_bound hj
      split at h
      next hlt =>
        injection h with h0
        subst h0
        refine ⟨by simp [InlHit.rest]; omega, ?_⟩
        intro t ht'
        simp [InlHit.innerRec] at ht'
      next => simp at h
    next => simp at h
  next => simp at h

theorem trySup_sizes {r : Str} {ht : InlHit} (h : trySup r = some ht) :
    ht.rest.length < r.length ∧ ∀ t, ht.innerRec = some t → t.length < r.length := by
  unfold trySup at h
  split at h
  next hs =>
    split at h
    next j hj =>
      have hb := idxC_bound hj
      split at h
      next hlt =>
        injection h with h0
        subst h0
        refine ⟨by simp [InlHit.rest]; omega, ?_⟩
        intro t ht'
        simp [InlHit.innerRec] at ht'
      next => simp at h
    next => simp at h
  next => simp at h

theorem trySub_sizes {r : Str} {ht : InlHit} (h : trySub r = some ht) :
    ht.rest.length < r.length ∧ ∀ t, ht.innerRec = some t → t.length < r.length := by
  unfold trySub at h
  split at h
  next hs =>
    split at h
    next j hj =>
      have hb := idxC_bound hj
      split at h
      next hlt =>
        injection h with h0
        subst h0
        refine ⟨by simp [InlHit.rest]; omega, ?_⟩
        intro t ht'
        simp [InlHit.innerRec] at ht'
      next => simp at h
    next => simp at h
  next => simp at h

theorem tryPass_sizes {r : Str} {ht : InlHit} (h : tryPass r = some ht) :
    ht.rest.length < r.length ∧ ∀ t, ht.innerRec = some t → t.length < r.length := by
  unfold tryPass at h
  split at h
  next hs =>
    have hpos : 1 ≤ (r.takeWhile (· = '+')).length := by
      have hpre := List.isPrefixOf_iff_prefix.mp hs
      obtain ⟨tl, htl⟩ := hpre
      have hr : r = '+' :: tl := by simpa [str] using htl.symm
      subst hr
      simp [List.takeWhile]
    split at h
    next hle3 =>
      split at h
      next j hj =>
        have hne : List.replicate ((r.takeWhile (· = '+')).length) '+' ≠ [] := by
          intro hemp
          have hl := congrArg List.length hemp
          simp only [List.length_replicate, List.length_nil] at hl
          omega
        have hb := idxS_bound hne hj
        rw [List.length_replicate] at hb
        have hsl := sliceML_length_le r ((r.takeWhile (· = '+')).length)
            (j - (r.takeWhile (· = '+')).length)
        split at h
        next hlt =>
          injection h with h0
          subst h0
          refine ⟨by simp [InlHit.rest]; omega, ?_⟩
          intro t ht'
          simp [InlHit.innerRec] at ht'
          subst ht'
          omega
        next => simp at h
      next => simp at h
    next => simp at h
  next => simp at h

/-- Every hit leaves a strictly shorter suffix, and the inner text it
re-parses (if any) is strictly shorter than the current suffix: the
scanner always terminates. -/
theorem hitTry_sizes {r : Str} {ht : InlHit} (he : hitTry r = some ht) :
    ht.rest.length < r.length ∧ ∀ t, ht.innerRec = some t → t.length < r.length := by
  have orCase : ∀ {a b : Option InlHit}, a.or b = some ht →
      a = some ht ∨ b = some ht := by
    intro a b hab
    cases a <;> simp_all [Option.or]
  unfold hitTry at he
  rcases orCase he with h | he
  · exact tryAttrRef_sizes h
  rcases orCase he with h | he
  · exact tryXref_sizes h
  rcases orCase he with h | he
  · exact tryAnchor_sizes h
  rcases orCase he with h | he
  · exact tryUrl_sizes h
  rcases orCase he with h | he
  · exact tryMac_sizes h
  rcases orCase he with h | he
  · exact tryBold2_sizes h
  rcases orCase he with h | he
  · exact tryBold1_sizes h
  rcases orCase he with h | he
  · exact tryItal2_sizes h
  rcases orCase he with h | he
  · exact tryItal1_sizes h
  rcases orCase he with h | he
  · exact tryMono2_sizes h
  rcases orCase he with h | he
  · exact tryMono1_sizes h
  rcases orCase he with h | he
  · exact tryHigh_sizes h
  rcases orCase he with h | he
  · exact trySup_sizes h
  rcases orCase he with h | he
  · exact trySub_sizes h
  exact tryPass_sizes he

/-- `Parser::pushText` (Parser2 728–736): flush the accumulated plain text
as a `K_Text` node, dropping empty text. -/
def pushText (lineNo : Nat) (t : Str) : List Node :=
  if t = [] then [] else [Node.mk K_Text lineNo 1 none t [] [] [] []]

/-- The loop of `Parser::parseInlineContentRec` (Parser2 743–1023) over
the remaining suffix `r`, with the pending text accumulator `acc`.  The
`depth` argument mirrors the source's parameter: it is threaded to the
recursive calls (incremented) and never otherwise consulted.  The first
argument is fuel making the recursion structural; by `hitTry_sizes`
every recursive call shrinks the suffix, so fuel `r.length` always
suffices (`scanLoop_fuel_irrel`) and the fuel-out case is unreachable
from `parseInlineContentRec`. -/
def scanLoop (lineNo depth : Nat) : Nat → Str → Str → List Node
  | _, [], acc => pushText lineNo acc
  | 0, _ :: _, acc => pushText lineNo acc
  | fuel + 1, c :: cs, acc =>
    match hitTry (c :: cs) with
    | none => scanLoop lineNo depth fuel cs (acc ++ [c])
    | some (hAttrRef nm rest) =>
      pushText lineNo acc ++ [Node.mk K_AttrRef lineNo 1 none [] nm [] [] []] ++
      scanLoop lineNo depth fuel rest []
    | some (hXref tgt none rest) =>
      pushText lineNo acc ++ [Node.mk K_Xref lineNo 1 none [] [] tgt [] []] ++
      scanLoop lineNo depth fuel rest []
    | some (hXref tgt (some t) rest) =>
      pushText lineNo acc ++
      [Node.mk K_Xref lineNo 1 none [] [] tgt []
        (scanLoop lineNo (depth + 1) fuel t [])] ++
      scanLoop lineNo depth fuel rest []
    | some (hAnchor nm none rest) =>
      pushText lineNo acc ++ [Node.mk K_AnchorInline lineNo 1 none [] nm [] [] []] ++
      scanLoop lineNo depth fuel rest []
    | some (hAnchor nm (some t) rest) =>
      pushText lineNo acc ++
      [Node.mk K_AnchorInline lineNo 1 none [] nm [] []
        (scanLoop lineNo (depth + 1) fuel t [])] ++
      scanLoop lineNo depth fuel rest []
    | some (hUrl tgt rest) =>
      pushText lineNo acc ++ [Node.mk K_Link lineNo 1 none [] [] tgt [] []] ++
      scanLoop lineNo depth fuel rest []
    | some (hMac nm tgt t rest) =>
      pushText lineNo acc ++
      [Node.mk K_InlineMacro lineNo 1 none [] nm tgt []
        (scanLoop lineNo (depth + 1) fuel t [])] ++
      scanLoop lineNo depth fuel rest []
    | some (hEmph enm t rest) =>
      pushText lineNo acc ++
      [Node.mk K_Emph lineNo 1 none [] enm [] []
        (scanLoop lineNo (depth + 1) fuel t [])] ++
      scanLoop lineNo depth fuel rest []
    | some (hMonoRaw txt rest) =>
      pushText lineNo acc ++ [Node.mk K_Emph lineNo 1 none txt (str "mono") [] [] []] ++
      scanLoop lineNo depth fuel rest []
    | some (hSup txt rest) =>
      pushText lineNo acc ++ [Node.mk K_Superscript lineNo 1 none txt [] [] [] []] ++
      scanLoop lineNo depth fuel rest []
    | some (hSub txt rest) =>
      pushText lineNo acc ++ [Node.mk K_Subscript lineNo 1 none txt [] [] [] []] ++
      scanLoop lineNo depth fuel rest []
    | some (hPass n t rest) =>
      pushText lineNo acc ++
      [Node.mk K_PassthroughInline lineNo 1 none [] [] []
        [(str "plusN", natToStr n)] (scanLoop lineNo (depth + 1) fuel t [])] ++
      scanLoop lineNo depth fuel rest []

/-- `Parser::parseInlineContentRec` (Parser2 743–1023). -/
def parseInlineContentRec (s : Str) (lineNo depth : Nat) : List Node :=
  scanLoop lineNo depth s.length s []

/-- `Parser::parseInlineContent` (Parser2 738–741). -/
def parseInlineContent (s : Str) (lineNo : Nat) : List Node :=
  parseInlineContentRec s lineNo 0

/-- The fuel is irrelevant from `r.length` up: the scan of `r` never
runs out (every recursive call strictly shrinks the suffix). -/
theorem scanLoop_fuel_irrel (lineNo : Nat) :
    ∀ fuel fuel' depth r acc, r.length ≤ fuel → r.length ≤ fuel' →
      scanLoop lineNo depth fuel r acc = scanLoop lineNo depth fuel' r acc := by
  intro fuel
  induction fuel with
  | zero =>
    intro fuel' depth r acc h1 _
    have : r = [] := List.length_eq_zero.mp (Nat.le_zero.mp h1)
    subst this
    cases fuel' <;> rfl
  | succ f ih =>
    intro fuel' depth r acc h1 h2
    cases r with
    | nil => cases fuel' <;> rfl
    | cons c cs =>
      cases fuel' with
      | zero => simp at h2
      | succ f' =>
        have hcs : cs.length ≤ f := by simp at h1; omega
        have hcs' : cs.length ≤ f' := by simp at h2; omega
        show scanLoop lineNo depth (f + 1) (c :: cs) acc =
             scanLoop lineNo depth (f' + 1) (c :: cs) acc
        rw [scanLoop, scanLoop]
        cases hh : hitTry (c :: cs) with
        | none => simp only [ih f' depth cs _ hcs hcs']
        | some ht =>
          have hsz := hitTry_sizes hh
          have hrest : ht.rest.length ≤ f := by
            have := hsz.1
            simp at this
            omega
          have hrest' : ht.rest.length ≤ f' := by
            have := hsz.1
            simp at this
            omega
          have hinner : ∀ t, ht.innerRec = some t → t.length ≤ f ∧ t.length ≤ f' := by
            intro t hti
            have := hsz.2 t hti
            simp at this
            omega
          cases ht with
          | hAttrRef nm rest => simp only [ih f' depth rest _ hrest hrest']
          | hXref tgt inn rest =>
            cases inn with
            | none => simp only [ih f' depth rest _ hrest hrest']
            | some t =>
              have hi := hinner t (by simp [InlHit.innerRec])
              simp only [ih f' depth rest _ hrest hrest', ih f' (depth + 1) t _ hi.1 hi.2]
          | hAnchor nm inn rest =>
            cases inn with
            | none => simp only [ih f' depth rest _ hrest hrest']
            | some t =>
              have hi := hinner t (by simp [InlHit.innerRec])
              simp only [ih f' depth rest _ hrest hrest', ih f' (depth + 1) t _ hi.1 hi.2]
          | hUrl tgt rest => simp only [ih f' depth rest _ hrest hrest']
          | hMac nm tgt t rest =>
            have hi := hinner t (by simp [InlHit.innerRec])
            simp only [ih f' depth rest _ hrest hrest', ih f' (depth + 1) t _ hi.1 hi.2]
          | hEmph enm t rest =>
            have hi := hinner t (by simp [InlHit.innerRec])
            simp only [ih f' depth rest _ hrest hrest', ih f' (depth + 1) t _ hi.1 hi.2]
          | hMonoRaw txt rest => simp only [ih f' depth rest _ hrest hrest']
          | hSup txt rest => simp only [ih f' depth rest _ hrest hrest']
          | hSub txt rest => simp only [ih f' depth rest _ hrest hrest']
          | hPass n t rest =>
            have hi := hinner t (by simp [InlHit.innerRec])
            simp only [ih f' depth rest _ hrest hrest', ih f' (depth + 1) t _ hi.1 hi.2]

/-- The maximal `depth` increment reached below one call of the inline
scanner on suffix `r` (the recursion tree mirrors `scanLoop`; same fuel
discipline). -/
def inlineDepthF : Nat → Str → Nat
  | _, [] => 0
  | 0, _ :: _ => 0
  | fuel + 1, c :: cs =>
    match hitTry (c :: cs) with
    | none => inlineDepthF fuel cs
    | some ht =>
      match ht.innerRec with
      | some t => max (1 + inlineDepthF fuel t) (inlineDepthF fuel ht.rest)
      | none => inlineDepthF fuel ht.rest

/-- Depth of the recursion tree of `parseInlineContentRec s`: the
largest `depth` argument passed to a recursive call when the top call
runs at `depth = 0`. -/
def inlineDepth (s : Str) : Nat := inlineDepthF s.length s

/-! ### The parser (`LeanDocParser2.cpp`)

The C++ parser owns a `Lexer` holding the token vector and a cursor, and
throws on the first error.  The embedding passes the immutable token list
`toks` and the cursor `pos : Nat` explicitly; every parsing function takes
a fuel argument and returns a `PRes`: `ok val pos'`, a thrown
`ParseError`, or `fuelOut` when the fuel did not suffice (a C++ run that
has not returned yet — an infinite loop is exactly `∀ fuel, fuelOut`). -/

/-- `struct ParseError`. -/
structure ParseError where
  line : Nat := 0
  column : Nat := 0
  message : Str := []
  deriving DecidableEq, Repr

/-- Result of a parsing routine: success with the new cursor, a thrown
parse error, or exhausted fuel. -/
inductive PRes (α : Type) where
  | ok (val : α) (pos : Nat)
  | err (e : ParseError)
  | fuelOut

/-- Sequencing of parsing steps (errors and exhausted fuel propagate). -/
def pbind {α β : Type} : PRes α → (α → Nat → PRes β) → PRes β
  | .ok a p, k => k a p
  | .err e, _ => .err e
  | .fuelOut, _ => .fuelOut

/-- Turn a node result into an optional-node result (`parseBlock`'s
branches all return a non-null node except the `parseBreakOrComment`
fallback). -/
def someify : PRes Node → PRes (Option Node)
  | .ok n p => .ok (some n) p
  | .err e => .err e
  | .fuelOut => .fuelOut

/-- `Lexer::peek(k)` (Lexer2 76–84): the index is clamped to the token
vector, whose last element is always the synthetic `EOF`. -/
def peekT (toks : List LineTok) (pos k : Nat) : LineTok :=
  toks.getD (min (pos + k) (toks.length - 1)) {}

/-- `Lexer::take` advances the cursor unless it is already past the last
token (Lexer2 86–92). -/
def incP (toks : List LineTok) (pos : Nat) : Nat :=
  if pos < toks.length then pos + 1 else pos

/-- `Lexer::atEnd` (Lexer2 94–96). -/
def atEndT (toks : List LineTok) (pos : Nat) : Bool :=
  (peekT toks pos 0).kind = T_EOF

/-- A default node (never reachable; keeps list-head accesses total). -/
def defNode : Node := Node.mk K_TableCell 0 0 none [] [] [] [] []

/-- The integer value `QString::number((int)k)` stored under `kv["delim"]`
(the constructor index of the token kind in the enumeration's order). -/
def tokKindIdx : TokKind → Nat
  | T_EOF => 0 | T_BLANK => 1
  | T_BLOCK_ANCHOR => 2 | T_BLOCK_ATTRS => 3 | T_BLOCK_TITLE => 4
  | T_SECTION => 5 | T_ADMONITION => 6 | T_LINE_COMMENT => 7
  | T_THEMATIC => 8 | T_PAGEBREAK => 9
  | T_UL_ITEM => 10 | T_OL_ITEM => 11 | T_DESC_TERM => 12 | T_LIST_CONT => 13
  | T_DELIM_LISTING => 14 | T_DELIM_LITERAL => 15 | T_DELIM_QUOTE => 16
  | T_DELIM_EXAMPLE => 17 | T_DELIM_SIDEBAR => 18 | T_DELIM_OPEN => 19
  | T_DELIM_PASSTHROUGH => 20 | T_DELIM_COMMENT => 21
  | T_STEM_ATTR_LINE => 22
  | T_TABLE_DELIM => 23 | T_TABLE_LINE => 24
  | T_BLOCK_MACRO => 25 | T_DIRECTIVE => 26
  | T_TEXT => 27

/-- Split at every occurrence of `ch`, keeping empty pieces. -/
def splitCh (ch : Char) (s : Str) : List Str :=
  match s with
  | [] => [[]]
  | c :: cs =>
    match splitCh ch cs with
    | [] => [[]]
    | p :: ps => if c = ch then [] :: p :: ps else (c :: p) :: ps

/-- `Parser::stripOuter` (Parser2 142–148). -/
def stripOuter (s : Str) (a b : Char) : Str :=
  let t := trimmed s
  if 2 ≤ t.length ∧ t.headD ' ' = a ∧ t.getLastD ' ' = b then (t.drop 1).dropLast else t

/-- `Parser::parseAttrList` (Parser2 150–176): a small parser for
`[k=v, flag, ...]`, building the sorted attribute map. -/
def parseAttrList (bracketed : Str) : List (Str × Str) :=
  let inner := stripOuter (trimmed bracketed) '[' ']'
  ((splitCh ',' inner).filter (· ≠ [])).foldl
    (fun m part =>
      let p := trimmed part
      if p = [] then m
      else
        match idxC p '=' 0 with
        | none => kvSetSorted m p []
        | some eq =>
          kvSetSorted m (trimmed (p.take eq))
            (stripOuter (trimmed (p.drop (eq + 1))) '\"' '\"'))
    []

/-- `Parser::parseBlockMetaOpt` (Parser2 250–289): consume an optional
run `[BlockAnchor] [BlockAttributes] [BlockTitle]` and build the
`BlockMeta`; returns the meta (or `none`) and the new cursor. -/
def parseBlockMetaOpt (toks : List LineTok) (pos : Nat) : Option BlockMeta × Nat :=
  let k0 := (peekT toks pos 0).kind
  if k0 ≠ T_BLOCK_ANCHOR ∧ k0 ≠ T_BLOCK_ATTRS ∧ k0 ≠ T_BLOCK_TITLE then (none, pos)
  else
    let step1 : BlockMeta × Nat :=
      if k0 = T_BLOCK_ANCHOR then
        let s := (peekT toks pos 0).rest
        let inner := stripOuter (stripOuter s '[' ']') '[' ']'
        let m : BlockMeta :=
          match idxC inner ',' 0 with
          | none => { anchorId := trimmed inner }
          | some comma => { anchorId := trimmed (inner.take comma),
                            anchorText := trimmed (inner.drop (comma + 1)) }
        (m, incP toks pos)
      else ({}, pos)
    let m1 := step1.1
    let p1 := step1.2
    let step2 : BlockMeta × Nat :=
      if (peekT toks p1 0).kind = T_BLOCK_ATTRS then
        let a := parseAttrList (peekT toks p1 0).rest
        let attrs := a.foldl (fun acc kvp => kvSetSorted acc kvp.1 kvp.2) m1.attrs
        let roles := m1.roles ++
          ((attrs.filter (fun kvp => startsW kvp.1 (str "."))).map (fun kvp => kvp.1.drop 1))
        ({ m1 with attrs := attrs, roles := roles }, incP toks p1)
      else (m1, p1)
    let m2 := step2.1
    let p2 := step2.2
    let step3 : BlockMeta × Nat :=
      if (peekT toks p2 0).kind = T_BLOCK_TITLE then
        ({ m2 with title := trimmed (peekT toks p2 0).rest }, incP toks p2)
      else (m2, p2)
    (some step3.1, step3.2)

/-- `Parser::parseAdmonitionParagraph` (Parser2 361–370). -/
def parseAdmonitionParagraph (toks : List LineTok) (pos : Nat) (m : Option BlockMeta) :
    Node × Nat :=
  let t := peekT toks pos 0
  (Node.mk K_AdmonitionParagraph t.lineNo 1 m [] t.head [] []
    (parseInlineContent t.rest t.lineNo), incP toks pos)

/-- `Parser::parseBlockMacro` (Parser2 646–656). -/
def parseBlockMacro (toks : List LineTok) (pos : Nat) (m : Option BlockMeta) :
    Node × Nat :=
  let t := peekT toks pos 0
  (Node.mk K_BlockMacro t.lineNo 1 m [] t.head t.rest [] [], incP toks pos)

/-- `Parser::parseBreakOrComment` (Parser2 695–724). -/
def parseBreakOrComment (toks : List LineTok) (pos : Nat) (m : Option BlockMeta) :
    Option Node × Nat :=
  let t := peekT toks pos 0
  if t.kind = T_LINE_COMMENT then
    (some (Node.mk K_LineComment t.lineNo 1 m t.rest [] [] [] []), incP toks pos)
  else if t.kind = T_THEMATIC then
    (some (Node.mk K_ThematicBreak t.lineNo 1 m (trimmed t.raw) [] [] [] []), incP toks pos)
  else if t.kind = T_PAGEBREAK then
    (some (Node.mk K_PageBreak t.lineNo 1 m t.rest [] [] [] []), incP toks pos)
  else (none, pos)

/-- `Parser::readCells` (Parser2 121–140): split the raw table line on
unescaped `|`, discard the part before the first `|`, and make each
remaining part a `TableCell` with its trimmed text parsed as inline
content. -/
def readCells (tok : LineTok) : List Node :=
  ((splitUnescapedPipe tok.raw).drop 1).map fun cell =>
    Node.mk K_TableCell tok.lineNo 1 none [] [] [] []
      (parseInlineContent (trimmed cell) tok.lineNo)

/-- The re-flow loop of `Parser::parseTable` (Parser2 630–639): `rows`
rows of exactly `w` cells each, every row's position taken from its first
cell. -/
def buildRows (cells : List Node) (w : Nat) : Nat → List Node
  | 0 => []
  | rows + 1 =>
    Node.mk K_TableRow (cells.headD defNode).posLine (cells.headD defNode).posCol
      none [] [] [] [] (cells.take w) :: buildRows (cells.drop w) w rows

mutual

/-- `Parser::skipBlankAndLineComments` (Parser2 77–81). -/
def skipBlanks : Nat → List LineTok → Nat → PRes Unit
  | 0, _, _ => .fuelOut
  | fuel + 1, toks, pos =>
    if (peekT toks pos 0).kind = T_BLANK ∨ (peekT toks pos 0).kind = T_LINE_COMMENT then
      skipBlanks fuel toks (incP toks pos)
    else .ok () pos
  termination_by structural fuel => fuel


/-- `Parser::parseDocument` (Parser2 178–199). -/
def parseDocument : Nat → List LineTok → Nat → PRes Node
  | 0, _, _ => .fuelOut
  | fuel + 1, toks, pos =>
    pbind (skipBlanks fuel toks pos) fun _ p1 =>
    pbind (parseDocumentHeader fuel toks p1) fun kv p2 =>
    docLoop fuel toks p2 (Node.mk K_Document 1 1 none [] [] [] kv [])
  termination_by structural fuel => fuel


/-- `Parser::parseDocumentHeader` (Parser2 201–248): optional level-1
title, author line, revision line, then `:name: value` attributes; all
fields land in the document's `kv`. -/
def parseDocumentHeader : Nat → List LineTok → Nat → PRes (List (Str × Str))
  | 0, _, _ => .fuelOut
  | fuel + 1, toks, pos =>
    let t0 := peekT toks pos 0
    pbind
      (if t0.kind = T_SECTION ∧ t0.level = 1 then
        pbind (skipBlanks fuel toks (incP toks pos)) fun _ p =>
          .ok (kvSet (kvSet [] (str "title") t0.rest) (str "titleLine") (natToStr t0.lineNo)) p
      else .ok [] pos) fun kv1 p1 =>
    let t1 := peekT toks p1 0
    pbind
      (if t1.kind = T_TEXT ∧ hasC (trimmed t1.raw) '<' ∧ hasC (trimmed t1.raw) '>' then
        pbind (skipBlanks fuel toks (incP toks p1)) fun _ p =>
          .ok (kvSet (kvSet kv1 (str "authorLine") (trimmed t1.raw))
                (str "authorLineNo") (natToStr t1.lineNo)) p
      else .ok kv1 p1) fun kv2 p2 =>
    let t2 := peekT toks p2 0
    pbind
      (if t2.kind = T_TEXT ∧ startsW (trimmed t2.raw) (str "v") then
        pbind (skipBlanks fuel toks (incP toks p2)) fun _ p =>
          .ok (kvSet (kvSet kv2 (str "revisionLine") (trimmed t2.raw))
                (str "revisionLineNo") (natToStr t2.lineNo)) p
      else .ok kv2 p2) fun kv3 p3 =>
    headerAttrLoop fuel toks p3 kv3
  termination_by structural fuel => fuel


/-- The `:name: value` attribute loop of `parseDocumentHeader`
(Parser2 235–247). -/
def headerAttrLoop : Nat → List LineTok → Nat → List (Str × Str) → PRes (List (Str × Str))
  | 0, _, _, _ => .fuelOut
  | fuel + 1, toks, pos, kv =>
    let t := peekT toks pos 0
    if t.kind = T_TEXT then
      let s := trimmed t.raw
      if startsW s (str ":") then
        match idxC s ':' 1 with
        | some second =>
          if second ≤ 1 then .ok kv pos
          else
            headerAttrLoop fuel toks (incP toks pos)
              (kvSet kv (str "attr:" ++ trimmed (sliceML s 1 (second - 1)))
                (trimmed (s.drop (second + 1))))
        | none => .ok kv pos
      else .ok kv pos
    else .ok kv pos
  termination_by structural fuel => fuel


/-- The body loop of `parseDocument` (Parser2 186–196). -/
def docLoop : Nat → List LineTok → Nat → Node → PRes Node
  | 0, _, _, _ => .fuelOut
  | fuel + 1, toks, pos, d =>
    if atEndT toks pos then .ok d pos
    else
      pbind (skipBlanks fuel toks pos) fun _ p1 =>
      if atEndT toks p1 then .ok d p1
      else
        pbind (parseBlock fuel toks p1) fun ob p2 =>
        match ob with
        | some b => docLoop fuel toks p2 (d.add b)
        | none => .ok d p2
  termination_by structural fuel => fuel


/-- `Parser::parseBlock` (Parser2 291–325): consume an optional metadata
run, then dispatch on the next token's kind. -/
def parseBlock : Nat → List LineTok → Nat → PRes (Option Node)
  | 0, _, _ => .fuelOut
  | fuel + 1, toks, pos =>
    let mp := parseBlockMetaOpt toks pos
    let m := mp.1
    let p1 := mp.2
    let k := (peekT toks p1 0).kind
    if k = T_SECTION then someify (parseSection fuel toks p1 m)
    else if k = T_ADMONITION then
      let r := parseAdmonitionParagraph toks p1 m
      .ok (some r.1) r.2
    else if k = T_UL_ITEM ∨ k = T_OL_ITEM ∨ k = T_DESC_TERM then
      someify (parseList fuel toks p1 m)
    else if k = T_TABLE_DELIM then someify (parseTable fuel toks p1 m)
    else if k = T_DELIM_LISTING ∨ k = T_DELIM_LITERAL ∨ k = T_DELIM_QUOTE ∨
            k = T_DELIM_EXAMPLE ∨ k = T_DELIM_SIDEBAR ∨ k = T_DELIM_OPEN ∨
            k = T_DELIM_PASSTHROUGH ∨ k = T_DELIM_COMMENT ∨ k = T_STEM_ATTR_LINE then
      someify (parseDelimited fuel toks p1 m)
    else if k = T_BLOCK_MACRO then
      let r := parseBlockMacro toks p1 m
      .ok (some r.1) r.2
    else if k = T_DIRECTIVE then someify (parseDirective fuel toks p1 m)
    else if k = T_THEMATIC ∨ k = T_PAGEBREAK ∨ k = T_LINE_COMMENT then
      let r := parseBreakOrComment toks p1 m
      .ok r.1 r.2
    else someify (parseParagraphOrLiteral fuel toks p1 m)
  termination_by structural fuel => fuel


/-- `Parser::parseSection` (Parser2 327–359). -/
def parseSection : Nat → List LineTok → Nat → Option BlockMeta → PRes Node
  | 0, _, _, _ => .fuelOut
  | fuel + 1, toks, pos, m =>
    let t := peekT toks pos 0
    secLoop fuel toks (incP toks pos)
      (Node.mk K_Section t.lineNo 1 m [] t.rest []
        (kvSet [] (str "level") (natToStr t.level)) [])
      t.level
  termination_by structural fuel => fuel


/-- The body loop of `parseSection` (Parser2 337–357): stop before a
section of level `≤ lvl`, also when such a section is one token behind a
`BLOCK_ANCHOR`/`BLOCK_ATTRS` metadata line (peek, do not consume); a
stray table line is a fatal error. -/
def secLoop : Nat → List LineTok → Nat → Node → Nat → PRes Node
  | 0, _, _, _, _ => .fuelOut
  | fuel + 1, toks, pos, s, lvl =>
    if atEndT toks pos then .ok s pos
    else
      pbind (skipBlanks fuel toks pos) fun _ p1 =>
      if atEndT toks p1 then .ok s p1
      else
        let cur := peekT toks p1 0
        if cur.kind = T_SECTION ∧ cur.level ≤ lvl then .ok s p1
        else if cur.kind = T_TABLE_LINE then
          .err { line := cur.lineNo, column := 1, message := str "unexpected table line" }
        else
          let nxt := peekT toks p1 1
          if (cur.kind = T_BLOCK_ANCHOR ∨ cur.kind = T_BLOCK_ATTRS) ∧
             nxt.kind = T_SECTION ∧ nxt.level ≤ lvl then .ok s p1
          else
            pbind (parseBlock fuel toks p1) fun ob p2 =>
            match ob with
            | some b => secLoop fuel toks p2 (s.add b) lvl
            | none => .ok s p2
  termination_by structural fuel => fuel


/-- `Parser::parseParagraphOrLiteral` (Parser2 372–415): a literal
paragraph when the raw first line starts with whitespace, else a normal
paragraph fed to the inline scanner. -/
def parseParagraphOrLiteral : Nat → List LineTok → Nat → Option BlockMeta → PRes Node
  | 0, _, _, _ => .fuelOut
  | fuel + 1, toks, pos, m =>
    let t0 := peekT toks pos 0
    let literal := t0.kind = T_TEXT ∧ t0.raw ≠ [] ∧ isSpaceC (t0.raw.headD ' ')
    pbind (paraLoop fuel toks pos literal []) fun lines p1 =>
    if literal then
      .ok (Node.mk K_LiteralParagraph t0.lineNo 1 m (joinSep (str "\n") lines) [] [] [] []) p1
    else
      .ok (Node.mk K_Paragraph t0.lineNo 1 m [] [] [] []
        (parseInlineContent (joinSep (str " ") lines) t0.lineNo)) p1
  termination_by structural fuel => fuel


/-- The line-collecting loop of `parseParagraphOrLiteral`
(Parser2 383–407). -/
def paraLoop : Nat → List LineTok → Nat → Bool → List Str → PRes (List Str)
  | 0, _, _, _, _ => .fuelOut
  | fuel + 1, toks, pos, literal, lines =>
    let t := peekT toks pos 0
    if t.kind ≠ T_TEXT then .ok lines pos
    else
      let piece : Option Str :=
        if literal then
          if t.raw = [] ∨ ¬ isSpaceC (t.raw.headD ' ') then none else some (t.raw.drop 1)
        else
          if trimmed t.raw = [] then none else some (trimmed t.raw)
      match piece with
      | none => .ok lines pos
      | some ln =>
        let lines' := lines ++ [ln]
        let p1 := incP toks pos
        let nk := (peekT toks p1 0).kind
        if nk = T_BLANK then .ok lines' p1
        else if ¬ literal ∧ (nk = T_SECTION ∨ nk = T_UL_ITEM ∨ nk = T_OL_ITEM ∨
                nk = T_DESC_TERM ∨ nk = T_TABLE_DELIM ∨ nk = T_DELIM_LISTING ∨
                nk = T_DELIM_LITERAL ∨ nk = T_ADMONITION ∨ nk = T_BLOCK_MACRO ∨
                nk = T_DIRECTIVE) then .ok lines' p1
        else paraLoop fuel toks p1 literal lines'
  termination_by structural fuel => fuel


/-- `Parser::parseDelimited` (Parser2 417–462): raw fences collect
verbatim lines, container fences parse blocks recursively; both require
the matching close fence (`expect`). -/
def parseDelimited : Nat → List LineTok → Nat → Option BlockMeta → PRes Node
  | 0, _, _, _ => .fuelOut
  | fuel + 1, toks, pos, m =>
    let isStem := (peekT toks pos 0).kind = T_STEM_ATTR_LINE
    let p0 := if isStem then incP toks pos else pos
    let k := (peekT toks p0 0).kind
    let opn := peekT toks p0 0
    let p1 := incP toks p0
    let kv := kvSet (kvSet [] (str "delim") (natToStr (tokKindIdx k))) (str "stem")
        (if isStem then str "1" else str "0")
    let rawOnly := k = T_DELIM_LISTING ∨ k = T_DELIM_LITERAL ∨ k = T_DELIM_PASSTHROUGH ∨
        k = T_DELIM_COMMENT ∨ isStem
    if rawOnly then
      pbind (rawLoop fuel toks p1 k []) fun lines p2 =>
      if (peekT toks p2 0).kind = k then
        .ok (Node.mk K_DelimitedBlock opn.lineNo 1 m (joinSep (str "\n") lines) [] [] kv [])
          (incP toks p2)
      else
        .err { line := (peekT toks p2 0).lineNo, column := 1,
               message := str "Expected closing delimiter" }
    else
      pbind (contLoop fuel toks p1 k (Node.mk K_DelimitedBlock opn.lineNo 1 m [] [] [] kv []))
        fun nd p2 =>
      if (peekT toks p2 0).kind = k then .ok nd (incP toks p2)
      else
        .err { line := (peekT toks p2 0).lineNo, column := 1,
               message := str "Expected closing delimiter" }
  termination_by structural fuel => fuel


/-- The raw-line loop of `parseDelimited` (Parser2 441–444). -/
def rawLoop : Nat → List LineTok → Nat → TokKind → List Str → PRes (List Str)
  | 0, _, _, _, _ => .fuelOut
  | fuel + 1, toks, pos, k, lines =>
    if ¬ atEndT toks pos ∧ (peekT toks pos 0).kind ≠ k then
      rawLoop fuel toks (incP toks pos) k (lines ++ [(peekT toks pos 0).raw])
    else .ok lines pos
  termination_by structural fuel => fuel


/-- The container-content loop of `parseDelimited` (Parser2 451–459). -/
def contLoop : Nat → List LineTok → Nat → TokKind → Node → PRes Node
  | 0, _, _, _, _ => .fuelOut
  | fuel + 1, toks, pos, k, b =>
    if atEndT toks pos ∨ (peekT toks pos 0).kind = k then .ok b pos
    else
      pbind (skipBlanks fuel toks pos) fun _ p1 =>
      if (peekT toks p1 0).kind = k then .ok b p1
      else
        pbind (parseBlock fuel toks p1) fun ob p2 =>
        match ob with
        | some inner => contLoop fuel toks p2 k (b.add inner)
        | none => .ok b p2
  termination_by structural fuel => fuel


/-- `Parser::parseList` (Parser2 464–565): the list type is fixed by the
first marker token. -/
def parseList : Nat → List LineTok → Nat → Option BlockMeta → PRes Node
  | 0, _, _, _ => .fuelOut
  | fuel + 1, toks, pos, m =>
    let t0 := peekT toks pos 0
    let ty := if t0.kind = T_DESC_TERM then str "description"
              else if t0.kind = T_OL_ITEM then str "ordered"
              else str "unordered"
    listLoop fuel toks pos
      (Node.mk K_List t0.lineNo 1 m [] [] [] (kvSet [] (str "type") ty) [])
  termination_by structural fuel => fuel


/-- The item loop of `parseList` (Parser2 478–562). -/
def listLoop : Nat → List LineTok → Nat → Node → PRes Node
  | 0, _, _, _ => .fuelOut
  | fuel + 1, toks, pos, lst =>
    if kvGet lst.kv (str "type") = str "description" then
      if (peekT toks pos 0).kind ≠ T_DESC_TERM then .ok lst pos
      else
        let termTok := peekT toks pos 0
        let p1 := incP toks pos
        let item := Node.mk K_ListItem termTok.lineNo 1 none [] termTok.rest []
          (kvSet (kvSet [] (str "kind") (str "definition"))
            (str "termLevel") (natToStr termTok.level)) []
        -- optional definition line
        let defStep : Node × Nat :=
          if (peekT toks p1 0).kind = T_TEXT ∧ trimmed (peekT toks p1 0).raw ≠ [] then
            (item.add (Node.mk K_Paragraph termTok.lineNo 1 none [] [] [] []
              (parseInlineContent (trimmed (peekT toks p1 0).raw) termTok.lineNo)),
             incP toks p1)
          else (item, p1)
        pbind (skipBlanks fuel toks defStep.2) fun _ p3 =>
        if (peekT toks p3 0).kind = T_LIST_CONT then
          pbind (skipBlanks fuel toks (incP toks p3)) fun _ p5 =>
          let ck := (peekT toks p5 0).kind
          pbind
            (if ck = T_DELIM_LISTING ∨ ck = T_DELIM_LITERAL ∨ ck = T_DELIM_QUOTE ∨
                ck = T_DELIM_EXAMPLE ∨ ck = T_DELIM_SIDEBAR ∨ ck = T_DELIM_OPEN ∨
                ck = T_DELIM_PASSTHROUGH ∨ ck = T_DELIM_COMMENT ∨ ck = T_STEM_ATTR_LINE then
              parseDelimited fuel toks p5 none
            else parseParagraphOrLiteral fuel toks p5 none) fun cont p6 =>
          pbind (skipBlanks fuel toks p6) fun _ p7 =>
          listLoop fuel toks p7 (lst.add (defStep.1.add cont))
        else
          pbind (skipBlanks fuel toks p3) fun _ p4 =>
          listLoop fuel toks p4 (lst.add defStep.1)
    else
      let ordered := kvGet lst.kv (str "type") = str "ordered"
      if ordered ∧ (peekT toks pos 0).kind ≠ T_OL_ITEM then .ok lst pos
      else if ¬ ordered ∧ (peekT toks pos 0).kind ≠ T_UL_ITEM then .ok lst pos
      else
        let itTok := peekT toks pos 0
        let p1 := incP toks pos
        let item0 := Node.mk K_ListItem itTok.lineNo 1 none [] [] []
          (kvSet [] (str "markerLevel") (natToStr itTok.level)) []
        let payload := itTok.rest
        let checked : Node × Str :=
          if startsW payload (str "[*]") ∨ startsW payload (str "[x]") ∨
             startsW payload (str "[ ]") then
            (Node.mk K_ListItem itTok.lineNo 1 none [] [] []
              (kvSet (kvSet [] (str "markerLevel") (natToStr itTok.level))
                (str "check") (sliceML payload 1 1)) [],
             trimmed (payload.drop 3))
          else (item0, payload)
        let item1 := checked.1.add (Node.mk K_Paragraph itTok.lineNo 1 none [] [] [] []
          (parseInlineContent checked.2 itTok.lineNo))
        pbind (skipBlanks fuel toks p1) fun _ p2 =>
        pbind (itemContLoop fuel toks p2 item1) fun item2 p3 =>
        pbind (skipBlanks fuel toks p3) fun _ p4 =>
        listLoop fuel toks p4 (lst.add item2)
  termination_by structural fuel => fuel


/-- The repeatable continuation loop of a list item (Parser2 545–553). -/
def itemContLoop : Nat → List LineTok → Nat → Node → PRes Node
  | 0, _, _, _ => .fuelOut
  | fuel + 1, toks, pos, item =>
    if (peekT toks pos 0).kind ≠ T_LIST_CONT then .ok item pos
    else
      pbind (skipBlanks fuel toks (incP toks pos)) fun _ p2 =>
      pbind (parseBlock fuel toks p2) fun ob p3 =>
      let item' := match ob with
        | some c => item.add c
        | none => item
      pbind (skipBlanks fuel toks p3) fun _ p4 =>
      itemContLoop fuel toks p4 item'
  termination_by structural fuel => fuel


/-- `Parser::parseTable` (Parser2 585–644): rows until the closing
`|===`; the first row fixes the width, the remaining cells are re-flowed,
an incompatible cell count is a fatal error at the first cell's
position. -/
def parseTable : Nat → List LineTok → Nat → Option BlockMeta → PRes Node
  | 0, _, _, _ => .fuelOut
  | fuel + 1, toks, pos, m =>
    let opn := peekT toks pos 0
    if opn.kind = T_TABLE_DELIM then
      pbind (tableLoop fuel toks (incP toks pos) []) fun parts p2 =>
      match parts with
      | [] => .ok (Node.mk K_Table opn.lineNo 1 m [] [] [] [] []) p2
      | firstRow :: restParts =>
        if firstRow.isEmpty then .ok (Node.mk K_Table opn.lineNo 1 m [] [] [] [] []) p2
        else
          let cells := restParts.join
          if cells.length % firstRow.length = 0 then
            .ok (Node.mk K_Table opn.lineNo 1 m [] [] [] []
              (Node.mk K_TableRow (firstRow.headD defNode).posLine
                  (firstRow.headD defNode).posCol none [] [] [] [] firstRow ::
                buildRows cells firstRow.length (cells.length / firstRow.length))) p2
          else
            .err { line := (firstRow.headD defNode).posLine,
                   column := (firstRow.headD defNode).posCol,
                   message := str "the number of cells is not compatible with the table size" }
    else .err { line := opn.lineNo, column := 1, message := str "Expected table delimiter |===" }
  termination_by structural fuel => fuel


/-- The row-collecting loop of `parseTable` (Parser2 596–613): a closing
`|===` is consumed and ends the loop, blanks and any other non-table-line
tokens are consumed and discarded, table lines contribute their cells. -/
def tableLoop : Nat → List LineTok → Nat → List (List Node) → PRes (List (List Node))
  | 0, _, _, _ => .fuelOut
  | fuel + 1, toks, pos, parts =>
    if atEndT toks pos then .ok parts pos
    else
      let t := peekT toks pos 0
      if t.kind = T_TABLE_DELIM then .ok parts (incP toks pos)
      else if t.kind = T_BLANK then tableLoop fuel toks (incP toks pos) parts
      else if t.kind ≠ T_TABLE_LINE then tableLoop fuel toks (incP toks pos) parts
      else tableLoop fuel toks (incP toks pos) (parts ++ [readCells t])
  termination_by structural fuel => fuel


/-- `Parser::parseDirective` (Parser2 658–693). -/
def parseDirective : Nat → List LineTok → Nat → Option BlockMeta → PRes Node
  | 0, _, _, _ => .fuelOut
  | fuel + 1, toks, pos, m =>
    let t := peekT toks pos 0
    let n := Node.mk K_Directive t.lineNo 1 m t.rest t.head [] [] []
    if t.head = str "ifdef" ∨ t.head = str "ifndef" ∨ t.head = str "ifeval" then
      dirLoop fuel toks (incP toks pos) n
    else .ok n (incP toks pos)
  termination_by structural fuel => fuel


/-- The body loop of `parseDirective` (Parser2 671–690). -/
def dirLoop : Nat → List LineTok → Nat → Node → PRes Node
  | 0, _, _, _ => .fuelOut
  | fuel + 1, toks, pos, n =>
    if atEndT toks pos then .ok n pos
    else
      pbind (skipBlanks fuel toks pos) fun _ p1 =>
      let c := peekT toks p1 0
      if c.kind = T_DIRECTIVE ∧ startsW (trimmed c.raw) (str "endif::") then
        .ok (n.add (Node.mk K_Directive c.lineNo 1 none c.rest (str "endif") [] [] []))
          (incP toks p1)
      else if atEndT toks p1 then .ok n p1
      else
        pbind (parseBlock fuel toks p1) fun ob p2 =>
        match ob with
        | some b => dirLoop fuel toks p2 (n.add b)
        | none => .ok n p2
  termination_by structural fuel => fuel

end

/-- `Parser::parse` run on an already-lexed token list: parse the
document from position 0 (`Parser::parse`, Parser2 32–50; a thrown error
surfaces as `.err`, the tree as `.ok`). -/
def parseTop (fuel : Nat) (toks : List LineTok) : PRes Node := parseDocument fuel toks 0

/-- `Parser::parse` on raw input text. -/
def parseLD (fuel : Nat) (input : Str) : PRes Node := parseTop fuel (lexInput input)

/-! ### Typst generation (`LeanDocTypstGen.cpp`), the parts the claims
touch: string/text escaping, inline emission, and the admonition
emitter. -/

/-- `struct TypstGenError` (line and message). -/
structure TypstGenError where
  line : Nat := 0
  message : Str := []
  deriving DecidableEq, Repr

/-- The generator's options record (only `allowRawPassthrough` affects
inline emission). -/
structure TypstOpts where
  templateName : Str := str "plain"
  templateFile : Str := []
  allowRawPassthrough : Bool := true

/-- `TypstGenerator::escString` (TypstGen 11–24). -/
def escString : Str → Str
  | [] => []
  | c :: cs =>
    (if c = '\\' then str "\\\\"
     else if c = '\"' then str "\\\""
     else if c = '\n' then str "\\n"
     else if c = '\r' then []
     else [c]) ++ escString cs

/-- `TypstGenerator::escText` (TypstGen 26–41). -/
def escText : Str → Str
  | [] => []
  | c :: cs =>
    (if c = '\\' ∨ c = '*' ∨ c = '_' ∨ c = '\x60' ∨ c = '#' ∨ c = '[' ∨ c = ']' ∨
        c = '<' ∨ c = '>' then ['\\', c] else [c]) ++ escText cs

mutual

/-- `TypstGenerator::emitInline` (TypstGen 343–435).  The fuel argument
makes the mutual recursion over the node tree structural; `sizeOf` of the
node always suffices. -/
def emitInline : Nat → TypstOpts → Node → Except TypstGenError Str
  | 0, _, _ => .error { line := 0, message := str "out of fuel" }
  | fuel + 1, opts, Node.mk k l _ _ txt nm tgt _ cs =>
    match k with
    | K_Text => .ok (escText txt)
    | K_Emph =>
      if nm = str "bold" then do
        let s ← emitInlineSeq fuel opts cs
        .ok (str "*" ++ s ++ str "*")
      else if nm = str "italic" then do
        let s ← emitInlineSeq fuel opts cs
        .ok (str "_" ++ s ++ str "_")
      else if nm = str "mono" then
        if ¬ txt.isEmpty then .ok (str "\x60" ++ escText txt ++ str "\x60")
        else do
          let s ← emitInlineSeq fuel opts cs
          .ok (str "\x60" ++ s ++ str "\x60")
      else if nm = str "highlight" then do
        let s ← emitInlineSeq fuel opts cs
        .ok (str "#highlight([" ++ s ++ str "])")
      else .error { line := l, message := str "Unknown inline emphasis kind: " ++ nm }
    | K_Superscript => .ok (str "#super[" ++ escText txt ++ str "]")
    | K_Subscript => .ok (str "#sub[" ++ escText txt ++ str "]")
    | K_Link =>
      if cs.isEmpty then
        .ok (str "#link(\"" ++ escString tgt ++ str "\")[" ++ escText tgt ++ str "]")
      else do
        let s ← emitInlineSeq fuel opts cs
        .ok (str "#link(\"" ++ escString tgt ++ str "\")[" ++ s ++ str "]")
    | K_Xref =>
      if cs.isEmpty then .ok (str "@" ++ escText tgt)
      else do
        let s ← emitInlineSeq fuel opts cs
        .ok (str "#link(<" ++ escText tgt ++ str ">)[" ++ s ++ str "]")
    | K_AnchorInline => .ok (str "<" ++ escText nm ++ str ">")
    | K_AttrRef => .ok (str "\x7b" ++ escText nm ++ str "\x7d")
    | K_InlineMacro =>
      if nm = str "footnote" then do
        let s ← emitInlineSeq fuel opts cs
        .ok (str "#footnote[" ++ s ++ str "]")
      else if nm = str "kbd" ∨ nm = str "btn" ∨ nm = str "menu" then do
        let s ← emitInlineSeq fuel opts cs
        .ok (str "#smallcaps[" ++ s ++ str "]")
      else if nm = str "stem" then
        if ¬ opts.allowRawPassthrough then
          .error { line := l,
                   message := str "stem: inline macro requires raw passthrough or math conversion phase" }
        else .ok (str "$" ++ escText tgt ++ str "$")
      else .error { line := l, message := str "Unsupported inline macro in Typst generator: " ++ nm }
    | K_PassthroughInline =>
      if ¬ opts.allowRawPassthrough then
        .error { line := l, message := str "Inline passthrough disabled" }
      else emitInlineSeq fuel opts cs
    | _ => .error { line := l, message := str "Unsupported inline node kind in generator" }

/-- `TypstGenerator::emitInlineSeq` (TypstGen 335–341). -/
def emitInlineSeq : Nat → TypstOpts → List Node → Except TypstGenError Str
  | 0, _, _ => .error { line := 0, message := str "out of fuel" }
  | _ + 1, _, [] => .ok []
  | fuel + 1, opts, n :: rest => do
    let a ← emitInline fuel opts n
    let b ← emitInlineSeq fuel opts rest
    .ok (a ++ b)

end

/-- `TypstGenerator::emitAdmonition` (TypstGen 180–186). -/
def emitAdmonition (fuel : Nat) (opts : TypstOpts) (n : Node) : Except TypstGenError Str := do
  let s ← emitInlineSeq fuel opts n.children
  .ok (str "#admon(\"" ++ escString n.name ++ str "\", [" ++ s ++ str "])" ++ str "\n")

/-! ## Claims

Each claim of the specification gets one theorem below (with an optional
witness / counterexample as the claim's status requires). -/

/-- C4, counterexample.  The claim says a line trimming to `"...."` is
classified `DELIM_LITERAL` and one trimming to `"////"` is classified
`DELIM_COMMENT`; in the code the earlier `.Title` rule captures `"...."`
(`BLOCK_TITLE`) and the earlier `//` comment rule captures `"////"`
(`LINE_COMMENT`), so neither delimiter kind is ever produced. -/
theorem c4_fence_counterexample :
    trimmed (str "....") = str "...." ∧
    (classify (str "....") 1).kind = T_BLOCK_TITLE ∧
    (classify (str "....") 1).kind ≠ T_DELIM_LITERAL ∧
    trimmed (str "////") = str "////" ∧
    (classify (str "////") 1).kind = T_LINE_COMMENT ∧
    (classify (str "////") 1).kind ≠ T_DELIM_COMMENT := by
  refine ⟨rfl, rfl, ?_, rfl, rfl, ?_⟩ <;> decide

/-- C4, amended.  Fence-line classification as the code implements it:
for every input line and line number, a line trimming to `"----"`,
`"____"`, `"===="`, `"****"` or `"--"` is classified `DELIM_LISTING`,
`DELIM_QUOTE`, `DELIM_EXAMPLE`, `DELIM_SIDEBAR` or `DELIM_OPEN`
respectively; but a line trimming to `"...."` is classified
`BLOCK_TITLE` (the earlier `.Title` rule wins) and one trimming to
`"////"` is classified `LINE_COMMENT` (the earlier `//` rule wins),
first match winning in the fixed rule order of `Lexer::classify`. -/
theorem c4_fence_classification_amended (line : Str) (n : Nat) :
    (trimmed line = str "----" → (classify line n).kind = T_DELIM_LISTING) ∧
    (trimmed line = str "____" → (classify line n).kind = T_DELIM_QUOTE) ∧
    (trimmed line = str "====" → (classify line n).kind = T_DELIM_EXAMPLE) ∧
    (trimmed line = str "****" → (classify line n).kind = T_DELIM_SIDEBAR) ∧
    (trimmed line = str "--" → (classify line n).kind = T_DELIM_OPEN) ∧
    (trimmed line = str "...." → (classify line n).kind = T_BLOCK_TITLE) ∧
    (trimmed line = str "////" → (classify line n).kind = T_LINE_COMMENT) := by
  refine ⟨?_, ?_, ?_, ?_, ?_, ?_, ?_⟩ <;> intro h <;>
    · show (classifyCore (trimmed line) line n).kind = _
      rw [h]
      rfl

/-- C4, witness for the amended theorem at concrete lines (each with
surrounding whitespace so that trimming is exercised). -/
theorem c4_witness :
    (classify (str "  ----  ") 7).kind = T_DELIM_LISTING ∧
    (classify (str " ____") 7).kind = T_DELIM_QUOTE ∧
    (classify (str "==== ") 7).kind = T_DELIM_EXAMPLE ∧
    (classify (str "****") 7).kind = T_DELIM_SIDEBAR ∧
    (classify (str " -- ") 7).kind = T_DELIM_OPEN ∧
    (classify (str " ....") 7).kind = T_BLOCK_TITLE ∧
    (classify (str "//// ") 7).kind = T_LINE_COMMENT :=
  ⟨(c4_fence_classification_amended (str "  ----  ") 7).1 (by decide),
   (c4_fence_classification_amended (str " ____") 7).2.1 (by decide),
   (c4_fence_classification_amended (str "==== ") 7).2.2.1 (by decide),
   (c4_fence_classification_amended (str "****") 7).2.2.2.1 (by decide),
   (c4_fence_classification_amended (str " -- ") 7).2.2.2.2.1 (by decide),
   (c4_fence_classification_amended (str " ....") 7).2.2.2.2.2.1 (by decide),
   (c4_fence_classification_amended (str "//// ") 7).2.2.2.2.2.2 (by decide)⟩


/-! ### Shared result projections -/

/-- Did the parse succeed? -/
def resOk {α : Type} : PRes α → Bool
  | .ok _ _ => true
  | _ => false

/-- The tree of a successful parse. -/
def resTree : PRes Node → Option Node
  | .ok n _ => some n
  | _ => none

/-- The section level stored in a node's `kv` map (`kv["level"]`). -/
def levelNat (n : Node) : Nat := strToNatD (kvGet n.kv (str "level"))

/-- The section-nesting invariant of the specification: every `Section`
node's section children have strictly greater level, recursively at
every node of the tree. -/
inductive SecOk : Node → Prop where
  | intro (n : Node)
      (hsec : n.kind = K_Section → ∀ c ∈ n.children, c.kind = K_Section →
        levelNat n < levelNat c)
      (hch : ∀ c ∈ n.children, SecOk c) : SecOk n

/-! ### C7: a stray table line at document top level -/

/-- The token list of the one-line input `|x`. -/
def t7 : List LineTok :=
  [{ kind := T_TABLE_LINE, lineNo := 1, raw := str "|x", rest := str "|x" },
   { kind := T_EOF, lineNo := 2 }]

/-- The paragraph that `parseParagraphOrLiteral` makes out of the stray
table line without consuming it. -/
def c7par : Node := Node.mk K_Paragraph 1 1 none [] [] [] [] []

theorem c7_lex : lexL ["|x"] = t7 := rfl

theorem c7_parseBlock_eval (f : Nat) : parseBlock (f+3) t7 0 = .ok (some c7par) 0 := rfl

theorem c7_docLoop_step (f : Nat) (d : Node) :
    docLoop (f+4) t7 0 d = docLoop (f+3) t7 0 (d.add c7par) := by
  rw [docLoop]
  rw [if_neg (by decide : ¬ atEndT t7 0 = true)]
  rw [show skipBlanks (f+3) t7 0 = .ok () 0 from rfl]
  simp only [pbind]
  rw [if_neg (by decide : ¬ atEndT t7 0 = true)]
  rw [c7_parseBlock_eval f]

theorem c7_docLoop_diverges (f : Nat) : ∀ d, docLoop f t7 0 d = .fuelOut := by
  induction f using Nat.strong_induction_on with
  | _ f ih =>
    rcases lt_or_ge f 4 with h4 | h4
    · interval_cases f <;> intro d <;> rfl
    · obtain ⟨g, rfl⟩ : ∃ g, f = g + 4 := ⟨f - 4, by omega⟩
      intro d
      rw [c7_docLoop_step g d]
      exact ih (g + 3) (by omega) _

/-- C7: the claim says a stray `TABLE_LINE` outside a table is always a
fatal parse error, both inside a section body and at document top level.
Inside a section body it is (second conjunct: `secLoop` raises the error
at line 2, column 1).  At top level it is not: `parseParagraphOrLiteral`
returns an empty paragraph without consuming the table-line token, so
`parseDocument`'s loop never advances — the parser diverges instead of
reporting an error (first conjunct: the run is a fuel-out at every
fuel). -/
theorem c7_stray_table_line_diverges_at_top_level :
    (∀ fuel, parseTop fuel (lexL ["|x"]) = .fuelOut) ∧
    parseTop 30 (lexL ["== A", "|x"]) =
      .err { line := 2, column := 1, message := str "unexpected table line" } := by
  constructor
  · intro fuel
    rw [c7_lex]
    rcases lt_or_ge fuel 3 with h3 | h3
    · interval_cases fuel <;> rfl
    · obtain ⟨i, rfl⟩ : ∃ i, fuel = i + 3 := ⟨fuel - 3, by omega⟩
      have h1 : parseTop (i+3) t7 =
          docLoop (i+2) t7 0 (Node.mk K_Document 1 1 none [] [] [] [] []) := rfl
      rw [h1]
      exact c7_docLoop_diverges (i+2) _
  · rfl

/-! ### C8: the admonition round trip -/

/-- C8: the line `NOTE: be careful` is lexed as an `ADMONITION` token
with head `NOTE` and rest `be careful`, parsed into an
`AdmonitionParagraph` node named `NOTE`, and the Typst generator emits
exactly `#admon("NOTE", [be careful])` (plus the generator's trailing
newline) for that node. -/
theorem c8_admonition_roundtrip :
    (classify (str "NOTE: be careful") 1).kind = T_ADMONITION ∧
    (classify (str "NOTE: be careful") 1).head = str "NOTE" ∧
    (classify (str "NOTE: be careful") 1).rest = str "be careful" ∧
    (match parseTop 30 (lexL ["NOTE: be careful"]) with
     | .ok d _ => d.children.map fun n => (n.kind, n.name, emitAdmonition 50 {} n)
     | _ => []) =
      [(K_AdmonitionParagraph, str "NOTE",
        .ok (str "#admon(\"NOTE\", [be careful])" ++ str "\n"))] :=
  ⟨rfl, rfl, rfl, rfl⟩

/-! ### C2, counterexample: the `secLoop` guard misses `BLOCK_TITLE` -/

/-- Section `B` (level 2, with the dangling `.Title` metadata). -/
def c2secB : Node :=
  Node.mk K_Section 3 1 (some { title := str "Title" }) [] (str "B") []
    [(str "level", str "2")] []

/-- Section `A` (level 2) with the same-level section `B` as child. -/
def c2secA : Node :=
  Node.mk K_Section 1 1 none [] (str "A") [] [(str "level", str "2")] [c2secB]

/-- The tree parsed from `== A` / `.Title` / `== B`. -/
def c2tree : Node := Node.mk K_Document 1 1 none [] [] [] [] [c2secA]

/-- C2, counterexample.  The claim's invariant fails: `secLoop`'s
stop-before-same-level guard peeks one token behind `BLOCK_ANCHOR` and
`BLOCK_ATTRS` but not behind `BLOCK_TITLE`, so for `== A` / `.Title` /
`== B` the level-2 section `B` is parsed as a child of the level-2
section `A`, violating `C.level > S.level`. -/
theorem c2_section_nesting_violated :
    resTree (parseTop 30 (lexL ["== A", ".Title", "== B"])) = some c2tree ∧
    c2secA ∈ c2tree.children ∧ c2secB ∈ c2secA.children ∧
    c2secA.kind = K_Section ∧ c2secB.kind = K_Section ∧
    levelNat c2secA = 2 ∧ levelNat c2secB = 2 ∧
    ¬ SecOk c2tree := by
  refine ⟨rfl, List.mem_singleton.2 rfl, List.mem_singleton.2 rfl, rfl, rfl, rfl, rfl, ?_⟩
  intro h
  cases h with
  | intro _ hsec hch =>
    have hA : SecOk c2secA := hch c2secA (List.mem_singleton.2 rfl)
    cases hA with
    | intro _ hsecA _ =>
      have hlt : levelNat c2secA < levelNat c2secB :=
        hsecA rfl c2secB (List.mem_singleton.2 rfl) rfl
      have e1 : levelNat c2secA = 2 := rfl
      have e2 : levelNat c2secB = 2 := rfl
      omega

/-! ### C6: closure of delimited blocks -/

/-- The token list of the two-line input `____` / `+`. -/
def t6 : List LineTok :=
  [{ kind := T_DELIM_QUOTE, lineNo := 1, raw := str "____" },
   { kind := T_LIST_CONT, lineNo := 2, raw := str "+" },
   { kind := T_EOF, lineNo := 3 }]

/-- The paragraph `parseParagraphOrLiteral` makes out of the `+` token
without consuming it. -/
def c6par : Node := Node.mk K_Paragraph 2 1 none [] [] [] [] []

/-- The container node `parseDelimited` starts the quote block with. -/
def c6nd0 : Node :=
  Node.mk K_DelimitedBlock 1 1 none [] [] []
    [(str "delim", str "16"), (str "stem", str "0")] []

theorem c6_lex : lexL ["____", "+"] = t6 := rfl

theorem c6_parseBlock_eval (f : Nat) : parseBlock (f+3) t6 1 = .ok (some c6par) 1 := rfl

theorem c6_contLoop_step (f : Nat) (b : Node) :
    contLoop (f+4) t6 1 T_DELIM_QUOTE b = contLoop (f+3) t6 1 T_DELIM_QUOTE (b.add c6par) := by
  rw [contLoop]
  rw [if_neg (by decide :
    ¬ (atEndT t6 1 = true ∨ (peekT t6 1 0).kind = T_DELIM_QUOTE))]
  rw [show skipBlanks (f+3) t6 1 = .ok () 1 from rfl]
  simp only [pbind]
  rw [if_neg (by decide : ¬ (peekT t6 1 0).kind = T_DELIM_QUOTE)]
  rw [c6_parseBlock_eval f]

theorem c6_contLoop_diverges (f : Nat) : ∀ b, contLoop f t6 1 T_DELIM_QUOTE b = .fuelOut := by
  induction f using Nat.strong_induction_on with
  | _ f ih =>
    rcases lt_or_ge f 4 with h4 | h4
    · interval_cases f <;> intro b <;> rfl
    · obtain ⟨g, rfl⟩ : ∃ g, f = g + 4 := ⟨f - 4, by omega⟩
      intro b
      rw [c6_contLoop_step g b]
      exact ih (g + 3) (by omega) _

theorem c6_parseDelimited_step (f : Nat) :
    parseDelimited (f+1) t6 0 none =
      pbind (contLoop f t6 1 T_DELIM_QUOTE c6nd0) (fun nd p2 =>
        if (peekT t6 p2 0).kind = T_DELIM_QUOTE then .ok nd (incP t6 p2)
        else .err { line := (peekT t6 p2 0).lineNo, column := 1,
                    message := str "Expected closing delimiter" }) := rfl

theorem c6_parseDelimited_diverges (f : Nat) : parseDelimited f t6 0 none = .fuelOut := by
  rcases f with _ | g
  · rfl
  · rw [c6_parseDelimited_step g, c6_contLoop_diverges g c6nd0]
    rfl

theorem c6_docLoop_diverges (i : Nat) (d : Node) : docLoop (i+2) t6 0 d = .fuelOut := by
  rw [docLoop]
  rw [if_neg (by decide : ¬ atEndT t6 0 = true)]
  rw [show skipBlanks (i+1) t6 0 = .ok () 0 from rfl]
  simp only [pbind]
  rw [if_neg (by decide : ¬ atEndT t6 0 = true)]
  rw [show parseBlock (i+1) t6 0 = someify (parseDelimited i t6 0 none) from rfl]
  rw [c6_parseDelimited_diverges i]
  rfl

/-- For the container fences the content loop calls `parseBlock`, and a
`+` continuation token at the top of an unclosed `____` block is never
consumed, so the parser diverges: the run is a fuel-out at every fuel. -/
theorem c6_unclosed_container_diverges :
    ∀ fuel, parseTop fuel (lexL ["____", "+"]) = .fuelOut := by
  intro fuel
  rw [c6_lex]
  rcases lt_or_ge fuel 3 with h3 | h3
  · interval_cases fuel <;> rfl
  · obtain ⟨i, rfl⟩ : ∃ i, fuel = i + 3 := ⟨fuel - 3, by omega⟩
    have h1 : parseTop (i+3) t6 =
        docLoop (i+2) t6 0 (Node.mk K_Document 1 1 none [] [] [] [] []) := rfl
    rw [h1]
    exact c6_docLoop_diverges i _

/-- C6, counterexample.  The claim says an unclosed fence always makes
`Parser::parse` fail with a `ParseError`.  On the unclosed container
input `____` / `+` it does not: the parser diverges (by
`c6_unclosed_container_diverges` the run is a fuel-out at every fuel;
here instantiated at fuel 10000), so no error is ever reported. -/
theorem c6_unclosed_container_counterexample :
    parseTop 10000 (lexL ["____", "+"]) = .fuelOut :=
  c6_unclosed_container_diverges 10000

/-- A successful run of a loop followed by the close-fence check implies
the close check passed: the token at the final loop position has the
expected kind and the cursor ends just past it. -/
theorem pbind_close {α : Type} (toks : List LineTok) (k : TokKind) (r : PRes α)
    (f : α → Nat → Node) (e : Nat → ParseError) (nd : Node) (q : Nat)
    (h : pbind r (fun x p2 =>
        if (peekT toks p2 0).kind = k then PRes.ok (f x p2) (incP toks p2)
        else PRes.err (e p2)) = .ok nd q) :
    ∃ p2, (peekT toks p2 0).kind = k ∧ q = incP toks p2 := by
  cases r with
  | ok a p =>
    simp only [pbind] at h
    split at h
    next hc =>
      injection h with h1 h2
      exact ⟨p, hc, h2.symm⟩
    next => simp at h
  | err e' => simp [pbind] at h
  | fuelOut => simp [pbind] at h

/-- C6, amended.  What is true in the code: (general part) a successful
`parseDelimited` always consumed a closing fence of the same kind as the
opening fence — the token at the final loop position has the opening
kind and the final cursor is just past it; (concrete part) for the raw
fences a missing close fence is a fatal error, reported at the `EOF`
line; by the counterexample above, for the container fences an unclosed
block may diverge instead of reporting the error. -/
theorem c6_delimited_closure_amended :
    (∀ fuel toks pos m nd q, parseDelimited fuel toks pos m = .ok nd q →
       ∃ p2, (peekT toks p2 0).kind =
           (peekT toks (if (peekT toks pos 0).kind = T_STEM_ATTR_LINE
                        then incP toks pos else pos) 0).kind ∧
         q = incP toks p2) ∧
    parseTop 30 (lexL ["----", "x"]) =
      .err { line := 3, column := 1, message := str "Expected closing delimiter" } := by
  constructor
  · intro fuel toks pos m nd q h
    rcases fuel with _ | fuel
    · simp [parseDelimited] at h
    · simp only [parseDelimited] at h
      split at h
      next hstem =>
        rw [if_pos hstem]
        split at h
        · exact pbind_close toks _ _ _ _ nd q h
        · exact pbind_close toks _ _ _ _ nd q h
      next hstem =>
        rw [if_neg hstem]
        split at h
        · exact pbind_close toks _ _ _ _ nd q h
        · exact pbind_close toks _ _ _ _ nd q h
  · rfl

/-- C6, witness for the amended theorem: a closed `____` block parses
and the theorem locates its closing fence. -/
theorem c6_closure_witness :
    ∃ nd q p2, parseDelimited 10 (lexL ["____", "x", "____"]) 0 none = .ok nd q ∧
      (peekT (lexL ["____", "x", "____"]) p2 0).kind = T_DELIM_QUOTE ∧
      q = incP (lexL ["____", "x", "____"]) p2 := by
  have hOk : resOk (parseDelimited 10 (lexL ["____", "x", "____"]) 0 none) = true := rfl
  cases hp : parseDelimited 10 (lexL ["____", "x", "____"]) 0 none with
  | ok nd q =>
    obtain ⟨p2, h1, h2⟩ :=
      c6_delimited_closure_amended.1 10 (lexL ["____", "x", "____"]) 0 none nd q hp
    rw [show (peekT (lexL ["____", "x", "____"])
        (if (peekT (lexL ["____", "x", "____"]) 0 0).kind = T_STEM_ATTR_LINE
         then incP (lexL ["____", "x", "____"]) 0 else 0) 0).kind = T_DELIM_QUOTE
      from rfl] at h1
    exact ⟨nd, q, p2, rfl, h1, h2⟩
  | err e => rw [hp] at hOk; simp [resOk] at hOk
  | fuelOut => rw [hp] at hOk; simp [resOk] at hOk

/-! ### C10: unterminated tables -/

/-- C10, counterexample.  The claim says reaching `EOF` after an
unclosed `|===` never raises an error; but the width check still runs at
`EOF`, so an unterminated table whose cell count does not match the
first row errs. -/
theorem c10_unterminated_table_error :
    parseTop 30 (lexL ["|===", "|a|b", "|c"]) =
      .err { line := 2, column := 1,
             message := str "the number of cells is not compatible with the table size" } := rfl

/-- C10, amended.  An unterminated table is accepted silently only when
the collected cell count is compatible with the first row (concrete
part: two 2-cell rows parse without a close fence); and any token in the
table body that is neither a `TABLE_LINE`, a `BLANK` nor a `TABLE_DELIM`
is consumed and discarded without error and contributes no cells
(general part: the row loop just advances past it). -/
theorem c10_unterminated_table_amended :
    (match parseTop 30 (lexL ["|===", "|a|b", "|c|d"]) with
     | .ok d _ => d.children.map fun t =>
         (t.kind, t.children.map fun row => (row.kind, row.children.length))
     | _ => []) =
      [(K_Table, [(K_TableRow, 2), (K_TableRow, 2)])] ∧
    (∀ fuel toks pos parts, atEndT toks pos = false →
       (peekT toks pos 0).kind ≠ T_TABLE_DELIM →
       (peekT toks pos 0).kind ≠ T_BLANK →
       (peekT toks pos 0).kind ≠ T_TABLE_LINE →
       tableLoop (fuel+1) toks pos parts = tableLoop fuel toks (incP toks pos) parts) := by
  constructor
  · rfl
  · intro fuel toks pos parts h1 h2 h3 h4
    rw [tableLoop]
    rw [if_neg (by simp [h1])]
    rw [if_neg h2, if_neg h3, if_pos h4]

/-- C10, witness for the amended theorem: the text line inside the table
body of `|===` / `hello` / `|a` is skipped by the row loop. -/
theorem c10_skip_witness :
    tableLoop 5 (lexL ["|===", "hello", "|a"]) 1 [] =
      tableLoop 4 (lexL ["|===", "hello", "|a"]) 2 [] := by
  have h := c10_unterminated_table_amended.2 4 (lexL ["|===", "hello", "|a"]) 1 []
    (by rfl) (by decide) (by decide) (by decide)
  rw [show incP (lexL ["|===", "hello", "|a"]) 1 = 2 from rfl] at h
  exact h


/-! ### C5: escaped-pipe cell splitting -/

/-- The behaviour of `splitLoop` at a `|` preceded by a run of `k`
backslashes, for any pending-backslash count `bsRun`: the pipe is a
separator when `bsRun + k` is even, and an escaped literal `|` (with the
last backslash removed) when it is odd. -/
theorem splitLoop_bs_pipe : ∀ (k : Nat) (b cur : Str) (bsRun : Nat),
    splitLoop (List.replicate k '\\' ++ '|' :: b) cur bsRun =
      if (bsRun + k) % 2 = 0 then (cur ++ List.replicate k '\\') :: splitLoop b [] 0
      else splitLoop b ((cur ++ List.replicate k '\\').dropLast ++ ['|']) 0 := by
  intro k
  induction k with
  | zero =>
    intro b cur bsRun
    simp only [List.replicate, List.nil_append, List.append_nil, Nat.add_zero]
    rw [splitLoop, if_pos rfl]
  | succ k ih =>
    intro b cur bsRun
    rw [List.replicate_succ, List.cons_append]
    rw [show splitLoop ('\\' :: (List.replicate k '\\' ++ '|' :: b)) cur bsRun =
        splitLoop (List.replicate k '\\' ++ '|' :: b) (cur ++ ['\\'])
          (if '\\' = '\\' then bsRun + 1 else 0) from by
      rw [splitLoop]
      rw [if_neg (by decide : ¬ ('\\' : Char) = '|')]]
    rw [if_pos rfl, ih b (cur ++ ['\\']) (bsRun + 1)]
    have harg : bsRun + 1 + k = bsRun + (k + 1) := by omega
    rw [harg]
    have hl : cur ++ ['\\'] ++ List.replicate k '\\' = cur ++ List.replicate (k + 1) '\\' := by
      rw [List.append_assoc, List.replicate_succ]
      rfl
    rw [hl, List.replicate_succ]

/-- C5: splitting a table line on `|`: a `|` preceded by an even run of
backslashes is a separator (the run is kept), a `|` preceded by an odd
run is a literal `|` with the escaping backslash removed; `readCells`
discards the part before the first `|`; and the table row `|a\|b |c`
yields exactly one row with the two cell texts `a|b` and `c`. -/
theorem c5_escaped_pipe_splitting :
    (∀ k b cur, k % 2 = 0 →
       splitLoop (List.replicate k '\\' ++ '|' :: b) cur 0 =
         (cur ++ List.replicate k '\\') :: splitLoop b [] 0) ∧
    (∀ k b cur, k % 2 = 0 →
       splitLoop (List.replicate (k + 1) '\\' ++ '|' :: b) cur 0 =
         splitLoop b (cur ++ List.replicate k '\\' ++ ['|']) 0) ∧
    splitUnescapedPipe (str "|a\\|b |c") = [[], str "a|b ", str "c"] ∧
    (readCells { kind := T_TABLE_LINE, lineNo := 1, raw := str "x|y", rest := str "x|y" }).map
        (fun c => c.children.map fun x => (x.kind, x.text)) = [[(K_Text, str "y")]] ∧
    (match parseTop 30 (lexL ["|===", "|a\\|b |c", "|==="]) with
     | .ok d _ => d.children.map fun t => t.children.map fun row =>
         row.children.map fun cell => cell.children.map fun x => (x.kind, x.text)
     | _ => []) = [[[[(K_Text, str "a|b")], [(K_Text, str "c")]]]] := by
  refine ⟨?_, ?_, by rfl, by rfl, by rfl⟩
  · intro k b cur hk
    rw [splitLoop_bs_pipe k b cur 0, if_pos (by omega : (0 + k) % 2 = 0)]
  · intro k b cur hk
    rw [splitLoop_bs_pipe (k + 1) b cur 0,
      if_neg (by omega : ¬ (0 + (k + 1)) % 2 = 0)]
    have hd : (cur ++ List.replicate (k + 1) '\\').dropLast = cur ++ List.replicate k '\\' := by
      rw [List.replicate_succ']
      rw [show cur ++ (List.replicate k '\\' ++ ['\\']) =
          (cur ++ List.replicate k '\\') ++ ['\\'] from by rw [List.append_assoc]]
      exact List.dropLast_concat
    rw [hd]

/-- C5, witness for the two split laws at a concrete even run (2) and a
concrete odd run (1). -/
theorem c5_split_witness :
    splitLoop (List.replicate 2 '\\' ++ '|' :: str "r") (str "a") 0 =
      (str "a" ++ List.replicate 2 '\\') :: splitLoop (str "r") [] 0 ∧
    splitLoop (List.replicate (0 + 1) '\\' ++ '|' :: str "r") (str "a") 0 =
      splitLoop (str "r") (str "a" ++ List.replicate 0 '\\' ++ ['|']) 0 :=
  ⟨c5_escaped_pipe_splitting.1 2 (str "r") (str "a") (by decide),
   c5_escaped_pipe_splitting.2.1 0 (str "r") (str "a") (by decide)⟩

/-! ### C3: table row consistency -/

/-- Every row built by the re-flow loop is a `TableRow` of exactly `w`
cells, provided the cell count is the exact multiple `w * n`. -/
theorem buildRows_rows : ∀ (n : Nat) (cells : List Node) (w : Nat),
    cells.length = w * n →
    ∀ r ∈ buildRows cells w n, r.kind = K_TableRow ∧ r.children.length = w := by
  intro n
  induction n with
  | zero => intro cells w h r hr; simp [buildRows] at hr
  | succ n ih =>
    intro cells w h r hr
    rw [buildRows] at hr
    rcases List.mem_cons.1 hr with hhd | htl
    · subst hhd
      refine ⟨rfl, ?_⟩
      simp only [Node.children, List.length_take]
      have : w ≤ cells.length := by
        rw [h, Nat.mul_succ]
        exact Nat.le_add_left w (w * n)
      omega
    · exact ih (cells.drop w) w (by simp [h, Nat.mul_succ]) r htl

/-- C3: in every successfully parsed table, every row is a `TableRow`
with exactly as many cells as the first row (the first row's width `W`
re-flows the remaining cells); and a cell total that is not a multiple
of `W` is a fatal parse error carrying the first row's line position
(concrete second conjunct). -/
theorem c3_table_row_consistency :
    (∀ fuel toks pos m nd q, parseTable fuel toks pos m = .ok nd q →
       nd.kind = K_Table ∧
       ∀ r ∈ nd.children, r.kind = K_TableRow ∧
         r.children.length = (nd.children.headD defNode).children.length) ∧
    parseTop 30 (lexL ["|===", "|a|b", "|c", "|==="]) =
      .err { line := 2, column := 1,
             message := str "the number of cells is not compatible with the table size" } := by
  constructor
  · intro fuel toks pos m nd q h
    rcases fuel with _ | fuel
    · simp [parseTable] at h
    · simp only [parseTable] at h
      split at h
      case isFalse => simp at h
      case isTrue hdelim =>
        cases hl : tableLoop fuel toks (incP toks pos) [] with
        | err e => rw [hl] at h; simp [pbind] at h
        | fuelOut => rw [hl] at h; simp [pbind] at h
        | ok parts p2 =>
          rw [hl] at h
          rcases parts with _ | ⟨firstRow, restParts⟩
          · simp only [pbind] at h
            injection h with h1 h2
            subst h1
            exact ⟨rfl, by intro r hr; simp [Node.children] at hr⟩
          · simp only [pbind] at h
            by_cases hemp : firstRow.isEmpty = true
            · rw [if_pos hemp] at h
              injection h with h1 h2
              subst h1
              exact ⟨rfl, by intro r hr; simp [Node.children] at hr⟩
            · rw [if_neg hemp] at h
              by_cases hmod : restParts.join.length % firstRow.length = 0
              · rw [if_pos hmod] at h
                injection h with h1 h2
                subst h1
                refine ⟨rfl, ?_⟩
                intro r hr
                simp only [Node.children] at hr ⊢
                have hw : firstRow.length * (restParts.join.length / firstRow.length) =
                    restParts.join.length :=
                  Nat.mul_div_cancel' (Nat.dvd_of_mod_eq_zero hmod)
                rcases List.mem_cons.1 hr with hhd | htl
                · subst hhd
                  exact ⟨rfl, rfl⟩
                · have hb := buildRows_rows (restParts.join.length / firstRow.length)
                    restParts.join firstRow.length hw.symm r htl
                  simp only [List.headD_cons, Node.children]
                  exact ⟨hb.1, hb.2⟩
              · rw [if_neg hmod] at h
                simp at h
  · rfl

/-- C3, witness: the invariant applied to the concrete closed table
`|===` / `|a|b` / `|c|d` / `|===`. -/
theorem c3_witness :
    ∃ nd q, parseTable 10 (lexL ["|===", "|a|b", "|c|d", "|==="]) 0 none = .ok nd q ∧
      nd.kind = K_Table ∧
      ∀ r ∈ nd.children, r.kind = K_TableRow ∧
        r.children.length = (nd.children.headD defNode).children.length := by
  have hOk : resOk (parseTable 10 (lexL ["|===", "|a|b", "|c|d", "|==="]) 0 none) = true := by
    rfl
  cases hp : parseTable 10 (lexL ["|===", "|a|b", "|c|d", "|==="]) 0 none with
  | ok nd q =>
    obtain ⟨h1, h2⟩ :=
      c3_table_row_consistency.1 10 (lexL ["|===", "|a|b", "|c|d", "|==="]) 0 none nd q hp
    exact ⟨nd, q, rfl, h1, h2⟩
  | err e => rw [hp] at hOk; simp [resOk] at hOk
  | fuelOut => rw [hp] at hOk; simp [resOk] at hOk


/-! ### C1: where block metadata is attached -/

/-- Adding a child changes only the child list. -/
theorem Node.add_meta (s b : Node) : (s.add b).meta = s.meta := by cases s; rfl

theorem Node.add_kind (s b : Node) : (s.add b).kind = s.kind := by cases s; rfl

theorem Node.add_kv (s b : Node) : (s.add b).kv = s.kv := by cases s; rfl

theorem Node.add_children (s b : Node) : (s.add b).children = s.children ++ [b] := by
  cases s; rfl

/-- Unpacking a successful `someify`. -/
theorem someify_ok {r : PRes Node} {o : Option Node} {q : Nat}
    (h : someify r = .ok o q) : ∃ nd, o = some nd ∧ r = .ok nd q := by
  cases r with
  | ok n p =>
    injection h with h1 h2
    exact ⟨n, h1.symm, by rw [h2]⟩
  | err e => simp [someify] at h
  | fuelOut => simp [someify] at h

/-- `secLoop` only ever adds children: the metadata of the section node
it returns is the metadata it started with. -/
theorem secLoop_meta : ∀ (fuel : Nat) (toks : List LineTok) (pos : Nat) (s : Node)
    (lvl : Nat) (nd : Node) (q : Nat),
    secLoop fuel toks pos s lvl = .ok nd q → nd.meta = s.meta := by
  intro fuel
  induction fuel with
  | zero => intro toks pos s lvl nd q h; simp [secLoop] at h
  | succ fuel ih =>
    intro toks pos s lvl nd q h
    simp only [secLoop] at h
    split at h
    next => injection h with h1 h2; subst h1; rfl
    next =>
      cases hs : skipBlanks fuel toks pos with
      | err e => rw [hs] at h; simp [pbind] at h
      | fuelOut => rw [hs] at h; simp [pbind] at h
      | ok u p1 =>
        rw [hs] at h
        simp only [pbind] at h
        split at h
        next => injection h with h1 h2; subst h1; rfl
        next =>
          split at h
          next => injection h with h1 h2; subst h1; rfl
          next =>
            split at h
            next => simp at h
            next =>
              split at h
              next => injection h with h1 h2; subst h1; rfl
              next =>
                cases hb : parseBlock fuel toks p1 with
                | err e => rw [hb] at h; simp [pbind] at h
                | fuelOut => rw [hb] at h; simp [pbind] at h
                | ok ob p2 =>
                  rw [hb] at h
                  rcases ob with _ | b
                  · simp only [pbind] at h
                    injection h with h1 h2; subst h1; rfl
                  · simp only [pbind] at h
                    exact (ih toks p2 (s.add b) lvl nd q h).trans (Node.add_meta s b)

/-- `contLoop` only ever adds children: the metadata of the container
node it returns is the metadata it started with. -/
theorem contLoop_meta : ∀ (fuel : Nat) (toks : List LineTok) (pos : Nat) (k : TokKind)
    (b : Node) (nd : Node) (q : Nat),
    contLoop fuel toks pos k b = .ok nd q → nd.meta = b.meta := by
  intro fuel
  induction fuel with
  | zero => intro toks pos k b nd q h; simp [contLoop] at h
  | succ fuel ih =>
    intro toks pos k b nd q h
    simp only [contLoop] at h
    split at h
    next => injection h with h1 h2; subst h1; rfl
    next =>
      cases hs : skipBlanks fuel toks pos with
      | err e => rw [hs] at h; simp [pbind] at h
      | fuelOut => rw [hs] at h; simp [pbind] at h
      | ok u p1 =>
        rw [hs] at h
        simp only [pbind] at h
        split at h
        next => injection h with h1 h2; subst h1; rfl
        next =>
          cases hb : parseBlock fuel toks p1 with
          | err e => rw [hb] at h; simp [pbind] at h
          | fuelOut => rw [hb] at h; simp [pbind] at h
          | ok ob p2 =>
            rw [hb] at h
            rcases ob with _ | c
            · simp only [pbind] at h
              injection h with h1 h2; subst h1; rfl
            · simp only [pbind] at h
              exact (ih toks p2 k (b.add c) nd q h).trans (Node.add_meta b c)

/-- `dirLoop` only ever adds children: the metadata of the directive
node it returns is the metadata it started with. -/
theorem dirLoop_meta : ∀ (fuel : Nat) (toks : List LineTok) (pos : Nat)
    (n : Node) (nd : Node) (q : Nat),
    dirLoop fuel toks pos n = .ok nd q → nd.meta = n.meta := by
  intro fuel
  induction fuel with
  | zero => intro toks pos n nd q h; simp [dirLoop] at h
  | succ fuel ih =>
    intro toks pos n nd q h
    simp only [dirLoop] at h
    split at h
    next => injection h with h1 h2; subst h1; rfl
    next =>
      cases hs : skipBlanks fuel toks pos with
      | err e => rw [hs] at h; simp [pbind] at h
      | fuelOut => rw [hs] at h; simp [pbind] at h
      | ok u p1 =>
        rw [hs] at h
        simp only [pbind] at h
        split at h
        next =>
          injection h with h1 h2
          subst h1
          exact Node.add_meta n _
        next =>
          split at h
          next => injection h with h1 h2; subst h1; rfl
          next =>
            cases hb : parseBlock fuel toks p1 with
            | err e => rw [hb] at h; simp [pbind] at h
            | fuelOut => rw [hb] at h; simp [pbind] at h
            | ok ob p2 =>
              rw [hb] at h
              rcases ob with _ | b
              · simp only [pbind] at h
                injection h with h1 h2; subst h1; rfl
              · simp only [pbind] at h
                exact (ih toks p2 (n.add b) nd q h).trans (Node.add_meta n b)

/-- Unpacking a successful `pbind`. -/
theorem pbind_ok_elim {α β : Type} {r : PRes α} {k : α → Nat → PRes β} {b : β} {q : Nat}
    (h : pbind r k = .ok b q) : ∃ a p, r = .ok a p ∧ k a p = .ok b q := by
  cases r with
  | ok a p => exact ⟨a, p, rfl, h⟩
  | err e => simp [pbind] at h
  | fuelOut => simp [pbind] at h

/-- `listLoop` only ever adds children: the metadata of the list node it
returns is the metadata it started with. -/
theorem listLoop_meta : ∀ (fuel : Nat) (toks : List LineTok) (pos : Nat)
    (lst : Node) (nd : Node) (q : Nat),
    listLoop fuel toks pos lst = .ok nd q → nd.meta = lst.meta := by
  intro fuel
  induction fuel with
  | zero => intro toks pos lst nd q h; simp [listLoop] at h
  | succ fuel ih =>
    intro toks pos lst nd q h
    simp only [listLoop] at h
    split at h
    next =>
      -- description list branch
      split at h
      next => injection h with h1 h2; subst h1; rfl
      next =>
        obtain ⟨u, p3, hs1, h⟩ := pbind_ok_elim h
        try simp only [] at h
        split at h
        next =>
          obtain ⟨u2, p5, hs2, h⟩ := pbind_ok_elim h
          try simp only [] at h
          obtain ⟨cont, p6, hc, h⟩ := pbind_ok_elim h
          try simp only [] at h
          obtain ⟨u3, p7, hs3, h⟩ := pbind_ok_elim h
          try simp only [] at h
          exact (ih toks p7 _ nd q h).trans (Node.add_meta lst _)
        next =>
          obtain ⟨u2, p4, hs4, h⟩ := pbind_ok_elim h
          try simp only [] at h
          exact (ih toks p4 _ nd q h).trans (Node.add_meta lst _)
    next =>
      -- ordered / unordered branch
      split at h
      next => injection h with h1 h2; subst h1; rfl
      next =>
        split at h
        next => injection h with h1 h2; subst h1; rfl
        next =>
          obtain ⟨u, p2, hs1, h⟩ := pbind_ok_elim h
          try simp only [] at h
          obtain ⟨item2, p3, hi, h⟩ := pbind_ok_elim h
          try simp only [] at h
          obtain ⟨u2, p4, hs2, h⟩ := pbind_ok_elim h
          try simp only [] at h
          exact (ih toks p4 _ nd q h).trans (Node.add_meta lst _)

/-- A parsed section node carries exactly the metadata passed in. -/
theorem parseSection_meta (fuel : Nat) (toks : List LineTok) (pos : Nat)
    (m : Option BlockMeta) (nd : Node) (q : Nat)
    (h : parseSection fuel toks pos m = .ok nd q) : nd.meta = m := by
  rcases fuel with _ | fuel
  · simp [parseSection] at h
  · simp only [parseSection] at h
    exact secLoop_meta fuel toks _ _ _ nd q h

/-- A parsed list node carries exactly the metadata passed in. -/
theorem parseList_meta (fuel : Nat) (toks : List LineTok) (pos : Nat)
    (m : Option BlockMeta) (nd : Node) (q : Nat)
    (h : parseList fuel toks pos m = .ok nd q) : nd.meta = m := by
  rcases fuel with _ | fuel
  · simp [parseList] at h
  · simp only [parseList] at h
    exact listLoop_meta fuel toks pos _ nd q h

/-- A parsed table node carries exactly the metadata passed in. -/
theorem parseTable_meta (fuel : Nat) (toks : List LineTok) (pos : Nat)
    (m : Option BlockMeta) (nd : Node) (q : Nat)
    (h : parseTable fuel toks pos m = .ok nd q) : nd.meta = m := by
  rcases fuel with _ | fuel
  · simp [parseTable] at h
  · simp only [parseTable] at h
    split at h
    next =>
      obtain ⟨parts, p2, hl, h⟩ := pbind_ok_elim h
      rcases parts with _ | ⟨firstRow, restParts⟩
      · try simp only [] at h
        injection h with h1 h2; subst h1; rfl
      · try simp only [] at h
        split at h
        next => injection h with h1 h2; subst h1; rfl
        next =>
          split at h
          next => injection h with h1 h2; subst h1; rfl
          next => simp at h
    next => simp at h

/-- A parsed delimited block carries exactly the metadata passed in. -/
theorem parseDelimited_meta (fuel : Nat) (toks : List LineTok) (pos : Nat)
    (m : Option BlockMeta) (nd : Node) (q : Nat)
    (h : parseDelimited fuel toks pos m = .ok nd q) : nd.meta = m := by
  rcases fuel with _ | fuel
  · simp [parseDelimited] at h
  · simp only [parseDelimited] at h
    split at h
    next hstem =>
      split at h
      next =>
        obtain ⟨lines, p2, hl, h⟩ := pbind_ok_elim h
        try simp only [] at h
        split at h
        next => injection h with h1 h2; subst h1; rfl
        next => simp at h
      next =>
        obtain ⟨nd2, p2, hl, h⟩ := pbind_ok_elim h
        try simp only [] at h
        split at h
        next =>
          injection h with h1 h2
          subst h1
          exact (contLoop_meta fuel toks _ _ _ nd2 _ hl).trans rfl
        next => simp at h
    next hstem =>
      split at h
      next =>
        obtain ⟨lines, p2, hl, h⟩ := pbind_ok_elim h
        try simp only [] at h
        split at h
        next => injection h with h1 h2; subst h1; rfl
        next => simp at h
      next =>
        obtain ⟨nd2, p2, hl, h⟩ := pbind_ok_elim h
        try simp only [] at h
        split at h
        next =>
          injection h with h1 h2
          subst h1
          exact (contLoop_meta fuel toks _ _ _ nd2 _ hl).trans rfl
        next => simp at h

/-- A parsed directive node carries exactly the metadata passed in. -/
theorem parseDirective_meta (fuel : Nat) (toks : List LineTok) (pos : Nat)
    (m : Option BlockMeta) (nd : Node) (q : Nat)
    (h : parseDirective fuel toks pos m = .ok nd q) : nd.meta = m := by
  rcases fuel with _ | fuel
  · simp [parseDirective] at h
  · simp only [parseDirective] at h
    split at h
    next => exact (dirLoop_meta fuel toks _ _ nd q h).trans rfl
    next => injection h with h1 h2; subst h1; rfl

/-- A break/comment node carries exactly the metadata passed in. -/
theorem parseBreakOrComment_meta (toks : List LineTok) (pos : Nat)
    (m : Option BlockMeta) (nd : Node)
    (h : (parseBreakOrComment toks pos m).1 = some nd) : nd.meta = m := by
  simp only [parseBreakOrComment] at h
  split at h
  next => injection h with h1; subst h1; rfl
  next =>
    split at h
    next => injection h with h1; subst h1; rfl
    next =>
      split at h
      next => injection h with h1; subst h1; rfl
      next => simp at h

/-- A parsed (literal) paragraph carries exactly the metadata passed
in. -/
theorem parseParagraphOrLiteral_meta (fuel : Nat) (toks : List LineTok) (pos : Nat)
    (m : Option BlockMeta) (nd : Node) (q : Nat)
    (h : parseParagraphOrLiteral fuel toks pos m = .ok nd q) : nd.meta = m := by
  rcases fuel with _ | fuel
  · simp [parseParagraphOrLiteral] at h
  · simp only [parseParagraphOrLiteral] at h
    obtain ⟨lines, p1, hp, h⟩ := pbind_ok_elim h
    try simp only [] at h
    split at h
    next => injection h with h1 h2; subst h1; rfl
    next => injection h with h1 h2; subst h1; rfl

/-- The central attachment fact: every block returned by `parseBlock`
carries exactly the metadata collected by `parseBlockMetaOpt` at the
block's own start position — metadata never lands on any earlier
block. -/
theorem parseBlock_meta (fuel : Nat) (toks : List LineTok) (pos : Nat) (nd : Node) (q : Nat)
    (h : parseBlock fuel toks pos = .ok (some nd) q) :
    nd.meta = (parseBlockMetaOpt toks pos).1 := by
  rcases fuel with _ | fuel
  · simp [parseBlock] at h
  · simp only [parseBlock] at h
    split at h
    next =>
      obtain ⟨b, hb1, hb2⟩ := someify_ok h
      have hbe := Option.some.inj hb1
      subst hbe
      exact parseSection_meta fuel toks _ _ _ _ hb2
    next =>
      split at h
      next =>
        injection h with h1 h2
        rw [← Option.some.inj h1]
        rfl
      next =>
        split at h
        next =>
          obtain ⟨b, hb1, hb2⟩ := someify_ok h
          have hbe := Option.some.inj hb1
          subst hbe
          exact parseList_meta fuel toks _ _ _ _ hb2
        next =>
          split at h
          next =>
            obtain ⟨b, hb1, hb2⟩ := someify_ok h
            have hbe := Option.some.inj hb1
            subst hbe
            exact parseTable_meta fuel toks _ _ _ _ hb2
          next =>
            split at h
            next =>
              obtain ⟨b, hb1, hb2⟩ := someify_ok h
              have hbe := Option.some.inj hb1
              subst hbe
              exact parseDelimited_meta fuel toks _ _ _ _ hb2
            next =>
              split at h
              next =>
                injection h with h1 h2
                rw [← Option.some.inj h1]
                rfl
              next =>
                split at h
                next =>
                  obtain ⟨b, hb1, hb2⟩ := someify_ok h
                  have hbe := Option.some.inj hb1
                  subst hbe
                  exact parseDirective_meta fuel toks _ _ _ _ hb2
                next =>
                  split at h
                  next =>
                    injection h with h1 h2
                    exact parseBreakOrComment_meta toks _ _ nd h1
                  next =>
                    obtain ⟨b, hb1, hb2⟩ := someify_ok h
                    have hbe := Option.some.inj hb1
                    subst hbe
                    exact parseParagraphOrLiteral_meta fuel toks _ _ _ _ hb2

/-- The anchor id of an optional metadata record. -/
def metaAnchor (om : Option BlockMeta) : Option Str := om.map fun mm => mm.anchorId

/-- Did `parseBlock` succeed with a block? -/
def resSomeBlock : PRes (Option Node) → Bool
  | .ok (some _) _ => true
  | _ => false

/-- C1, counterexample.  The claim quantifies over every contiguous run
of metadata lines between two blocks.  For the run `[[a]]` / `[[b]]`
before the paragraph `x`, `parseBlockMetaOpt` consumes only the first
anchor (it reads at most one anchor, then attrs, then title, in that
order), the dangling second anchor makes `parseBlock` synthesize an
empty paragraph carrying `a`, and the following block `x` carries only
`b`: the run's field `anchorId = "a"` is not attached to the block that
follows the run. -/
theorem c1_meta_run_counterexample :
    (match parseTop 30 (lexL ["[[a]]", "[[b]]", "x"]) with
     | .ok d _ => d.children.map fun n => (n.kind, n.children.length, metaAnchor n.meta)
     | _ => []) =
      [(K_Paragraph, 0, some (str "a")), (K_Paragraph, 1, some (str "b"))] := rfl

/-- C1, amended.  Every block returned by `parseBlock` carries exactly
the metadata collected by `parseBlockMetaOpt` at the block's own start
(general part) — so metadata attaches to the immediately following
block and never to a preceding one, provided the run fits the
anchor-attrs-title pattern that `parseBlockMetaOpt` consumes; and the
claim's seed holds: in `== A` / `[[anchor]]` / `=== B`, section `B`
carries `anchor` and section `A` carries no metadata at all (concrete
part). -/
theorem c1_meta_attachment_amended :
    (∀ fuel toks pos nd q, parseBlock fuel toks pos = .ok (some nd) q →
       nd.meta = (parseBlockMetaOpt toks pos).1) ∧
    (match parseTop 30 (lexL ["== A", "[[anchor]]", "=== B"]) with
     | .ok d _ => d.children.map fun a =>
         (a.name, metaAnchor a.meta, a.children.map fun b => (b.name, metaAnchor b.meta))
     | _ => []) =
      [(str "A", none, [(str "B", some (str "anchor"))])] :=
  ⟨fun fuel toks pos nd q h => parseBlock_meta fuel toks pos nd q h, by rfl⟩

/-- C1, witness: the amended attachment equation applied to the
concrete input `[[anchor]]` / `x`. -/
theorem c1_attachment_witness :
    ∃ nd q, parseBlock 10 (lexL ["[[anchor]]", "x"]) 0 = .ok (some nd) q ∧
      nd.meta = (parseBlockMetaOpt (lexL ["[[anchor]]", "x"]) 0).1 := by
  have hOk : resSomeBlock (parseBlock 10 (lexL ["[[anchor]]", "x"]) 0) = true := rfl
  cases hp : parseBlock 10 (lexL ["[[anchor]]", "x"]) 0 with
  | ok ob q =>
    rcases ob with _ | nd
    · rw [hp] at hOk; simp [resSomeBlock] at hOk
    · exact ⟨nd, q, rfl,
        c1_meta_attachment_amended.1 10 (lexL ["[[anchor]]", "x"]) 0 nd q hp⟩
  | err e => rw [hp] at hOk; simp [resSomeBlock] at hOk
  | fuelOut => rw [hp] at hOk; simp [resSomeBlock] at hOk


/-! ### C2, amended: machinery -/

theorem charDigit10_digitChar10 (d : Nat) (h : d < 10) : charDigit10 (digitChar10 d) = d := by
  interval_cases d <;> rfl

theorem natDigitsLE_foldr : ∀ (fuel n : Nat), n ≤ fuel →
    (natDigitsLE fuel n).foldr (fun d a => a * 10 + charDigit10 (digitChar10 d)) 0 = n := by
  intro fuel
  induction fuel with
  | zero =>
    intro n h
    interval_cases n
    rfl
  | succ fuel ih =>
    intro n h
    by_cases h0 : n = 0
    · subst h0; simp [natDigitsLE]
    · rw [natDigitsLE, if_neg h0]
      simp only [List.foldr_cons]
      rw [ih (n / 10) (by omega)]
      rw [charDigit10_digitChar10 (n % 10) (by omega)]
      omega

/-- The decimal print/read round trip used for section levels. -/
theorem strToNatD_natToStr (n : Nat) : strToNatD (natToStr n) = n := by
  by_cases h0 : n = 0
  · subst h0; rfl
  · rw [natToStr, if_neg h0]
    unfold strToNatD
    rw [List.map_reverse, List.foldl_reverse, List.foldr_map]
    exact natDigitsLE_foldr n n le_rfl

theorem kvGet_kvSet_self (kv : List (Str × Str)) (k v : Str) :
    kvGet (kvSet kv k v) k = v := by
  induction kv with
  | nil => simp [kvSet, kvGet]
  | cons p rest ih =>
    rcases p with ⟨k', v'⟩
    by_cases hk : k' = k
    · subst hk; simp [kvSet, kvGet]
    · simp [kvSet, kvGet, hk, ih]

/-- A node with no children satisfies the nesting invariant. -/
theorem secOk_leaf (n : Node) (h : n.children = []) : SecOk n := by
  constructor
  · intro _ c hc _
    rw [h] at hc
    exact absurd hc (List.not_mem_nil c)
  · intro c hc
    rw [h] at hc
    exact absurd hc (List.not_mem_nil c)

/-- A non-section node whose children satisfy the invariant satisfies
it. -/
theorem secOk_wrap (k : NodeKind) (l c : Nat) (m : Option BlockMeta) (t nm tg : Str)
    (kv : List (Str × Str)) (cs : List Node) (hk : k ≠ K_Section)
    (hcs : ∀ x ∈ cs, SecOk x) : SecOk (Node.mk k l c m t nm tg kv cs) := by
  constructor
  · intro hkk
    exact absurd hkk hk
  · exact hcs

theorem pushText_secOk (lineNo : Nat) (t : Str) : ∀ n ∈ pushText lineNo t, SecOk n := by
  intro n hn
  unfold pushText at hn
  split at hn
  · exact absurd hn (List.not_mem_nil n)
  · cases List.mem_singleton.1 hn
    exact secOk_leaf _ rfl

/-- Every node produced by the inline scanner satisfies the nesting
invariant (no inline node is a section). -/
theorem scanLoop_secOk : ∀ (fuel lineNo depth : Nat) (r acc : Str),
    ∀ n ∈ scanLoop lineNo depth fuel r acc, SecOk n := by
  intro fuel
  induction fuel with
  | zero =>
    intro lineNo depth r acc n hn
    rcases r with _ | ⟨c, cs⟩
    · exact pushText_secOk lineNo acc n hn
    · exact pushText_secOk lineNo acc n hn
  | succ fuel ih =>
    intro lineNo depth r acc n hn
    rcases r with _ | ⟨c, cs⟩
    · exact pushText_secOk lineNo acc n hn
    · simp only [scanLoop] at hn
      rcases hh : hitTry (c :: cs) with _ | hit
      · rw [hh] at hn
        exact ih lineNo depth cs (acc ++ [c]) n hn
      · cases hit with
        | hAttrRef nm rest =>
          rw [hh] at hn
          rcases List.mem_append.1 hn with h1 | h2
          · rcases List.mem_append.1 h1 with ha | hb
            · exact pushText_secOk lineNo acc n ha
            · cases List.mem_singleton.1 hb
              exact secOk_leaf _ rfl
          · exact ih lineNo depth rest [] n h2
        | hXref tgt innerTxt rest =>
          rcases innerTxt with _ | t
          · rw [hh] at hn
            rcases List.mem_append.1 hn with h1 | h2
            · rcases List.mem_append.1 h1 with ha | hb
              · exact pushText_secOk lineNo acc n ha
              · cases List.mem_singleton.1 hb
                exact secOk_leaf _ rfl
            · exact ih lineNo depth rest [] n h2
          · rw [hh] at hn
            rcases List.mem_append.1 hn with h1 | h2
            · rcases List.mem_append.1 h1 with ha | hb
              · exact pushText_secOk lineNo acc n ha
              · cases List.mem_singleton.1 hb
                exact secOk_wrap _ _ _ _ _ _ _ _ _ (by decide)
                  (fun x hx => ih lineNo (depth+1) t [] x hx)
            · exact ih lineNo depth rest [] n h2
        | hAnchor nm innerTxt rest =>
          rcases innerTxt with _ | t
          · rw [hh] at hn
            rcases List.mem_append.1 hn with h1 | h2
            · rcases List.mem_append.1 h1 with ha | hb
              · exact pushText_secOk lineNo acc n ha
              · cases List.mem_singleton.1 hb
                exact secOk_leaf _ rfl
            · exact ih lineNo depth rest [] n h2
          · rw [hh] at hn
            rcases List.mem_append.1 hn with h1 | h2
            · rcases List.mem_append.1 h1 with ha | hb
              · exact pushText_secOk lineNo acc n ha
              · cases List.mem_singleton.1 hb
                exact secOk_wrap _ _ _ _ _ _ _ _ _ (by decide)
                  (fun x hx => ih lineNo (depth+1) t [] x hx)
            · exact ih lineNo depth rest [] n h2
        | hUrl tgt rest =>
          rw [hh] at hn
          rcases List.mem_append.1 hn with h1 | h2
          · rcases List.mem_append.1 h1 with ha | hb
            · exact pushText_secOk lineNo acc n ha
            · cases List.mem_singleton.1 hb
              exact secOk_leaf _ rfl
          · exact ih lineNo depth rest [] n h2
        | hMac nm tgt t rest =>
          rw [hh] at hn
          rcases List.mem_append.1 hn with h1 | h2
          · rcases List.mem_append.1 h1 with ha | hb
            · exact pushText_secOk lineNo acc n ha
            · cases List.mem_singleton.1 hb
              exact secOk_wrap _ _ _ _ _ _ _ _ _ (by decide)
                (fun x hx => ih lineNo (depth+1) t [] x hx)
          · exact ih lineNo depth rest [] n h2
        | hEmph enm t rest =>
          rw [hh] at hn
          rcases List.mem_append.1 hn with h1 | h2
          · rcases List.mem_append.1 h1 with ha | hb
            · exact pushText_secOk lineNo acc n ha
            · cases List.mem_singleton.1 hb
              exact secOk_wrap _ _ _ _ _ _ _ _ _ (by decide)
                (fun x hx => ih lineNo (depth+1) t [] x hx)
          · exact ih lineNo depth rest [] n h2
        | hMonoRaw txt rest =>
          rw [hh] at hn
          rcases List.mem_append.1 hn with h1 | h2
          · rcases List.mem_append.1 h1 with ha | hb
            · exact pushText_secOk lineNo acc n ha
            · cases List.mem_singleton.1 hb
              exact secOk_leaf _ rfl
          · exact ih lineNo depth rest [] n h2
        | hSup txt rest =>
          rw [hh] at hn
          rcases List.mem_append.1 hn with h1 | h2
          · rcases List.mem_append.1 h1 with ha | hb
            · exact pushText_secOk lineNo acc n ha
            · cases List.mem_singleton.1 hb
              exact secOk_leaf _ rfl
          · exact ih lineNo depth rest [] n h2
        | hSub txt rest =>
          rw [hh] at hn
          rcases List.mem_append.1 hn with h1 | h2
          · rcases List.mem_append.1 h1 with ha | hb
            · exact pushText_secOk lineNo acc n ha
            · cases List.mem_singleton.1 hb
              exact secOk_leaf _ rfl
          · exact ih lineNo depth rest [] n h2
        | hPass pn t rest =>
          rw [hh] at hn
          rcases List.mem_append.1 hn with h1 | h2
          · rcases List.mem_append.1 h1 with ha | hb
            · exact pushText_secOk lineNo acc n ha
            · cases List.mem_singleton.1 hb
              exact secOk_wrap _ _ _ _ _ _ _ _ _ (by decide)
                (fun x hx => ih lineNo (depth+1) t [] x hx)
          · exact ih lineNo depth rest [] n h2

/-- All inline content satisfies the nesting invariant. -/
theorem parseInlineContent_secOk (s : Str) (lineNo : Nat) :
    ∀ n ∈ parseInlineContent s lineNo, SecOk n := by
  intro n hn
  exact scanLoop_secOk s.length lineNo 0 s [] n hn

theorem readCells_secOk (tok : LineTok) : ∀ c ∈ readCells tok, SecOk c := by
  intro c hc
  unfold readCells at hc
  obtain ⟨cell, hcell, rfl⟩ := List.mem_map.1 hc
  exact secOk_wrap _ _ _ _ _ _ _ _ _ (by decide)
    (fun x hx => parseInlineContent_secOk _ _ x hx)

/-- The row loop only accumulates cell lists made by `readCells`. -/
theorem tableLoop_cells : ∀ (fuel : Nat) (toks : List LineTok) (pos : Nat)
    (parts parts' : List (List Node)) (q : Nat),
    tableLoop fuel toks pos parts = .ok parts' q →
    (∀ row ∈ parts, ∀ c ∈ row, SecOk c) →
    ∀ row ∈ parts', ∀ c ∈ row, SecOk c := by
  intro fuel
  induction fuel with
  | zero => intro toks pos parts parts' q h hp; simp [tableLoop] at h
  | succ fuel ih =>
    intro toks pos parts parts' q h hp
    simp only [tableLoop] at h
    split at h
    next => injection h with h1 h2; subst h1; exact hp
    next =>
      split at h
      next => injection h with h1 h2; subst h1; exact hp
      next =>
        split at h
        next => exact ih toks _ parts parts' _ h hp
        next =>
          split at h
          next => exact ih toks _ parts parts' _ h hp
          next =>
            refine ih toks _ _ parts' _ h ?_
            intro row hrow c hc
            rcases List.mem_append.1 hrow with h1 | h2
            · exact hp row h1 c hc
            · cases List.mem_singleton.1 h2
              exact readCells_secOk _ c hc

theorem buildRows_secOk : ∀ (n : Nat) (cells : List Node) (w : Nat),
    (∀ c ∈ cells, SecOk c) → ∀ r ∈ buildRows cells w n, SecOk r := by
  intro n
  induction n with
  | zero => intro cells w hc r hr; simp [buildRows] at hr
  | succ n ih =>
    intro cells w hc r hr
    rw [buildRows] at hr
    rcases List.mem_cons.1 hr with hhd | htl
    · subst hhd
      exact secOk_wrap _ _ _ _ _ _ _ _ _ (by decide)
        (fun x hx => hc x (List.mem_of_mem_take hx))
    · exact ih (cells.drop w) w (fun x hx => hc x (List.mem_of_mem_drop hx)) r htl

/-- A parsed table satisfies the nesting invariant. -/
theorem parseTable_secOk (fuel : Nat) (toks : List LineTok) (pos : Nat)
    (m : Option BlockMeta) (nd : Node) (q : Nat)
    (h : parseTable fuel toks pos m = .ok nd q) : SecOk nd ∧ nd.kind = K_Table := by
  rcases fuel with _ | fuel
  · simp [parseTable] at h
  · simp only [parseTable] at h
    split at h
    next =>
      obtain ⟨parts, p2, hl, h⟩ := pbind_ok_elim h
      have hcells := tableLoop_cells fuel toks _ [] parts _ hl
        (by intro row hrow; exact absurd hrow (List.not_mem_nil row))
      rcases parts with _ | ⟨firstRow, restParts⟩
      · try simp only [] at h
        injection h with h1 h2
        subst h1
        exact ⟨secOk_leaf _ rfl, rfl⟩
      · try simp only [] at h
        split at h
        next =>
          injection h with h1 h2
          subst h1
          exact ⟨secOk_leaf _ rfl, rfl⟩
        next =>
          split at h
          next =>
            injection h with h1 h2
            subst h1
            refine ⟨secOk_wrap _ _ _ _ _ _ _ _ _ (by decide) ?_, rfl⟩
            intro x hx
            rcases List.mem_cons.1 hx with hhd | htl
            · subst hhd
              exact secOk_wrap _ _ _ _ _ _ _ _ _ (by decide)
                (fun y hy => hcells firstRow (List.mem_cons_self _ _) y hy)
            · refine buildRows_secOk _ restParts.join firstRow.length ?_ x htl
              intro y hy
              obtain ⟨row, hrow, hyy⟩ := List.mem_join.1 hy
              exact hcells row (List.mem_cons_of_mem _ hrow) y hyy
          next => simp at h
    next => simp at h

theorem parseAdmonitionParagraph_secOk (toks : List LineTok) (pos : Nat)
    (m : Option BlockMeta) :
    SecOk (parseAdmonitionParagraph toks pos m).1 ∧
    (parseAdmonitionParagraph toks pos m).1.kind = K_AdmonitionParagraph :=
  ⟨secOk_wrap _ _ _ _ _ _ _ _ _ (by decide)
    (fun x hx => parseInlineContent_secOk _ _ x hx), rfl⟩

theorem parseBlockMacro_secOk (toks : List LineTok) (pos : Nat) (m : Option BlockMeta) :
    SecOk (parseBlockMacro toks pos m).1 ∧
    (parseBlockMacro toks pos m).1.kind = K_BlockMacro :=
  ⟨secOk_leaf _ rfl, rfl⟩

theorem parseBreakOrComment_secOk (toks : List LineTok) (pos : Nat)
    (m : Option BlockMeta) (nd : Node)
    (h : (parseBreakOrComment toks pos m).1 = some nd) :
    SecOk nd ∧ nd.kind ≠ K_Section := by
  simp only [parseBreakOrComment] at h
  split at h
  next =>
    injection h with h1
    subst h1
    exact ⟨secOk_leaf _ rfl, fun hk => by simp [Node.kind] at hk⟩
  next =>
    split at h
    next =>
      injection h with h1
      subst h1
      exact ⟨secOk_leaf _ rfl, fun hk => by simp [Node.kind] at hk⟩
    next =>
      split at h
      next =>
        injection h with h1
        subst h1
        exact ⟨secOk_leaf _ rfl, fun hk => by simp [Node.kind] at hk⟩
      next => simp at h

/-- No metadata tokens anywhere in the stream (the hypothesis of the
amended nesting invariant). -/
abbrev NoMeta (toks : List LineTok) : Prop :=
  ∀ t ∈ toks, t.kind ≠ T_BLOCK_TITLE ∧ t.kind ≠ T_BLOCK_ANCHOR ∧ t.kind ≠ T_BLOCK_ATTRS

theorem peekT_noMeta (toks : List LineTok) (pos k : Nat) (hnm : NoMeta toks) :
    (peekT toks pos k).kind ≠ T_BLOCK_TITLE ∧ (peekT toks pos k).kind ≠ T_BLOCK_ANCHOR ∧
    (peekT toks pos k).kind ≠ T_BLOCK_ATTRS := by
  unfold peekT
  rcases hg : toks.get? (min (pos + k) (toks.length - 1)) with _ | t
  · rw [List.getD_eq_get?, hg]
    exact ⟨by decide, by decide, by decide⟩
  · rw [List.getD_eq_get?, hg]
    exact hnm t (List.get?_mem hg)

theorem parseBlockMetaOpt_noMeta (toks : List LineTok) (pos : Nat) (hnm : NoMeta toks) :
    parseBlockMetaOpt toks pos = (none, pos) := by
  have h := peekT_noMeta toks pos 0 hnm
  simp only [parseBlockMetaOpt]
  rw [if_pos ⟨h.2.1, h.2.2, h.1⟩]

/-- The invariant carried by the accumulator of `secLoop`: children so
far satisfy the invariant, and section children sit strictly below. -/
def SecAcc (lvl : Nat) (s : Node) : Prop :=
  (∀ c ∈ s.children, SecOk c) ∧ (∀ c ∈ s.children, c.kind = K_Section → lvl < levelNat c)

theorem noChildren_triv (s : Node) (h : s.children = []) : ∀ c ∈ s.children, SecOk c := by
  rw [h]
  intro c hc
  exact absurd hc (List.not_mem_nil c)

theorem secAcc_nil (lvl : Nat) (s : Node) (h : s.children = []) : SecAcc lvl s := by
  refine ⟨noChildren_triv s h, ?_⟩
  rw [h]
  intro c hc
  exact absurd hc (List.not_mem_nil c)

/-- The conjunction, over all node-producing parser functions, of the
nesting-invariant facts proved by induction on fuel (for streams with
no metadata tokens). -/
def ParserSecOkP (fuel : Nat) : Prop :=
  (∀ toks pos m nd q, NoMeta toks → parseSection fuel toks pos m = .ok nd q →
     SecOk nd ∧ nd.kind = K_Section ∧ levelNat nd = (peekT toks pos 0).level) ∧
  (∀ toks pos s lvl nd q, NoMeta toks → secLoop fuel toks pos s lvl = .ok nd q →
     SecAcc lvl s → SecAcc lvl nd ∧ nd.kind = s.kind ∧ nd.kv = s.kv) ∧
  (∀ toks pos nd q, NoMeta toks → parseBlock fuel toks pos = .ok (some nd) q →
     SecOk nd ∧ (nd.kind = K_Section →
       (peekT toks pos 0).kind = T_SECTION ∧ levelNat nd = (peekT toks pos 0).level)) ∧
  (∀ toks pos k b nd q, NoMeta toks → contLoop fuel toks pos k b = .ok nd q →
     (∀ c ∈ b.children, SecOk c) → (∀ c ∈ nd.children, SecOk c) ∧ nd.kind = b.kind) ∧
  (∀ toks pos m nd q, NoMeta toks → parseDelimited fuel toks pos m = .ok nd q →
     SecOk nd ∧ nd.kind = K_DelimitedBlock) ∧
  (∀ toks pos m nd q, NoMeta toks → parseList fuel toks pos m = .ok nd q →
     SecOk nd ∧ nd.kind = K_List) ∧
  (∀ toks pos lst nd q, NoMeta toks → listLoop fuel toks pos lst = .ok nd q →
     (∀ c ∈ lst.children, SecOk c) → (∀ c ∈ nd.children, SecOk c) ∧ nd.kind = lst.kind) ∧
  (∀ toks pos item nd q, NoMeta toks → itemContLoop fuel toks pos item = .ok nd q →
     (∀ c ∈ item.children, SecOk c) → (∀ c ∈ nd.children, SecOk c) ∧ nd.kind = item.kind) ∧
  (∀ toks pos m nd q, NoMeta toks → parseDirective fuel toks pos m = .ok nd q →
     SecOk nd ∧ nd.kind = K_Directive) ∧
  (∀ toks pos n nd q, NoMeta toks → dirLoop fuel toks pos n = .ok nd q →
     (∀ c ∈ n.children, SecOk c) → (∀ c ∈ nd.children, SecOk c) ∧ nd.kind = n.kind) ∧
  (∀ toks pos m nd q, NoMeta toks → parseParagraphOrLiteral fuel toks pos m = .ok nd q →
     SecOk nd ∧ nd.kind ≠ K_Section) ∧
  (∀ toks pos d nd q, NoMeta toks → docLoop fuel toks pos d = .ok nd q →
     (∀ c ∈ d.children, SecOk c) → (∀ c ∈ nd.children, SecOk c) ∧ nd.kind = d.kind)

theorem parserSecOk : ∀ fuel, ParserSecOkP fuel := by
  intro fuel
  induction fuel with
  | zero =>
    refine ⟨?_, ?_, ?_, ?_, ?_, ?_, ?_, ?_, ?_, ?_, ?_, ?_⟩ <;>
      · intros
        simp_all only [parseSection, secLoop, parseBlock, contLoop,
          parseDelimited, parseList, listLoop, itemContLoop, parseDirective, dirLoop,
          parseParagraphOrLiteral, docLoop, reduceCtorEq]
  | succ fuel ih =>
    obtain ⟨ihSec, ihSecLoop, ihBlock, ihCont, ihDelim, ihList, ihListLoop,
      ihItem, ihDir, ihDirLoop, ihPpl, ihDocLoop⟩ := ih
    refine ⟨?_, ?_, ?_, ?_, ?_, ?_, ?_, ?_, ?_, ?_, ?_, ?_⟩
    -- parseSection
    · intro toks pos m nd q hnm h
      simp only [parseSection] at h
      obtain ⟨⟨hch, hlv⟩, hkind, hkv⟩ :=
        ihSecLoop toks _ _ _ nd q hnm h (secAcc_nil _ _ rfl)
      have hlevel : levelNat nd = (peekT toks pos 0).level := by
        unfold levelNat
        rw [hkv]
        simp only [Node.kv]
        rw [kvGet_kvSet_self, strToNatD_natToStr]
      refine ⟨?_, hkind.trans rfl, hlevel⟩
      constructor
      · intro _ c hc hcs
        rw [hlevel]
        exact hlv c hc hcs
      · exact hch
    -- secLoop
    · intro toks pos s lvl nd q hnm h hacc
      simp only [secLoop] at h
      split at h
      next => injection h with h1 h2; subst h1; exact ⟨hacc, rfl, rfl⟩
      next =>
        obtain ⟨u, p1, hs, h⟩ := pbind_ok_elim h
        try simp only [] at h
        split at h
        next => injection h with h1 h2; subst h1; exact ⟨hacc, rfl, rfl⟩
        next =>
          split at h
          next => injection h with h1 h2; subst h1; exact ⟨hacc, rfl, rfl⟩
          next hstop =>
            split at h
            next => simp at h
            next =>
              split at h
              next => injection h with h1 h2; subst h1; exact ⟨hacc, rfl, rfl⟩
              next =>
                obtain ⟨ob, p2, hb, h⟩ := pbind_ok_elim h
                rcases ob with _ | b
                · try simp only [] at h
                  injection h with h1 h2; subst h1; exact ⟨hacc, rfl, rfl⟩
                · try simp only [] at h
                  obtain ⟨hbOk, hbSec⟩ := ihBlock toks p1 b p2 hnm hb
                  have hacc' : SecAcc lvl (s.add b) := by
                    constructor
                    · intro c hc
                      rw [Node.add_children] at hc
                      rcases List.mem_append.1 hc with h1 | h2
                      · exact hacc.1 c h1
                      · cases List.mem_singleton.1 h2
                        exact hbOk
                    · intro c hc hcs
                      rw [Node.add_children] at hc
                      rcases List.mem_append.1 hc with h1 | h2
                      · exact hacc.2 c h1 hcs
                      · cases List.mem_singleton.1 h2
                        obtain ⟨hksec, hklev⟩ := hbSec hcs
                        rw [hklev]
                        rcases Decidable.not_and_iff_or_not.1 hstop with hno | hno
                        · exact absurd hksec hno
                        · omega
                  obtain ⟨hacc2, hkind2, hkv2⟩ :=
                    ihSecLoop toks p2 (s.add b) lvl nd q hnm h hacc'
                  exact ⟨hacc2, hkind2.trans (Node.add_kind s b),
                    hkv2.trans (Node.add_kv s b)⟩
    -- parseBlock
    · intro toks pos nd q hnm h
      simp only [parseBlock, parseBlockMetaOpt_noMeta toks pos hnm] at h
      split at h
      next hk =>
        obtain ⟨b, hb1, hb2⟩ := someify_ok h
        have hbe := Option.some.inj hb1
        subst hbe
        obtain ⟨hok, hkind, hlev⟩ := ihSec toks pos none nd q hnm hb2
        exact ⟨hok, fun _ => ⟨hk, hlev⟩⟩
      next =>
        split at h
        next =>
          injection h with h1 h2
          have hbe := Option.some.inj h1
          obtain ⟨hok, hkind⟩ := parseAdmonitionParagraph_secOk toks pos none
          rw [hbe] at hok hkind
          refine ⟨hok, fun hks => ?_⟩
          rw [hkind] at hks
          exact absurd hks (by decide)
        next =>
          split at h
          next =>
            obtain ⟨b, hb1, hb2⟩ := someify_ok h
            have hbe := Option.some.inj hb1
            subst hbe
            obtain ⟨hok, hkind⟩ := ihList toks pos none nd q hnm hb2
            refine ⟨hok, fun hks => ?_⟩
            rw [hkind] at hks
            exact absurd hks (by decide)
          next =>
            split at h
            next =>
              obtain ⟨b, hb1, hb2⟩ := someify_ok h
              have hbe := Option.some.inj hb1
              subst hbe
              obtain ⟨hok, hkind⟩ := parseTable_secOk fuel toks pos none nd q hb2
              refine ⟨hok, fun hks => ?_⟩
              rw [hkind] at hks
              exact absurd hks (by decide)
            next =>
              split at h
              next =>
                obtain ⟨b, hb1, hb2⟩ := someify_ok h
                have hbe := Option.some.inj hb1
                subst hbe
                obtain ⟨hok, hkind⟩ := ihDelim toks pos none nd q hnm hb2
                refine ⟨hok, fun hks => ?_⟩
                rw [hkind] at hks
                exact absurd hks (by decide)
              next =>
                split at h
                next =>
                  injection h with h1 h2
                  have hbe := Option.some.inj h1
                  obtain ⟨hok, hkind⟩ := parseBlockMacro_secOk toks pos none
                  rw [hbe] at hok hkind
                  refine ⟨hok, fun hks => ?_⟩
                  rw [hkind] at hks
                  exact absurd hks (by decide)
                next =>
                  split at h
                  next =>
                    obtain ⟨b, hb1, hb2⟩ := someify_ok h
                    have hbe := Option.some.inj hb1
                    subst hbe
                    obtain ⟨hok, hkind⟩ := ihDir toks pos none nd q hnm hb2
                    refine ⟨hok, fun hks => ?_⟩
                    rw [hkind] at hks
                    exact absurd hks (by decide)
                  next =>
                    split at h
                    next =>
                      injection h with h1 h2
                      obtain ⟨hok, hkind⟩ :=
                        parseBreakOrComment_secOk toks _ none nd h1
                      exact ⟨hok, fun hks => absurd hks hkind⟩
                    next =>
                      obtain ⟨b, hb1, hb2⟩ := someify_ok h
                      have hbe := Option.some.inj hb1
                      subst hbe
                      obtain ⟨hok, hkind⟩ := ihPpl toks pos none nd q hnm hb2
                      exact ⟨hok, fun hks => absurd hks hkind⟩
    -- contLoop
    · intro toks pos k b nd q hnm h hch
      simp only [contLoop] at h
      split at h
      next => injection h with h1 h2; subst h1; exact ⟨hch, rfl⟩
      next =>
        obtain ⟨u, p1, hs, h⟩ := pbind_ok_elim h
        try simp only [] at h
        split at h
        next => injection h with h1 h2; subst h1; exact ⟨hch, rfl⟩
        next =>
          obtain ⟨ob, p2, hb, h⟩ := pbind_ok_elim h
          rcases ob with _ | inner
          · try simp only [] at h
            injection h with h1 h2; subst h1; exact ⟨hch, rfl⟩
          · try simp only [] at h
            obtain ⟨hbOk, _⟩ := ihBlock toks p1 inner p2 hnm hb
            have hch' : ∀ c ∈ (b.add inner).children, SecOk c := by
              intro c hc
              rw [Node.add_children] at hc
              rcases List.mem_append.1 hc with h1 | h2
              · exact hch c h1
              · cases List.mem_singleton.1 h2
                exact hbOk
            obtain ⟨hch2, hkind2⟩ := ihCont toks p2 k (b.add inner) nd q hnm h hch'
            exact ⟨hch2, hkind2.trans (Node.add_kind b inner)⟩
    -- parseDelimited
    · intro toks pos m nd q hnm h
      simp only [parseDelimited] at h
      split at h
      next hstem =>
        split at h
        next =>
          obtain ⟨lines, p2, hl, h⟩ := pbind_ok_elim h
          try simp only [] at h
          split at h
          next =>
            injection h with h1 h2
            subst h1
            exact ⟨secOk_leaf _ rfl, rfl⟩
          next => simp at h
        next =>
          obtain ⟨nd2, p2, hl, h⟩ := pbind_ok_elim h
          try simp only [] at h
          split at h
          next =>
            injection h with h1 h2
            subst h1
            obtain ⟨hch, hkind⟩ := ihCont toks _ _ _ nd2 p2 hnm hl
              (noChildren_triv _ rfl)
            refine ⟨?_, hkind.trans rfl⟩
            constructor
            · intro hks
              rw [hkind] at hks
              simp [Node.kind] at hks
            · exact hch
          next => simp at h
      next hstem =>
        split at h
        next =>
          obtain ⟨lines, p2, hl, h⟩ := pbind_ok_elim h
          try simp only [] at h
          split at h
          next =>
            injection h with h1 h2
            subst h1
            exact ⟨secOk_leaf _ rfl, rfl⟩
          next => simp at h
        next =>
          obtain ⟨nd2, p2, hl, h⟩ := pbind_ok_elim h
          try simp only [] at h
          split at h
          next =>
            injection h with h1 h2
            subst h1
            obtain ⟨hch, hkind⟩ := ihCont toks _ _ _ nd2 p2 hnm hl
              (noChildren_triv _ rfl)
            refine ⟨?_, hkind.trans rfl⟩
            constructor
            · intro hks
              rw [hkind] at hks
              simp [Node.kind] at hks
            · exact hch
          next => simp at h
    -- parseList
    · intro toks pos m nd q hnm h
      simp only [parseList] at h
      obtain ⟨hch, hkind⟩ := ihListLoop toks pos _ nd q hnm h (noChildren_triv _ rfl)
      refine ⟨?_, hkind.trans rfl⟩
      constructor
      · intro hks
        rw [hkind] at hks
        simp [Node.kind] at hks
      · exact hch
    -- listLoop
    · intro toks pos lst nd q hnm h hch
      simp only [listLoop] at h
      split at h
      next =>
        split at h
        next => injection h with h1 h2; subst h1; exact ⟨hch, rfl⟩
        next =>
          obtain ⟨u, p3, hs1, h⟩ := pbind_ok_elim h
          try simp only [] at h
          split at h
          next =>
            obtain ⟨u2, p5, hs2, h⟩ := pbind_ok_elim h
            try simp only [] at h
            obtain ⟨cont, p6, hc, h⟩ := pbind_ok_elim h
            try simp only [] at h
            obtain ⟨u3, p7, hs3, h⟩ := pbind_ok_elim h
            try simp only [] at h
            have hcont : SecOk cont := by
              split at hc
              next => exact (ihDelim toks p5 none cont p6 hnm hc).1
              next => exact (ihPpl toks p5 none cont p6 hnm hc).1
            obtain ⟨hch2, hkind2⟩ := ihListLoop toks p7 _ nd q hnm h (by
              intro c hcm
              rw [Node.add_children] at hcm
              rcases List.mem_append.1 hcm with h1 | h2
              · exact hch c h1
              · cases List.mem_singleton.1 h2
                split
                next =>
                  dsimp only
                  constructor
                  · intro hks
                    simp [Node.add, Node.kind, Node.add_kind] at hks
                  · intro x hx
                    simp only [Node.add_children, Node.children, List.nil_append] at hx
                    rcases List.mem_append.1 hx with hx1 | hx2
                    · cases List.mem_singleton.1 hx1
                      exact secOk_wrap _ _ _ _ _ _ _ _ _ (by decide)
                        (fun y hy => parseInlineContent_secOk _ _ y hy)
                    · cases List.mem_singleton.1 hx2
                      exact hcont
                next =>
                  dsimp only
                  constructor
                  · intro hks
                    simp [Node.add, Node.kind, Node.add_kind] at hks
                  · intro x hx
                    simp only [Node.add_children, Node.children, List.nil_append] at hx
                    cases List.mem_singleton.1 hx
                    exact hcont)
            exact ⟨hch2, hkind2.trans (Node.add_kind lst _)⟩
          next =>
            obtain ⟨u2, p4, hs4, h⟩ := pbind_ok_elim h
            try simp only [] at h
            obtain ⟨hch2, hkind2⟩ := ihListLoop toks p4 _ nd q hnm h (by
              intro c hcm
              rw [Node.add_children] at hcm
              rcases List.mem_append.1 hcm with h1 | h2
              · exact hch c h1
              · cases List.mem_singleton.1 h2
                split
                next =>
                  dsimp only
                  constructor
                  · intro hks
                    simp [Node.add, Node.kind, Node.add_kind] at hks
                  · intro x hx
                    simp only [Node.add_children, Node.children, List.nil_append] at hx
                    cases List.mem_singleton.1 hx
                    exact secOk_wrap _ _ _ _ _ _ _ _ _ (by decide)
                      (fun y hy => parseInlineContent_secOk _ _ y hy)
                next =>
                  dsimp only
                  exact secOk_leaf _ rfl)
            exact ⟨hch2, hkind2.trans (Node.add_kind lst _)⟩
      next =>
        split at h
        next => injection h with h1 h2; subst h1; exact ⟨hch, rfl⟩
        next =>
          split at h
          next => injection h with h1 h2; subst h1; exact ⟨hch, rfl⟩
          next =>
            obtain ⟨u, p2, hs1, h⟩ := pbind_ok_elim h
            try simp only [] at h
            obtain ⟨item2, p3, hi, h⟩ := pbind_ok_elim h
            try simp only [] at h
            obtain ⟨u2, p4, hs2, h⟩ := pbind_ok_elim h
            try simp only [] at h
            obtain ⟨hch2i, hkind2i⟩ := ihItem toks p2 _ item2 p3 hnm hi (by
              intro c hcm
              rw [Node.add_children] at hcm
              rcases List.mem_append.1 hcm with h1 | h2
              · split at h1
                next => simp [Node.children] at h1
                next => simp [Node.children] at h1
              · cases List.mem_singleton.1 h2
                exact secOk_wrap _ _ _ _ _ _ _ _ _ (by decide)
                  (fun y hy => parseInlineContent_secOk _ _ y hy))
            obtain ⟨hch2, hkind2⟩ := ihListLoop toks p4 _ nd q hnm h (by
              intro c hcm
              rw [Node.add_children] at hcm
              rcases List.mem_append.1 hcm with h1 | h2
              · exact hch c h1
              · cases List.mem_singleton.1 h2
                constructor
                · intro hks
                  rw [hkind2i, Node.add_kind] at hks
                  split at hks
                  next => simp [Node.kind] at hks
                  next => simp [Node.kind] at hks
                · exact hch2i)
            exact ⟨hch2, hkind2.trans (Node.add_kind lst _)⟩
    -- itemContLoop
    · intro toks pos item nd q hnm h hch
      simp only [itemContLoop] at h
      split at h
      next => injection h with h1 h2; subst h1; exact ⟨hch, rfl⟩
      next =>
        obtain ⟨u, p2, hs, h⟩ := pbind_ok_elim h
        try simp only [] at h
        obtain ⟨ob, p3, hb, h⟩ := pbind_ok_elim h
        try simp only [] at h
        obtain ⟨u2, p4, hs2, h⟩ := pbind_ok_elim h
        try simp only [] at h
        rcases ob with _ | c
        · try simp only [] at h
          obtain ⟨hch2, hkind2⟩ := ihItem toks p4 item nd q hnm h hch
          exact ⟨hch2, hkind2⟩
        · try simp only [] at h
          obtain ⟨hbOk, _⟩ := ihBlock toks p2 c p3 hnm hb
          have hch' : ∀ x ∈ (item.add c).children, SecOk x := by
            intro x hx
            rw [Node.add_children] at hx
            rcases List.mem_append.1 hx with h1 | h2
            · exact hch x h1
            · cases List.mem_singleton.1 h2
              exact hbOk
          obtain ⟨hch2, hkind2⟩ := ihItem toks p4 (item.add c) nd q hnm h hch'
          exact ⟨hch2, hkind2.trans (Node.add_kind item c)⟩
    -- parseDirective
    · intro toks pos m nd q hnm h
      simp only [parseDirective] at h
      split at h
      next =>
        obtain ⟨hch, hkind⟩ := ihDirLoop toks _ _ nd q hnm h (noChildren_triv _ rfl)
        refine ⟨?_, hkind.trans rfl⟩
        constructor
        · intro hks
          rw [hkind] at hks
          simp [Node.kind] at hks
        · exact hch
      next =>
        injection h with h1 h2
        subst h1
        exact ⟨secOk_leaf _ rfl, rfl⟩
    -- dirLoop
    · intro toks pos n nd q hnm h hch
      simp only [dirLoop] at h
      split at h
      next => injection h with h1 h2; subst h1; exact ⟨hch, rfl⟩
      next =>
        obtain ⟨u, p1, hs, h⟩ := pbind_ok_elim h
        try simp only [] at h
        split at h
        next =>
          injection h with h1 h2
          subst h1
          refine ⟨?_, Node.add_kind n _⟩
          intro c hc
          rw [Node.add_children] at hc
          rcases List.mem_append.1 hc with h1 | h2
          · exact hch c h1
          · cases List.mem_singleton.1 h2
            exact secOk_leaf _ rfl
        next =>
          split at h
          next => injection h with h1 h2; subst h1; exact ⟨hch, rfl⟩
          next =>
            obtain ⟨ob, p2, hb, h⟩ := pbind_ok_elim h
            rcases ob with _ | b
            · try simp only [] at h
              injection h with h1 h2; subst h1; exact ⟨hch, rfl⟩
            · try simp only [] at h
              obtain ⟨hbOk, _⟩ := ihBlock toks p1 b p2 hnm hb
              have hch' : ∀ c ∈ (n.add b).children, SecOk c := by
                intro c hc
                rw [Node.add_children] at hc
                rcases List.mem_append.1 hc with h1 | h2
                · exact hch c h1
                · cases List.mem_singleton.1 h2
                  exact hbOk
              obtain ⟨hch2, hkind2⟩ := ihDirLoop toks p2 (n.add b) nd q hnm h hch'
              exact ⟨hch2, hkind2.trans (Node.add_kind n b)⟩
    -- parseParagraphOrLiteral
    · intro toks pos m nd q hnm h
      simp only [parseParagraphOrLiteral] at h
      obtain ⟨lines, p1, hp, h⟩ := pbind_ok_elim h
      try simp only [] at h
      split at h
      next =>
        injection h with h1 h2
        subst h1
        exact ⟨secOk_leaf _ rfl, fun hks => by simp [Node.kind] at hks⟩
      next =>
        injection h with h1 h2
        subst h1
        refine ⟨secOk_wrap _ _ _ _ _ _ _ _ _ (by decide)
          (fun y hy => parseInlineContent_secOk _ _ y hy),
          fun hks => by simp [Node.kind] at hks⟩
    -- docLoop
    · intro toks pos d nd q hnm h hch
      simp only [docLoop] at h
      split at h
      next => injection h with h1 h2; subst h1; exact ⟨hch, rfl⟩
      next =>
        obtain ⟨u, p1, hs, h⟩ := pbind_ok_elim h
        try simp only [] at h
        split at h
        next => injection h with h1 h2; subst h1; exact ⟨hch, rfl⟩
        next =>
          obtain ⟨ob, p2, hb, h⟩ := pbind_ok_elim h
          rcases ob with _ | b
          · try simp only [] at h
            injection h with h1 h2; subst h1; exact ⟨hch, rfl⟩
          · try simp only [] at h
            obtain ⟨hbOk, _⟩ := ihBlock toks p1 b p2 hnm hb
            have hch' : ∀ c ∈ (d.add b).children, SecOk c := by
              intro c hc
              rw [Node.add_children] at hc
              rcases List.mem_append.1 hc with h1 | h2
              · exact hch c h1
              · cases List.mem_singleton.1 h2
                exact hbOk
            obtain ⟨hch2, hkind2⟩ := ihDocLoop toks p2 (d.add b) nd q hnm h hch'
            exact ⟨hch2, hkind2.trans (Node.add_kind d b)⟩

/-- Every successfully parsed document over a metadata-free stream
satisfies the nesting invariant. -/
theorem parseDocument_secOk (fuel : Nat) (toks : List LineTok) (pos : Nat) (nd : Node)
    (q : Nat) (hnm : NoMeta toks) (h : parseDocument fuel toks pos = .ok nd q) :
    SecOk nd := by
  rcases fuel with _ | fuel
  · simp [parseDocument] at h
  · simp only [parseDocument] at h
    obtain ⟨u, p1, hs, h⟩ := pbind_ok_elim h
    try simp only [] at h
    obtain ⟨kv, p2, hh, h⟩ := pbind_ok_elim h
    try simp only [] at h
    obtain ⟨hch, hkind⟩ := (parserSecOk fuel).2.2.2.2.2.2.2.2.2.2.2 toks p2
      (Node.mk K_Document 1 1 none [] [] [] kv []) nd q hnm h (noChildren_triv _ rfl)
    constructor
    · intro hks
      rw [hkind] at hks
      simp [Node.kind] at hks
    · exact hch

/-- C2, amended.  The claim's invariant — every child section sits at a
strictly greater level than its parent section — holds for every
successfully parsed document whose token stream contains no block
metadata tokens (`[[...]]` anchors, `[...]` attribute lines, `.Title`
lines).  With metadata tokens present it can fail (see the
counterexample): `secLoop`'s stop-guard peeks one token behind a
`BLOCK_ANCHOR`/`BLOCK_ATTRS` line but not behind a `BLOCK_TITLE` line,
and only one token behind. -/
theorem c2_section_nesting_amended :
    ∀ fuel toks nd q, NoMeta toks → parseTop fuel toks = .ok nd q → SecOk nd :=
  fun fuel toks nd q hnm h => parseDocument_secOk fuel toks 0 nd q hnm h

/-- C2, witness: the amended invariant applied to the metadata-free
document `== A` / `=== B` / `== C`. -/
theorem c2_nesting_witness :
    NoMeta (lexL ["== A", "=== B", "== C"]) ∧
    ∃ nd q, parseTop 30 (lexL ["== A", "=== B", "== C"]) = .ok nd q ∧ SecOk nd := by
  refine ⟨by decide, ?_⟩
  have hOk : resOk (parseTop 30 (lexL ["== A", "=== B", "== C"])) = true := rfl
  cases hp : parseTop 30 (lexL ["== A", "=== B", "== C"]) with
  | ok nd q =>
    exact ⟨nd, q, rfl, c2_section_nesting_amended 30 _ nd q (by decide) hp⟩
  | err e => rw [hp] at hOk; simp [resOk] at hOk
  | fuelOut => rw [hp] at hOk; simp [resOk] at hOk


/-! ### C9: the inline recursion depth is structurally bounded -/

/-- `findSub` returns the first occurrence: no earlier index carries the
pattern. -/
theorem findSub_min : ∀ {s pat : Str} {d : Nat}, findSub s pat = some d →
    ∀ i, i < d → ¬ pat.isPrefixOf (s.drop i) = true := by
  intro s
  induction s with
  | nil =>
    intro pat d h i hi
    unfold findSub at h
    split at h
    · injection h with h0
      omega
    · simp at h
  | cons c cs ih =>
    intro pat d h i hi
    unfold findSub at h
    split at h
    next hp =>
      injection h with h0
      omega
    next hnp =>
      simp only [] at h
      rcases hf : findSub cs pat with _ | d'
      · rw [hf] at h; simp at h
      · rw [hf] at h
        simp at h
        rcases i with _ | i'
        · simpa using hnp
        · exact ih hf i' (by omega)

theorem findSub_isSome_of_prefix : ∀ (i : Nat) (s pat : Str),
    pat.isPrefixOf (s.drop i) = true → (findSub s pat).isSome = true := by
  intro i
  induction i with
  | zero =>
    intro s pat h
    rw [List.drop_zero] at h
    unfold findSub
    split
    · rfl
    · simp_all
  | succ i ih =>
    intro s pat h
    rcases s with _ | ⟨c, cs⟩
    · simp only [List.drop_nil] at h
      unfold findSub
      rw [if_pos h]
      rfl
    · have hcs := ih cs pat h
      unfold findSub
      split
      · rfl
      · rcases hf : findSub cs pat with _ | d
        · rw [hf] at hcs; simp at hcs
        · simp [hf]

/-- `pat` occurs somewhere in `s`. -/
def hasSubstr (s pat : Str) : Bool := (findSub s pat).isSome

theorem infix_hasSubstr (s pat : Str) (h : pat <:+: s) : hasSubstr s pat = true := by
  obtain ⟨u, v, huv⟩ := h
  have hpre : pat.isPrefixOf (s.drop u.length) = true := by
    rw [← huv, List.append_assoc, List.drop_left]
    exact List.isPrefixOf_iff_prefix.mpr ⟨v, rfl⟩
  exact findSub_isSome_of_prefix u.length s pat hpre

theorem hasSubstrIsInfix (s pat : Str) (h : hasSubstr s pat = true) : pat <:+: s := by
  unfold hasSubstr at h
  rcases hf : findSub s pat with _ | d
  · rw [hf] at h; simp at h
  · obtain ⟨w, hw⟩ := List.isPrefixOf_iff_prefix.mp (findSub_bound hf).2
    exact ⟨s.take d, w, by rw [List.append_assoc, hw, List.take_append_drop]⟩

theorem hasSubstr_mono (t r pat : Str) (hir : t <:+: r) (h : hasSubstr t pat = true) :
    hasSubstr r pat = true :=
  infix_hasSubstr r pat ((hasSubstrIsInfix t pat h).trans hir)

theorem sliceMLInfix (r : Str) (a b : Nat) : sliceML r a b <:+: r :=
  (List.take_prefix b (r.drop a)).isInfix.trans (List.drop_suffix a r).isInfix

theorem dropInfix (r : Str) (a : Nat) : r.drop a <:+: r :=
  (List.drop_suffix a r).isInfix

theorem trimRPrefix (x : Str) : trimR x <+: x := by
  unfold trimR
  have h : x.reverse.dropWhile isSpaceC <:+ x.reverse := List.dropWhile_suffix _
  have h2 := List.reverse_prefix.mpr h
  rwa [List.reverse_reverse] at h2

theorem trimmedInfix (s : Str) : trimmed s <:+: s := by
  unfold trimmed
  exact (trimRPrefix (trimL s)).isInfix.trans (List.dropWhile_suffix _).isInfix

/-- The first-occurrence slice is free of the pattern. -/
theorem slice_no_sub (r pat : Str) (start d : Nat) (hp : pat ≠ [])
    (hfind : findSub (r.drop start) pat = some d) :
    hasSubstr ((r.drop start).take d) pat = false := by
  by_contra hcon
  rw [Bool.not_eq_false] at hcon
  obtain ⟨u, v, huv⟩ := hasSubstrIsInfix _ _ hcon
  have hpre : pat.isPrefixOf (((r.drop start).take d).drop u.length) = true := by
    rw [← huv, List.append_assoc, List.drop_left]
    exact List.isPrefixOf_iff_prefix.mpr ⟨v, rfl⟩
  have hpre2 : pat.isPrefixOf ((r.drop start).drop u.length) = true := by
    rw [List.isPrefixOf_iff_prefix] at hpre ⊢
    rw [List.drop_take] at hpre
    exact hpre.trans (List.take_prefix _ _)
  have hid : u.length < d := by
    have hlen := (List.isPrefixOf_iff_prefix.mp hpre).length_le
    have hl1 : 0 < pat.length := List.length_pos.mpr hp
    simp only [List.length_drop, List.length_take] at hlen
    omega
  exact findSub_min hfind u.length hid hpre2

theorem filter_length_mono {α : Type} (p q : α → Bool) :
    ∀ l : List α, (∀ x ∈ l, p x = true → q x = true) →
    (l.filter p).length ≤ (l.filter q).length := by
  intro l
  induction l with
  | nil => intro h; simp
  | cons a l ih =>
    intro h
    have ih' := ih (fun x hx => h x (List.mem_cons_of_mem a hx))
    by_cases hpa : p a = true
    · have hqa := h a (List.mem_cons_self a l) hpa
      rw [List.filter_cons, List.filter_cons, if_pos hpa, if_pos hqa]
      simpa using ih'
    · rw [List.filter_cons, List.filter_cons, if_neg hpa]
      by_cases hqa : q a = true
      · rw [if_pos hqa]
        exact le_trans ih' (by simp)
      · rw [if_neg hqa]
        exact ih'

theorem filter_length_lt {α : Type} (p q : α → Bool) (x0 : α)
    (hq : q x0 = true) (hp : p x0 = false) :
    ∀ l : List α, (∀ x ∈ l, p x = true → q x = true) → x0 ∈ l →
    (l.filter p).length < (l.filter q).length := by
  intro l
  induction l with
  | nil => intro _ hx0; exact absurd hx0 (List.not_mem_nil x0)
  | cons a l ih =>
    intro h hx0
    have hmono := filter_length_mono p q l (fun x hx => h x (List.mem_cons_of_mem a hx))
    rcases List.mem_cons.1 hx0 with rfl | hx0'
    · rw [List.filter_cons, List.filter_cons, if_pos hq, if_neg (by simp [hp])]
      simpa using Nat.lt_succ_of_le hmono
    · have ih' := ih (fun x hx => h x (List.mem_cons_of_mem a hx)) hx0'
      by_cases hpa : p a = true
      · rw [List.filter_cons, List.filter_cons, if_pos hpa,
          if_pos (h a (List.mem_cons_self a l) hpa)]
        simpa using ih'
      · rw [List.filter_cons, List.filter_cons, if_neg hpa]
        by_cases hqa : q a = true
        · rw [if_pos hqa]
          exact ih'.trans (Nat.lt_succ_self _)
        · rw [if_neg hqa]
          exact ih'

/-- The close markers of the nesting inline constructs: whenever the
scanner recurses into an inner text, that text lost all occurrences of
one of these (the matched construct's close marker). -/
def inlineMarkers : List Str :=
  [str ">>", str "]]", str "]", str "**", str "*", str "__", str "_",
   str "\x60\x60", str "#", str "+++", str "++", str "+"]

/-- How many of the twelve close markers occur in `r`: the measure that
strictly decreases along the scanner's inner recursion. -/
def wMeasure (r : Str) : Nat := (inlineMarkers.filter (fun m => hasSubstr r m)).length

theorem wMeasure_le_12 (r : Str) : wMeasure r ≤ 12 := by
  unfold wMeasure
  exact le_trans (List.length_filter_le _ _) (by rfl)

theorem wMeasure_mono (t r : Str) (h : t <:+: r) : wMeasure t ≤ wMeasure r := by
  unfold wMeasure
  exact filter_length_mono _ _ inlineMarkers
    (fun m _ hm => hasSubstr_mono t r m h hm)

/-- The generic step: an inner slice bounded by the first occurrence of
a marker after `start` is an infix with strictly smaller measure. -/
theorem slice_measure (r pat : Str) (start j : Nat) (hm : pat ∈ inlineMarkers)
    (hfind : idxS r pat start = some j) :
    sliceML r start (j - start) <:+: r ∧
    wMeasure (sliceML r start (j - start)) < wMeasure r := by
  unfold idxS at hfind
  rcases hf : findSub (r.drop start) pat with _ | d
  · rw [hf] at hfind; simp at hfind
  · rw [hf] at hfind
    simp only [Option.map] at hfind
    injection hfind with hfind
    have hj : j - start = d := by omega
    have hp : pat ≠ [] := by
      intro h0
      subst h0
      exact absurd hm (by decide)
    refine ⟨sliceMLInfix r start (j - start), ?_⟩
    have hno : hasSubstr (sliceML r start (j - start)) pat = false := by
      unfold sliceML
      rw [hj]
      exact slice_no_sub r pat start d hp hf
    have hyes : hasSubstr r pat = true := by
      apply infix_hasSubstr
      have hpre := List.isPrefixOf_iff_prefix.mp (findSub_bound hf).2
      exact (hpre.isInfix.trans (List.drop_suffix d (r.drop start)).isInfix).trans
        (List.drop_suffix start r).isInfix
    unfold wMeasure
    exact filter_length_lt _ _ pat hyes hno inlineMarkers
      (fun m _ hms => hasSubstr_mono _ r m (sliceMLInfix r start (j - start)) hms) hm

theorem tryAttrRef_measure {r : Str} {ht : InlHit} (h : tryAttrRef r = some ht) :
    ht.rest <:+: r ∧ ∀ t, ht.innerRec = some t → t <:+: r ∧ wMeasure t < wMeasure r := by
  unfold tryAttrRef at h
  split at h
  next hs =>
    split at h
    next j hj =>
      split at h
      next hlt =>
        injection h with h0
        subst h0
        refine ⟨dropInfix r (j + 1), ?_⟩
        intro t ht'
        simp [InlHit.innerRec] at ht'
      next => simp at h
    next => simp at h
  next => simp at h

theorem tryXref_measure {r : Str} {ht : InlHit} (h : tryXref r = some ht) :
    ht.rest <:+: r ∧ ∀ t, ht.innerRec = some t → t <:+: r ∧ wMeasure t < wMeasure r := by
  unfold tryXref at h
  split at h
  next hs =>
    split at h
    next j hj =>
      split at h
      next hlt =>
        split at h
        next hcm =>
          injection h with h0
          subst h0
          refine ⟨dropInfix r (j + 2), ?_⟩
          intro t ht'
          simp [InlHit.innerRec] at ht'
        next comma hcm =>
          injection h with h0
          subst h0
          refine ⟨dropInfix r (j + 2), ?_⟩
          intro t ht'
          simp [InlHit.innerRec] at ht'
          subst ht'
          have hs2 := slice_measure r (str ">>") 2 j (by decide) hj
          have hchain : trimmed ((sliceML r 2 (j - 2)).drop (comma + 1)) <:+:
              sliceML r 2 (j - 2) :=
            (trimmedInfix _).trans (dropInfix _ _)
          exact ⟨hchain.trans hs2.1, lt_of_le_of_lt (wMeasure_mono _ _ hchain) hs2.2⟩
      next => simp at h
    next => simp at h
  next => simp at h

theorem tryAnchor_measure {r : Str} {ht : InlHit} (h : tryAnchor r = some ht) :
    ht.rest <:+: r ∧ ∀ t, ht.innerRec = some t → t <:+: r ∧ wMeasure t < wMeasure r := by
  unfold tryAnchor at h
  split at h
  next hs =>
    split at h
    next j hj =>
      split at h
      next hlt =>
        split at h
        next hcm =>
          injection h with h0
          subst h0
          refine ⟨dropInfix r (j + 2), ?_⟩
          intro t ht'
          simp [InlHit.innerRec] at ht'
        next comma hcm =>
          injection h with h0
          subst h0
          refine ⟨dropInfix r (j + 2), ?_⟩
          intro t ht'
          simp [InlHit.innerRec] at ht'
          subst ht'
          have hs2 := slice_measure r (str "]]") 2 j (by decide) hj
          have hchain : trimmed ((sliceML r 2 (j - 2)).drop (comma + 1)) <:+:
              sliceML r 2 (j - 2) :=
            (trimmedInfix _).trans (dropInfix _ _)
          exact ⟨hchain.trans hs2.1, lt_of_le_of_lt (wMeasure_mono _ _ hchain) hs2.2⟩
      next => simp at h
    next => simp at h
  next => simp at h

theorem tryUrl_measure {r : Str} {ht : InlHit} (h : tryUrl r = some ht) :
    ht.rest <:+: r ∧ ∀ t, ht.innerRec = some t → t <:+: r ∧ wMeasure t < wMeasure r := by
  unfold tryUrl at h
  split at h
  next hs =>
    split at h
    next hlen =>
      injection h with h0
      subst h0
      refine ⟨dropInfix r _, ?_⟩
      intro t ht'
      simp [InlHit.innerRec] at ht'
    next => simp at h
  next => simp at h

theorem tryMac_measure {r : Str} {ht : InlHit} (h : tryMac r = some ht) :
    ht.rest <:+: r ∧ ∀ t, ht.innerRec = some t → t <:+: r ∧ wMeasure t < wMeasure r := by
  unfold tryMac at h
  split at h
  next => simp at h
  next colon hc =>
    split at h
    next hg =>
      split at h
      next lb hlb =>
        split at h
        next rb hrb =>
          injection h with h0
          subst h0
          unfold idxC at hrb
          refine ⟨dropInfix r (rb + 1), ?_⟩
          intro t ht'
          simp [InlHit.innerRec] at ht'
          subst ht'
          exact slice_measure r [']'] (lb + 1) rb (by decide) hrb
        next => simp at h
      next => simp at h
    next => simp at h

theorem tryBold2_measure {r : Str} {ht : InlHit} (h : tryBold2 r = some ht) :
    ht.rest <:+: r ∧ ∀ t, ht.innerRec = some t → t <:+: r ∧ wMeasure t < wMeasure r := by
  unfold tryBold2 at h
  split at h
  next hs =>
    split at h
    next j hj =>
      split at h
      next hlt =>
        injection h with h0
        subst h0
        refine ⟨dropInfix r (j + 2), ?_⟩
        intro t ht'
        simp [InlHit.innerRec] at ht'
        subst ht'
        exact slice_measure r (str "**") 2 j (by decide) hj
      next => simp at h
    next => simp at h
  next => simp at h

theorem tryBold1_measure {r : Str} {ht : InlHit} (h : tryBold1 r = some ht) :
    ht.rest <:+: r ∧ ∀ t, ht.innerRec = some t → t <:+: r ∧ wMeasure t < wMeasure r := by
  unfold tryBold1 at h
  split at h
  next hs =>
    split at h
    next j hj =>
      unfold idxC at hj
      split at h
      next hlt =>
        injection h with h0
        subst h0
        refine ⟨dropInfix r (j + 1), ?_⟩
        intro t ht'
        simp [InlHit.innerRec] at ht'
        subst ht'
        exact slice_measure r ['*'] 1 j (by decide) hj
      next => simp at h
    next => simp at h
  next => simp at h

theorem tryItal2_measure {r : Str} {ht : InlHit} (h : tryItal2 r = some ht) :
    ht.rest <:+: r ∧ ∀ t, ht.innerRec = some t → t <:+: r ∧ wMeasure t < wMeasure r := by
  unfold tryItal2 at h
  split at h
  next hs =>
    split at h
    next j hj =>
      split at h
      next hlt =>
        injection h with h0
        subst h0
        refine ⟨dropInfix r (j + 2), ?_⟩
        intro t ht'
        simp [InlHit.innerRec] at ht'
        subst ht'
        exact slice_measure r (str "__") 2 j (by decide) hj
      next => simp at h
    next => simp at h
  next => simp at h

theorem tryItal1_measure {r : Str} {ht : InlHit} (h : tryItal1 r = some ht) :
    ht.rest <:+: r ∧ ∀ t, ht.innerRec = some t → t <:+: r ∧ wMeasure t < wMeasure r := by
  unfold tryItal1 at h
  split at h
  next hs =>
    split at h
    next j hj =>
      unfold idxC at hj
      split at h
      next hlt =>
        injection h with h0
        subst h0
        refine ⟨dropInfix r (j + 1), ?_⟩
        intro t ht'
        simp [InlHit.innerRec] at ht'
        subst ht'
        exact slice_measure r ['_'] 1 j (by decide) hj
      next => simp at h
    next => simp at h
  next => simp at h

theorem tryMono2_measure {r : Str} {ht : InlHit} (h : tryMono2 r = some ht) :
    ht.rest <:+: r ∧ ∀ t, ht.innerRec = some t → t <:+: r ∧ wMeasure t < wMeasure r := by
  unfold tryMono2 at h
  split at h
  next hs =>
    split at h
    next j hj =>
      split at h
      next hlt =>
        injection h with h0
        subst h0
        refine ⟨dropInfix r (j + 2), ?_⟩
        intro t ht'
        simp [InlHit.innerRec] at ht'
        subst ht'
        exact slice_measure r (str "\x60\x60") 2 j (by decide) hj
      next => simp at h
    next => simp at h
  next => simp at h

theorem tryMono1_measure {r : Str} {ht : InlHit} (h : tryMono1 r = some ht) :
    ht.rest <:+: r ∧ ∀ t, ht.innerRec = some t → t <:+: r ∧ wMeasure t < wMeasure r := by
  unfold tryMono1 at h
  split at h
  next hs =>
    split at h
    next j hj =>
      split at h
      next hlt =>
        injection h with h0
        subst h0
        refine ⟨dropInfix r (j + 1), ?_⟩
        intro t ht'
        simp [InlHit.innerRec] at ht'
      next => simp at h
    next => simp at h
  next => simp at h

theorem tryHigh_measure {r : Str} {ht : InlHit} (h : tryHigh r = some ht) :
    ht.rest <:+: r ∧ ∀ t, ht.innerRec = some t → t <:+: r ∧ wMeasure t < wMeasure r := by
  unfold tryHigh at h
  split at h
  next hs =>
    split at h
    next j hj =>
      unfold idxC at hj
      split at h
      next hlt =>
        injection h with h0
        subst h0
        refine ⟨dropInfix r (j + 1), ?_⟩
        intro t ht'
        simp [InlHit.innerRec] at ht'
        subst ht'
        exact slice_measure r ['#'] 1 j (by decide) hj
      next => simp at h
    next => simp at h
  next => simp at h

theorem trySup_measure {r : Str} {ht : InlHit} (h : trySup r = some ht) :
    ht.rest <:+: r ∧ ∀ t, ht.innerRec = some t → t <:+: r ∧ wMeasure t < wMeasure r := by
  unfold trySup at h
  split at h
  next hs =>
    split at h
    next j hj =>
      split at h
      next hlt =>
        injection h with h0
        subst h0
        refine ⟨dropInfix r (j + 1), ?_⟩
        intro t ht'
        simp [InlHit.innerRec] at ht'
      next => simp at h
    next => simp at h
  next => simp at h

theorem trySub_measure {r : Str} {ht : InlHit} (h : trySub r = some ht) :
    ht.rest <:+: r ∧ ∀ t, ht.innerRec = some t → t <:+: r ∧ wMeasure t < wMeasure r := by
  unfold trySub at h
  split at h
  next hs =>
    split at h
    next j hj =>
      split at h
      next hlt =>
        injection h with h0
        subst h0
        refine ⟨dropInfix r (j + 1), ?_⟩
        intro t ht'
        simp [InlHit.innerRec] at ht'
      next => simp at h
    next => simp at h
  next => simp at h

theorem tryPass_measure {r : Str} {ht : InlHit} (h : tryPass r = some ht) :
    ht.rest <:+: r ∧ ∀ t, ht.innerRec = some t → t <:+: r ∧ wMeasure t < wMeasure r := by
  unfold tryPass at h
  split at h
  next hs =>
    have hpos : 1 ≤ (r.takeWhile (· = '+')).length := by
      have hpre := List.isPrefixOf_iff_prefix.mp hs
      obtain ⟨tl, htl⟩ := hpre
      have hr : r = '+' :: tl := by simpa [str] using htl.symm
      subst hr
      simp [List.takeWhile]
    split at h
    next hle3 =>
      split at h
      next j hj =>
        split at h
        next hlt =>
          injection h with h0
          subst h0
          refine ⟨dropInfix r _, ?_⟩
          intro t ht'
          simp [InlHit.innerRec] at ht'
          subst ht'
          have hmem : List.replicate ((r.takeWhile (· = '+')).length) '+' ∈ inlineMarkers := by
            have h13 : (r.takeWhile (· = '+')).length = 1 ∨
                (r.takeWhile (· = '+')).length = 2 ∨
                (r.takeWhile (· = '+')).length = 3 := by omega
            rcases h13 with he | he | he <;> rw [he] <;> decide
          exact slice_measure r (List.replicate ((r.takeWhile (· = '+')).length) '+')
            ((r.takeWhile (· = '+')).length) j hmem hj
        next => simp at h
      next => simp at h
    next => simp at h
  next => simp at h

/-- Any hit of the inline scanner: the rest is an infix of the current
suffix, and any recursively re-parsed inner text is an infix with
strictly smaller marker measure. -/
theorem hitTry_measure {r : Str} {ht : InlHit} (he : hitTry r = some ht) :
    ht.rest <:+: r ∧ ∀ t, ht.innerRec = some t → t <:+: r ∧ wMeasure t < wMeasure r := by
  have orCase : ∀ {a b : Option InlHit}, a.or b = some ht →
      a = some ht ∨ b = some ht := by
    intro a b hab
    cases a <;> simp_all [Option.or]
  unfold hitTry at he
  rcases orCase he with h | he
  · exact tryAttrRef_measure h
  rcases orCase he with h | he
  · exact tryXref_measure h
  rcases orCase he with h | he
  · exact tryAnchor_measure h
  rcases orCase he with h | he
  · exact tryUrl_measure h
  rcases orCase he with h | he
  · exact tryMac_measure h
  rcases orCase he with h | he
  · exact tryBold2_measure h
  rcases orCase he with h | he
  · exact tryBold1_measure h
  rcases orCase he with h | he
  · exact tryItal2_measure h
  rcases orCase he with h | he
  · exact tryItal1_measure h
  rcases orCase he with h | he
  · exact tryMono2_measure h
  rcases orCase he with h | he
  · exact tryMono1_measure h
  rcases orCase he with h | he
  · exact tryHigh_measure h
  rcases orCase he with h | he
  · exact trySup_measure h
  rcases orCase he with h | he
  · exact trySub_measure h
  exact tryPass_measure he

/-- The scanner's `depth` argument is never consulted: the result is the
same at every depth (there is no recursion-depth guard in the code). -/
theorem scanLoop_depth_zero (lineNo : Nat) : ∀ (fuel : Nat) (r acc : Str) (d : Nat),
    scanLoop lineNo d fuel r acc = scanLoop lineNo 0 fuel r acc := by
  intro fuel
  induction fuel with
  | zero => intro r acc d; rcases r with _ | ⟨c, cs⟩ <;> rfl
  | succ fuel ih =>
    intro r acc d
    rcases r with _ | ⟨c, cs⟩
    · rfl
    · rw [scanLoop, scanLoop]
      rcases hh : hitTry (c :: cs) with _ | hit
      · exact ih cs (acc ++ [c]) d
      · cases hit with
        | hAttrRef nm rest =>
          simp only []
          rw [ih rest [] d]
        | hXref tgt innerTxt rest =>
          rcases innerTxt with _ | t
          · simp only []
            rw [ih rest [] d]
          · simp only []
            rw [ih t [] (d+1), ih t [] (0+1), ih rest [] d]
        | hAnchor nm innerTxt rest =>
          rcases innerTxt with _ | t
          · simp only []
            rw [ih rest [] d]
          · simp only []
            rw [ih t [] (d+1), ih t [] (0+1), ih rest [] d]
        | hUrl tgt rest =>
          simp only []
          rw [ih rest [] d]
        | hMac nm tgt t rest =>
          simp only []
          rw [ih t [] (d+1), ih t [] (0+1), ih rest [] d]
        | hEmph enm t rest =>
          simp only []
          rw [ih t [] (d+1), ih t [] (0+1), ih rest [] d]
        | hMonoRaw txt rest =>
          simp only []
          rw [ih rest [] d]
        | hSup txt rest =>
          simp only []
          rw [ih rest [] d]
        | hSub txt rest =>
          simp only []
          rw [ih rest [] d]
        | hPass pn t rest =>
          simp only []
          rw [ih t [] (d+1), ih t [] (0+1), ih rest [] d]

/-- The recursion depth of the inline scanner is bounded by the marker
measure of the input. -/
theorem inlineDepthF_le : ∀ (fuel : Nat) (r : Str), inlineDepthF fuel r ≤ wMeasure r := by
  intro fuel
  induction fuel with
  | zero =>
    intro r
    rcases r with _ | ⟨c, cs⟩ <;> simp [inlineDepthF]
  | succ fuel ih =>
    intro r
    rcases r with _ | ⟨c, cs⟩
    · simp [inlineDepthF]
    · rw [inlineDepthF]
      rcases hh : hitTry (c :: cs) with _ | ht
      · exact le_trans (ih cs)
          (wMeasure_mono cs (c :: cs) (List.suffix_cons c cs).isInfix)
      · obtain ⟨hrest, hinner⟩ := hitTry_measure hh
        simp only []
        rcases hi : ht.innerRec with _ | t
        · exact le_trans (ih ht.rest) (wMeasure_mono _ _ hrest)
        · obtain ⟨hti, htw⟩ := hinner t hi
          refine max_le ?_ ?_
          · have h1 := ih t
            omega
          · exact le_trans (ih ht.rest) (wMeasure_mono _ _ hrest)

/-- C9, counterexample.  The claim attributes bounded recursion to a
recursion depth guard; there is none: the `depth` parameter is threaded
to the recursive calls but never consulted, so the scanner behaves
identically at depth 0 and at depth 1000000 — here on an input that
does recurse three levels deep. -/
theorem c9_no_depth_guard_counterexample :
    parseInlineContentRec (str "*_#a#_*") 1 0 =
      parseInlineContentRec (str "*_#a#_*") 1 1000000 ∧
    inlineDepth (str "*_#a#_*") = 3 := by
  constructor
  · unfold parseInlineContentRec
    rw [scanLoop_depth_zero 1 _ _ _ 0, scanLoop_depth_zero 1 _ _ _ 1000000]
  · rfl

/-- C9, amended.  The recursion of the inline scanner is bounded for
every input — but not by a depth guard.  The `depth` parameter is never
consulted (second conjunct: the scanner's result is depth-independent);
instead, every recursively re-parsed inner text is an infix of the
current suffix that has lost all occurrences of the matched construct's
close marker, so the recursion depth is bounded by the number of
distinct close markers: at most 12 for every input (first conjunct);
the nested input `*_#a#_*` reaches depth 3 (third conjunct). -/
theorem c9_inline_depth_amended :
    (∀ s, inlineDepth s ≤ 12) ∧
    (∀ lineNo fuel r acc d d',
       scanLoop lineNo d fuel r acc = scanLoop lineNo d' fuel r acc) ∧
    inlineDepth (str "*_#a#_*") = 3 := by
  refine ⟨?_, ?_, rfl⟩
  · intro s
    exact le_trans (inlineDepthF_le s.length s) (wMeasure_le_12 s)
  · intro lineNo fuel r acc d d'
    rw [scanLoop_depth_zero lineNo fuel r acc d, scanLoop_depth_zero lineNo fuel r acc d']

end LeanDocLD
